import Mathlib

/-!
# VSTGUI: the Mandelbrot example, values, command registration, the search text edit

A shallow embedding of

* `calculateMandelbrotBitmap`, the strip task it hands to the background context, the
  completion closure it hands to the main context, `calculateColor`, `getColorToInt32` and
  `ViewController::updateMandelbrot` / `ViewController::viewWillDelete`
  (`standalone/examples/mandelbrot/source/mandelbrotwindow.cpp`), in `Mandelbrot`;
* `Value` and `StepValue` (`standalone/detail/value.cpp`) and `Application::registerCommand`
  and `Application::init` (`standalone/detail/application.cpp`), in `Standalone`;
* `CSearchTextEdit::getClearMarkRect` and `CSearchTextEdit::getTextRect`
  (`lib/controls/csearchtextedit.cpp`), in `VSTGUI`.

Conventions of the embedding.

* `CCoord`, the coordinate type of `CPoint`, is VSTGUI's `double`.  Every value that the
  strip code computes from an integral height is a multiple of `1/64` far below `2^53`, so
  the floating point operations involved are exact and are modelled by the rationals.
* `auto y = 0` and `auto i = 0` are C++ `int`s.  They are modelled by unbounded integers
  (`i` only counts upwards from zero and is a natural number); no value leaves the 32 bit
  range for heights below `2^30`.
* `uint32_t` values (`*counter`, `taskID`, `id`) are natural numbers reduced modulo `2^32`.
* Loops that the source does not bound carry a fuel argument and answer `none` when the
  fuel is used up before the loop condition fails.
* The rectangles of `CSearchTextEdit` have arbitrary doubles as coordinates (`Double`: a
  finite number, an infinity or NaN), and their sums and differences are rounded to the
  nearest double (`roundDouble`).
-/

namespace Mandelbrot

/-! ## The embedding -/

/-- Modelled from the spec: the declaration of `CCoord`, the type of `CPoint::x` and
`CPoint::y` (`vstgui/lib/vstguibase.h`, not among the sources).  It is a `double`: the strip
height is the exact quotient "1/64th of H", `updateMandelbrot` scales `size.y` by the
`double` scale factor, and `csearchtextedit.cpp` insets a rectangle by
`r.getWidth () / (M_PI * 2.) + 1`.  The rationals model the values exactly (see the
conventions above). -/
abbrev CCoord := ℚ

/-- Conversion of a `double` to `int`: the fractional part is discarded (truncation toward
zero), as in the compound assignment `y += numLinesPerTask` on an `int`. -/
def toInt (x : CCoord) : Int := if 0 ≤ x then ⌊x⌋ else ⌈x⌉

/-- Wrap-around of `uint32_t` arithmetic. -/
def wrap32 (n : Nat) : Nat := n % 2 ^ 32

/-- Values captured by the task lambda `[=, &taskID]` that its row loop uses. -/
structure StripTask where
  y : Int
  numLinesPerTask : CCoord
  size_y : CCoord
  id : Nat
deriving DecidableEq

/-- State of the dispatch loop of `calculateMandelbrotBitmap`: the row cursor `y`, the shared
`*counter`, and the tasks handed to `Async::perform (Async::Context::Background, ..)` so far,
oldest first. -/
structure Dispatch where
  y : Int
  counter : Nat
  background : List StripTask
deriving DecidableEq

/-- One iteration of the body of `for (auto y = 0; y < size.y; y += numLinesPerTask)`:
`++(*counter)`, submit the task, then advance the cursor. -/
def dispatchBody (size_y : CCoord) (id : Nat) (s : Dispatch) : Dispatch :=
  let numLinesPerTask : CCoord := size_y / 64
  { y := toInt ((s.y : CCoord) + numLinesPerTask)
    counter := wrap32 (s.counter + 1)
    background := s.background ++ [⟨s.y, numLinesPerTask, size_y, id⟩] }

/-- The dispatch loop, `none` when the fuel is used up before `y < size.y` fails. -/
def dispatchLoop (size_y : CCoord) (id : Nat) : Nat → Dispatch → Option Dispatch
  | 0, _ => none
  | fuel + 1, s =>
    if (s.y : CCoord) < size_y then dispatchLoop size_y id fuel (dispatchBody size_y id s)
    else some s

/-- The state after `n` passes through the loop head (fewer when the loop has been left):
the observable prefix of a run, also of one that never leaves the loop. -/
def dispatchIter (size_y : CCoord) (id : Nat) : Nat → Dispatch → Dispatch
  | 0, s => s
  | n + 1, s =>
    if (s.y : CCoord) < size_y then dispatchIter size_y id n (dispatchBody size_y id s)
    else s

/-- `calculateMandelbrotBitmap`: when `CBitmapPixelAccess::create` succeeds (`pa`), run the
dispatch loop from `y = 0` with a fresh counter of `0`; otherwise do nothing. -/
def calculateMandelbrotBitmap (fuel : Nat) (pa : Bool) (size_y : CCoord) (id : Nat) :
    Option Dispatch :=
  if pa then dispatchLoop size_y id fuel ⟨0, 0, []⟩ else some ⟨0, 0, []⟩

/-- How the row loop of a strip task was left. -/
inductive Exit
  | completed
  | pastEnd
  | stale
deriving DecidableEq

/-- Row loop of the task lambda, `for (auto i = 0; i < numLinesPerTask; ++i)`.
`taskID k` is the value the `k`-th load of the atomic token returns.  The result lists the
rows passed to `calculateLine` (every pixel of such a row is written) and the way the loop
was left; `none` when the fuel is used up. -/
def rowLoop (t : StripTask) (taskID : Nat → Nat) : Nat → Nat → Option (List Int × Exit)
  | 0, _ => none
  | fuel + 1, i =>
    if (i : CCoord) < t.numLinesPerTask then
      if ((t.y + (i : Int) : Int) : CCoord) ≥ t.size_y then some ([], Exit.pastEnd)
      else if taskID i ≠ t.id then some ([], Exit.stale)
      else (rowLoop t taskID fuel (i + 1)).map (fun r => ((t.y + (i : Int)) :: r.1, r.2))
    else some ([], Exit.completed)

/-- Modelled from the spec: `calculateLine` (`mandelbrot.h`, not among the sources) computes
every pixel of the row it is given and hands it to the lambda that stores it, so a call of
`calculateLine (y + i, ..)` is recorded as the row `y + i` being written.
The type lists what a strip task does that is visible outside of it. -/
inductive Effect
  | calculateLine (row : Int)
  | performMain (id : Nat)
deriving DecidableEq

/-- The task lambda: the row loop, then `Async::perform (Async::Context::Main, ..)` with the
completion closure of request `id`. -/
def stripTask (t : StripTask) (taskID : Nat → Nat) (fuel : Nat) : Option (List Effect × Exit) :=
  (rowLoop t taskID fuel 0).map
    (fun r => (r.1.map Effect.calculateLine ++ [Effect.performMain t.id], r.2))

/-- A bitmap: the request it was allocated for (`new CBitmap` in `updateMandelbrot`)
and the rows written into it so far. -/
structure Bitmap where
  request : Nat
  lines : List Int
deriving DecidableEq

/-- The parts of `ViewController` the example's background calculation touches: the atomic
token `taskID`, whether `mandelbrotView` is non-null, and the trace of the calls
`mandelbrotView->setBackground (bitmap)`, oldest first. -/
structure ViewController where
  taskID : Nat
  mandelbrotView : Bool
  setBackground : List Bitmap
deriving DecidableEq

/-- The ready callback that `updateMandelbrot` passes on,
`if (id == taskID && mandelbrotView) mandelbrotView->setBackground (bitmap);`. -/
def readyCallback (vc : ViewController) (id : Nat) (bitmap : Bitmap) : ViewController :=
  if id = vc.taskID ∧ vc.mandelbrotView = true then
    { vc with setBackground := vc.setBackground ++ [bitmap] }
  else vc

/-- The completion closure `if (--(*counter) == 0) readyCallback (id, bitmap);` seen from the
counter: the new counter and whether the callback is invoked. -/
def completion (counter : Nat) : Nat × Bool :=
  let c := wrap32 (counter + (2 ^ 32 - 1))
  (c, decide (c = 0))

/-- `ViewController::updateMandelbrot` for a view height `size_y` (the height of
`mandelbrotView` times the scale factor, taken as given): `auto id = ++taskID;` and the
dispatch of the new request.  Returns the controller, the id and the dispatch state; `none`
when the dispatch loop does not finish within the fuel. -/
def updateMandelbrot (fuel : Nat) (pa : Bool) (size_y : CCoord) (vc : ViewController) :
    Option (ViewController × Nat × Dispatch) :=
  let id := wrap32 (vc.taskID + 1)
  (calculateMandelbrotBitmap fuel pa size_y id).map (fun d => ({ vc with taskID := id }, id, d))

/-- `ViewController::viewWillDelete`: `++taskID; mandelbrotView = nullptr;`. -/
def viewWillDelete (vc : ViewController) : ViewController :=
  { vc with taskID := wrap32 (vc.taskID + 1), mandelbrotView := false }

/-- One request in flight together with the controller: the request's captured `id`, its
bitmap, its shared `*counter`, its tasks waiting in the background context, the number of its
completion closures waiting in the main context (they are all the same closure), and the
invocations of `readyCallback` made for it (arguments as they were at the call). -/
structure World where
  vc : ViewController
  id : Nat
  bitmap : Bitmap
  counter : Nat
  background : List StripTask
  main : Nat
  ready : List (Nat × Bitmap)

/-- The world right after `calculateMandelbrotBitmap` has returned the dispatch state `d`. -/
def World.start (vc : ViewController) (id : Nat) (d : Dispatch) : World :=
  { vc := vc, id := id, bitmap := ⟨id, []⟩, counter := d.counter, background := d.background,
    main := 0, ready := [] }

/-- An effect of a strip task applied to the world: a computed row lands in the bitmap, a
posted completion closure joins the main queue. -/
def World.perform (w : World) : Effect → World
  | Effect.calculateLine row => { w with bitmap := { w.bitmap with lines := w.bitmap.lines ++ [row] } }
  | Effect.performMain _ => { w with main := w.main + 1 }

/-- What can happen next.  `worker k taskID fuel`: a background worker takes the `k`-th
waiting task and runs it, its loads of the token returning `taskID 0, taskID 1, ..`.
`signal`: the main context runs the next completion closure of the request.
`supersede`: `updateMandelbrot` is called for a newer request.  `delete`: `viewWillDelete`. -/
inductive Event
  | worker (k : Nat) (taskID : Nat → Nat) (fuel : Nat)
  | signal
  | supersede (fuel : Nat) (pa : Bool) (size_y : CCoord)
  | delete

/-- Modelled from the spec: `Async::perform` (`vstgui/standalone/iasync.h` and its platform
implementation, not among the sources).  The background context runs the submitted tasks in
any order; the main context is a single serialized queue, so the completion closures run
one at a time and only after the call that dispatched the request has returned, which is
where `World.start` begins.  The closures themselves are the embedded source.
One event; `none` when the event cannot happen in this world (no such task, no closure
queued, or a loop that does not finish within its fuel). -/
def World.step (w : World) : Event → Option World
  | Event.worker k taskID fuel =>
    match w.background[k]? with
    | none => none
    | some t =>
      match stripTask t taskID fuel with
      | none => none
      | some r => some (r.1.foldl World.perform { w with background := w.background.eraseIdx k })
  | Event.signal =>
    if w.main = 0 then none
    else
      let c := completion w.counter
      if c.2 then
        some { w with main := w.main - 1, counter := c.1,
                      ready := w.ready ++ [(w.id, w.bitmap)],
                      vc := readyCallback w.vc w.id w.bitmap }
      else some { w with main := w.main - 1, counter := c.1 }
  | Event.supersede fuel pa size_y =>
    (updateMandelbrot fuel pa size_y w.vc).map (fun r => { w with vc := r.1 })
  | Event.delete => some { w with vc := viewWillDelete w.vc }

/-- A schedule of events, run from left to right. -/
def World.run : List Event → World → Option World
  | [], w => some w
  | e :: es, w =>
    match w.step e with
    | none => none
    | some w' => World.run es w'

/-- The tasks the dispatch loop has submitted after `n` iterations for an integral height
`H`: the `k`-th starts at row `k * (H / 64)` (natural number division). -/
def strips (H id n : Nat) : List StripTask :=
  (List.range n).map (fun k => ⟨((k * (H / 64) : Nat) : Int), (H : CCoord) / 64, (H : CCoord), id⟩)

/-- Number of strips dispatched for an integral height `H ≥ 64`: the cursor advances by
`H / 64` rows per strip until it reaches `H`. -/
def stripCount (H : Nat) : Nat := (H + H / 64 - 1) / (H / 64)

/-- The state in which the dispatch loop ends for an integral height `H ≥ 64`. -/
def dispatched (H id : Nat) : Dispatch :=
  ⟨((stripCount H * (H / 64) : Nat) : Int), stripCount H, strips H id (stripCount H)⟩

/-- Row `r` lies in the range the task `t` is to compute: at or after its start row, fewer
than `numLinesPerTask` rows from it, and inside the bitmap. -/
def StripTask.covers (t : StripTask) (r : Int) : Prop :=
  t.y ≤ r ∧ ((r - t.y : Int) : CCoord) < t.numLinesPerTask ∧ (r : CCoord) < t.size_y

/-- Counting invariant of a request with `N` strips: every strip is either still waiting in
the background or has its closure in the main queue or has been counted off; the callback
has been invoked once if the counter is zero and not at all otherwise. -/
structure World.Counted (N : Nat) (w : World) : Prop where
  count : w.background.length + w.main = w.counter
  le : w.counter ≤ N
  ready : w.ready.length = if w.counter = 0 then 1 else 0

/-- Whether an event is the run of a completion closure. -/
def Event.isSignal : Event → Bool
  | Event.signal => true
  | _ => false

/-- Number of completion closures a schedule runs. -/
def signals (sched : List Event) : Nat := sched.countP Event.isSignal

/-- An event of a run in which the request `id` is never superseded: workers only ever load
`id` from the token, and neither `updateMandelbrot` nor `viewWillDelete` is called. -/
def Event.unsuperseded (id : Nat) : Event → Prop
  | Event.worker _ taskID _ => ∀ k, taskID k = id
  | Event.signal => True
  | Event.supersede _ _ _ => False
  | Event.delete => False

/-- Row invariant of an unsuperseded request of height `H`: every row of the bitmap has been
written or lies in the range of a task still waiting, and every invocation of the callback
received a bitmap with all rows written. -/
structure World.Covered (H : Nat) (w : World) : Prop where
  ids : ∀ t ∈ w.background, t.id = w.id
  rows : ∀ r : Int, 0 ≤ r → r < H → r ∈ w.bitmap.lines ∨ ∃ t ∈ w.background, t.covers r
  ready : ∀ b ∈ w.ready, ∀ r : Int, 0 ≤ r → r < H → r ∈ b.2.lines

/-- The schedule in which the workers run all `n` tasks, then the main context runs all
`n` completion closures. -/
def drain (n id F : Nat) : List Event :=
  List.replicate n (Event.worker 0 (fun _ => id) (F + 1)) ++ List.replicate n Event.signal

/-- Whether an effect is a post of a completion closure to the main context. -/
def Effect.isPerformMain : Effect → Bool
  | Effect.performMain _ => true
  | Effect.calculateLine _ => false

/-- What every state of the dispatch loop satisfies: the cursor is not negative, and every
submitted task starts at a row that is not negative and has captured `size.y`,
`size.y / 64` and `id`. -/
structure Dispatch.Wf (size_y : CCoord) (id : Nat) (s : Dispatch) : Prop where
  cursor : 0 ≤ s.y
  tasks : ∀ t ∈ s.background,
    0 ≤ t.y ∧ t.size_y = size_y ∧ t.numLinesPerTask = size_y / 64 ∧ t.id = id

/-- Number of rows a task starting at row `y` computes for an integral height `H` when it
never finds the token changed. -/
def fullRows (y H : Nat) : Nat := min ((H + 63) / 64) (H - y)

/-- Whether an event increments the token: `updateMandelbrot` and `viewWillDelete` do. -/
def Event.isBump : Event → Bool
  | Event.supersede _ _ _ => true
  | Event.delete => true
  | _ => false

/-- Number of increments of the token in a schedule. -/
def bumps (sched : List Event) : Nat := sched.countP Event.isBump

/-- Modelled from the spec: the declaration of `CColor` (`vstgui/lib/ccolor.h`, not among the
sources): four `uint8_t` channels, kept as natural numbers below 256. -/
structure CColor where
  red : Nat
  green : Nat
  blue : Nat
  alpha : Nat
deriving DecidableEq

/-- Every channel of the colour is an 8 bit value. -/
def CColor.valid (c : CColor) : Prop :=
  c.red < 256 ∧ c.green < 256 ∧ c.blue < 256 ∧ c.alpha < 256

/-- Modelled from the spec: the enumeration `IPlatformBitmapPixelAccess::PixelFormat`
(`vstgui/lib/platform/iplatformbitmap.h`, not among the sources), the four component
orderings ARGB/ABGR/RGBA/BGRA. -/
inductive PixelFormat
  | kARGB
  | kABGR
  | kRGBA
  | kBGRA
deriving DecidableEq

/-- `getColorToInt32`: the lambda chosen by the `switch`.  The channels are promoted to
`int`, shifted and or-ed; the conversion of the result to the `uint32_t` that the
`std::function` returns keeps the low 32 bits. -/
def getColorToInt32 (f : PixelFormat) : CColor → Nat :=
  match f with
  | PixelFormat.kARGB => fun color =>
      wrap32 ((color.red <<< 8) ||| (color.green <<< 16) ||| (color.blue <<< 24) ||| (color.alpha))
  | PixelFormat.kABGR => fun color =>
      wrap32 ((color.blue <<< 8) ||| (color.green <<< 16) ||| (color.red <<< 24) ||| (color.alpha))
  | PixelFormat.kRGBA => fun color =>
      wrap32 ((color.red) ||| (color.green <<< 8) ||| (color.blue <<< 16) ||| (color.alpha <<< 24))
  | PixelFormat.kBGRA => fun color =>
      wrap32 ((color.blue) ||| (color.green <<< 8) ||| (color.red <<< 16) ||| (color.alpha <<< 24))

/-- Bits `[8k, 8k+8)` of a word. -/
def byteAt (word k : Nat) : Nat := (word >>> (8 * k)) % 256

/-- The channels in the order in which the name of the pixel format lists them: for the
format named `C0C1C2C3` this is `[C0, C1, C2, C3]`. -/
def PixelFormat.channels (f : PixelFormat) (c : CColor) : List Nat :=
  match f with
  | PixelFormat.kARGB => [c.alpha, c.red, c.green, c.blue]
  | PixelFormat.kABGR => [c.alpha, c.blue, c.green, c.red]
  | PixelFormat.kRGBA => [c.red, c.green, c.blue, c.alpha]
  | PixelFormat.kBGRA => [c.blue, c.green, c.red, c.alpha]

/-- The colour read back from a packed word of the given format. -/
def unpack (f : PixelFormat) (word : Nat) : CColor :=
  match f with
  | PixelFormat.kARGB => ⟨byteAt word 1, byteAt word 2, byteAt word 3, byteAt word 0⟩
  | PixelFormat.kABGR => ⟨byteAt word 3, byteAt word 2, byteAt word 1, byteAt word 0⟩
  | PixelFormat.kRGBA => ⟨byteAt word 0, byteAt word 1, byteAt word 2, byteAt word 3⟩
  | PixelFormat.kBGRA => ⟨byteAt word 2, byteAt word 1, byteAt word 0, byteAt word 3⟩

/-- A call made on the main context that touches the controller: a ready callback of some
request (`ready id bitmap`, whichever request it belongs to), `updateMandelbrot`, or
`viewWillDelete`. -/
inductive MainCall
  | ready (id : Nat) (bitmap : Bitmap)
  | update (fuel : Nat) (pa : Bool) (size_y : CCoord)
  | delete

/-- The controller after one call on the main context; `none` when `updateMandelbrot`
does not return within its fuel.  The height that `updateMandelbrot` reads through
`mandelbrotView` is taken as given, also when the view is null. -/
def ViewController.call (vc : ViewController) : MainCall → Option ViewController
  | MainCall.ready id bitmap => some (readyCallback vc id bitmap)
  | MainCall.update fuel pa size_y => (updateMandelbrot fuel pa size_y vc).map (fun r => r.1)
  | MainCall.delete => some (viewWillDelete vc)

/-- The controller after a sequence of calls on the main context, run from left to right. -/
def ViewController.calls : List MainCall → ViewController → Option ViewController
  | [], vc => some vc
  | c :: cs, vc =>
    match vc.call c with
    | none => none
    | some vc' => ViewController.calls cs vc'

/-- Whether a call increments the token. -/
def MainCall.isBump : MainCall → Bool
  | MainCall.ready _ _ => false
  | MainCall.update _ _ _ => true
  | MainCall.delete => true

/-- The expression of the red channel in `calculateColor`, `9. * (1. - t) * t * t * t * 255.`,
in exact arithmetic. -/
def redExpr (t : ℚ) : ℚ := 9 * (1 - t) * t * t * t * 255

/-- The expression of the green channel, `15. * (1. - t) * (1. - t) * t * t * 255.`. -/
def greenExpr (t : ℚ) : ℚ := 15 * (1 - t) * (1 - t) * t * t * 255

/-- The expression of the blue channel, `8.5 * (1. - t) * (1. - t) * (1. - t) * t * 255.`. -/
def blueExpr (t : ℚ) : ℚ := (17 / 2) * (1 - t) * (1 - t) * (1 - t) * t * 255

/-- The conversion `static_cast<uint8_t> (x)`: the fractional part is discarded and the low
8 bits are kept. -/
def toUInt8 (x : ℚ) : Nat := (toInt x % 256).toNat

/-- `calculateColor`, in exact arithmetic.  The alpha channel keeps the value 255 that the
default constructor of `CColor` gives it (modelled from the spec, `ccolor.h` not being among
the sources). -/
def calculateColor (iteration : Nat) (maxIterationInv : ℚ) : CColor :=
  let t : ℚ := (iteration : ℚ) * maxIterationInv
  { red := toUInt8 (redExpr t), green := toUInt8 (greenExpr t), blue := toUInt8 (blueExpr t),
    alpha := 255 }

end Mandelbrot

namespace Standalone

open Mandelbrot (wrap32)

/-! ## The embedding of `standalone/detail/value.cpp` and `standalone/detail/application.cpp` -/

/-- Modelled from the spec: `IValue::Type` (`vstgui/standalone/ivalue.h`, not among the
sources) is `double`.  A double is a finite number, kept exact as a rational, an infinity,
or NaN. -/
inductive Double
  | num (q : ℚ)
  | posInf
  | negInf
  | nan
deriving DecidableEq

/-- The comparison `a < b` of two doubles: false as soon as one of them is NaN. -/
def Double.lt : Double → Double → Bool
  | Double.num a, Double.num b => decide (a < b)
  | Double.num _, Double.posInf => true
  | Double.negInf, Double.num _ => true
  | Double.negInf, Double.posInf => true
  | _, _ => false

/-- The comparison `a == b` of two doubles: false as soon as one of them is NaN. -/
def Double.eq : Double → Double → Bool
  | Double.num a, Double.num b => decide (a = b)
  | Double.posInf, Double.posInf => true
  | Double.negInf, Double.negInf => true
  | _, _ => false

/-- The double lies in the normalized range `[0, 1]`. -/
def Double.inUnit : Double → Bool
  | Double.num q => decide (0 ≤ q ∧ q ≤ 1)
  | _ => false

/-- The quotient `static_cast<double> (a) / static_cast<double> (b)` of two unsigned
integers, in exact arithmetic: `0 / 0` is NaN and `a / 0` is infinite for `a > 0`. -/
def Double.divNat (a b : Nat) : Double :=
  if b = 0 then (if a = 0 then Double.nan else Double.posInf) else Double.num ((a : ℚ) / (b : ℚ))

/-- The product `v * static_cast<double> (n)` of a double and an unsigned integer, in exact
arithmetic. -/
def Double.mulNat (v : Double) (n : Nat) : Double :=
  match v with
  | Double.num q => Double.num (q * (n : ℚ))
  | Double.posInf => if n = 0 then Double.nan else Double.posInf
  | Double.negInf => if n = 0 then Double.nan else Double.negInf
  | Double.nan => Double.nan

/-- The conversion `static_cast<uint32_t> (v)`: the fractional part is discarded; `none`
when the result is not representable, where C++ leaves the behaviour undefined. -/
def Double.toUInt32 : Double → Option Nat
  | Double.num q => if -1 < q ∧ q < 2 ^ 32 then some (Mandelbrot.toInt q).toNat else none
  | _ => none

/-- What a listener can be told (`IValueListener`). -/
inductive Notification
  | onBeginEdit
  | onPerformEdit (value : Double)
  | onEndEdit
  | onStateChange
deriving DecidableEq

/-- The state of a `Value`: the members `value`, `active`, `editCount` (a `uint32_t`) and
`listeners`, and the trace of the broadcasts made so far, oldest first, each with the
listeners it went to. -/
structure Value where
  value : Double
  active : Bool
  editCount : Nat
  listeners : List Nat
  sent : List (List Nat × Notification)
deriving DecidableEq

/-- Modelled from the spec: `DispatchList::forEach` (`vstgui/lib/dispatchlist.h`, not among
the sources): the notification is delivered to every registered listener, in order. -/
def Value.forEach (v : Value) (n : Notification) : Value :=
  { v with sent := v.sent ++ [(v.listeners, n)] }

/-- `Value::beginEdit`. -/
def Value.beginEdit (v : Value) : Value :=
  let v1 := { v with editCount := wrap32 (v.editCount + 1) }
  if v1.editCount = 1 then v1.forEach Notification.onBeginEdit else v1

/-- `Value::performEdit`: the value afterwards and the returned `bool`. -/
def Value.performEdit (v : Value) (newValue : Double) : Value × Bool :=
  if newValue.lt (Double.num 0) || (Double.num 1).lt newValue then (v, false)
  else if newValue.eq v.value then (v, true)
  else (({ v with value := newValue }).forEach (Notification.onPerformEdit newValue), true)

/-- `Value::endEdit`; the `vstgui_assert (editCount > 0)` is a debug assertion, the
decrement wraps. -/
def Value.endEdit (v : Value) : Value :=
  let v1 := { v with editCount := wrap32 (v.editCount + (2 ^ 32 - 1)) }
  if v1.editCount = 0 then v1.forEach Notification.onEndEdit else v1

/-- `Value::setActive`. -/
def Value.setActive (v : Value) (state : Bool) : Value :=
  if state = v.active then v else ({ v with active := state }).forEach Notification.onStateChange

/-- `Value::getValue`. -/
def Value.getValue (v : Value) : Double := v.value

/-- `Value::isEditing`. -/
def Value.isEditing (v : Value) : Bool := v.editCount != 0

/-- Modelled from the spec: `DispatchList::add` behind `Value::registerListener`. -/
def Value.registerListener (v : Value) (listener : Nat) : Value :=
  { v with listeners := v.listeners ++ [listener] }

/-- Modelled from the spec: `DispatchList::remove` behind `Value::unregisterListener`. -/
def Value.unregisterListener (v : Value) (listener : Nat) : Value :=
  { v with listeners := v.listeners.erase listener }

/-- `Value::Value`: the initial value is stored as given. -/
def Value.make (initialValue : Double) : Value :=
  { value := initialValue, active := true, editCount := 0, listeners := [], sent := [] }

/-- A call of `beginEdit` or of `endEdit`. -/
inductive EditCall
  | beginEdit
  | endEdit
deriving DecidableEq

/-- One edit call applied to a value. -/
def Value.edit (v : Value) : EditCall → Value
  | EditCall.beginEdit => v.beginEdit
  | EditCall.endEdit => v.endEdit

/-- A sequence of edit calls, applied from left to right. -/
def Value.edits (v : Value) (cs : List EditCall) : Value := cs.foldl Value.edit v

/-- Number of `beginEdit` calls in a sequence. -/
def begins (cs : List EditCall) : Nat := cs.count EditCall.beginEdit

/-- Number of `endEdit` calls in a sequence. -/
def ends (cs : List EditCall) : Nat := cs.count EditCall.endEdit

/-- Starting at nesting depth `d`, the calls never end an edit that was not begun and the
depth stays below `2^32`. -/
def nested : Nat → List EditCall → Bool
  | _, [] => true
  | d, EditCall.beginEdit :: cs => decide (d + 1 < 2 ^ 32) && nested (d + 1) cs
  | d, EditCall.endEdit :: cs => decide (0 < d) && nested (d - 1) cs

/-- The notifications alternate between `onBeginEdit` and `onEndEdit`.  `editing` tells
whether an edit is open before the first of them (then `onEndEdit` must come first,
otherwise `onBeginEdit`); the result tells whether an edit is open after the last of them,
and is `none` when the notifications do not alternate. -/
def alternation : Bool → List Notification → Option Bool
  | editing, [] => some editing
  | false, Notification.onBeginEdit :: ns => alternation true ns
  | true, Notification.onEndEdit :: ns => alternation false ns
  | _, _ => none

/-- An operation on a `Value`. -/
inductive Op
  | beginEdit
  | performEdit (newValue : Double)
  | endEdit
  | setActive (state : Bool)
  | registerListener (listener : Nat)
  | unregisterListener (listener : Nat)

/-- One operation applied to a value. -/
def Value.apply (v : Value) : Op → Value
  | Op.beginEdit => v.beginEdit
  | Op.performEdit newValue => (v.performEdit newValue).1
  | Op.endEdit => v.endEdit
  | Op.setActive state => v.setActive state
  | Op.registerListener listener => v.registerListener listener
  | Op.unregisterListener listener => v.unregisterListener listener

/-- The state of a `StepValue`: its `Value` base and the member `steps` (a `uint32_t`;
`StepType` is modelled from the spec as `uint32_t`, its declaration being in
`vstgui/standalone/ivalue.h`). -/
structure StepValue where
  base : Value
  steps : Nat
deriving DecidableEq

/-- `StepValue::StepValue`: `steps (initialSteps - 1)`. -/
def StepValue.make (initialSteps : Nat) (initialValue : Double) : StepValue :=
  { base := Value.make initialValue, steps := wrap32 (initialSteps + (2 ^ 32 - 1)) }

/-- `StepValue::getSteps`. -/
def StepValue.getSteps (s : StepValue) : Nat := wrap32 (s.steps + 1)

/-- `StepValue::stepToValue`. -/
def StepValue.stepToValue (s : StepValue) (step : Nat) : Double := Double.divNat step s.steps

/-- `StepValue::valueToStep`; `none` where the conversion to `StepType` is undefined. -/
def StepValue.valueToStep (s : StepValue) (value : Double) : Option Nat :=
  (Double.toUInt32 (value.mulNat (wrap32 (s.steps + 1)))).map (fun k => min s.steps k)

/-- `StepValue::performEdit`: the step value afterwards and the returned `bool`. -/
def StepValue.performEdit (s : StepValue) (newValue : Double) : Option (StepValue × Bool) :=
  (s.valueToStep newValue).map
    (fun k => ({ s with base := (s.base.performEdit (s.stepToValue k)).1 },
      (s.base.performEdit (s.stepToValue k)).2))

/-- Modelled from the spec: `Command` (`vstgui/standalone/icommand.h`, not among the
sources), a group and a name. -/
structure Command where
  group : String
  name : String
deriving DecidableEq

/-- Modelled from the spec: `CommandWithKey`, a command with its default key
(`char16_t`, kept as a number). -/
structure CommandWithKey where
  group : String
  name : String
  defaultKey : Nat
deriving DecidableEq

/-- Modelled from the spec: the comparison `cmd == command` of `registerCommand`, declared
with `Command`: two commands are equal when group and name are. -/
def CommandWithKey.eqCommand (cmd : CommandWithKey) (command : Command) : Bool :=
  decide (cmd.group = command.group) && decide (cmd.name = command.name)

/-- Modelled from the spec: `CommandList`, a vector of pairs of a group name and the
commands of that group. -/
abbrev CommandList := List (String × List CommandWithKey)

/-- The part of the state of `Application` that `registerCommand` reads and writes: the
command list, whether `onCommandUpdate` holds a function, and the number of calls made to
that function. -/
structure Application where
  commandList : CommandList
  onCommandUpdate : Bool
  updates : Nat
deriving DecidableEq

/-- Outcome of the loop over the entries of the command list in `registerCommand`. -/
inductive Scan
  /-- The inner loop found the command: `return; // already registered`. -/
  | registered
  /-- The command was pushed onto the entry of its group (`added = true; break;`); the list
  afterwards. -/
  | added (l : CommandList)
  /-- The loop ended with `added == false`. -/
  | notFound
deriving DecidableEq

/-- The loop `for (auto& entry : commandList)` of `registerCommand`. -/
def scan (command : Command) (c : CommandWithKey) : CommandList → Scan
  | [] => Scan.notFound
  | entry :: rest =>
    if entry.1 = command.group then
      if entry.2.any (fun cmd => cmd.eqCommand command) then Scan.registered
      else Scan.added ((entry.1, entry.2 ++ [c]) :: rest)
    else
      match scan command c rest with
      | Scan.registered => Scan.registered
      | Scan.added l => Scan.added (entry :: l)
      | Scan.notFound => Scan.notFound

/-- The tail of `registerCommand`: `if (onCommandUpdate) onCommandUpdate ();`. -/
def Application.commandUpdate (app : Application) : Application :=
  if app.onCommandUpdate then { app with updates := app.updates + 1 } else app

/-- `Application::registerCommand`. -/
def Application.registerCommand (app : Application) (command : Command)
    (defaultCommandKey : Nat) : Application :=
  let c : CommandWithKey :=
    { group := command.group, name := command.name, defaultKey := defaultCommandKey }
  match scan command c app.commandList with
  | Scan.registered => app
  | Scan.added l => Application.commandUpdate { app with commandList := l }
  | Scan.notFound =>
    Application.commandUpdate
      { app with commandList := app.commandList ++ [(command.group, [c])] }

/-- Modelled from the spec: the constants of `Commands`, `CommandGroup` and `CommandName`
that `Application::init` registers (`vstgui/standalone/icommand.h`, not among the sources),
taken as parameters. -/
structure Commands where
  About : Command
  Quit : Command
  CloseWindow : Command
  Undo : Command
  Redo : Command
  Edit : String
  MenuSeparator : String
  Cut : Command
  Copy : Command
  Paste : Command

/-- `Application::init`; the keys are the character codes of `q`, `w`, `z`, `Z`, `x`, `c`
and `p`. -/
def Application.init (app : Application) (k : Commands) : Application :=
  let a1 := app.registerCommand k.About 0
  let a2 := a1.registerCommand k.Quit 113
  let a3 := a2.registerCommand k.CloseWindow 119
  let a4 := a3.registerCommand k.Undo 122
  let a5 := a4.registerCommand k.Redo 90
  let a6 := a5.registerCommand { group := k.Edit, name := k.MenuSeparator } 0
  let a7 := a6.registerCommand k.Cut 120
  let a8 := a7.registerCommand k.Copy 99
  a8.registerCommand k.Paste 112

/-- No group name occurs in more than one entry of the command list, and no command
(group, name) occurs twice within a group. -/
def CommandList.Wf (l : CommandList) : Prop :=
  (l.map Prod.fst).Nodup ∧
    ∀ entry ∈ l, (entry.2.map (fun cmd : CommandWithKey => (cmd.group, cmd.name))).Nodup

/-- The command is in the entry of its group. -/
def CommandList.registered (l : CommandList) (command : Command) : Prop :=
  ∃ entry ∈ l, entry.1 = command.group ∧
    ∃ cmd ∈ entry.2, cmd.group = command.group ∧ cmd.name = command.name

/-! ### Double arithmetic with rounding

The sum and the difference of two doubles, as IEEE 754 binary64 computes them in the default
rounding mode (to nearest, ties to even): the exact result is replaced by the nearest number
of the form `m * 2 ^ e` with `m < 2 ^ 53` and `-1074 ≤ e`, and by an infinity from
`2 ^ 1024 - 2 ^ 970` on.  The two zeros of the format are not told apart. -/

/-- The quotient `n / d` of two natural numbers (`0 < d`) rounded to the nearest natural
number, to the even one of the two when it lies half way. -/
def roundHalfEven (n d : Nat) : Nat :=
  if 2 * (n % d) < d then n / d
  else if d < 2 * (n % d) then n / d + 1
  else if (n / d) % 2 = 0 then n / d
  else n / d + 1

/-- The integer `e` with `2 ^ e ≤ n / d < 2 ^ (e + 1)`, for `0 < n` and `0 < d`: the
difference `k` of the bit lengths is `e` or `e + 1`. -/
def ilog2 (n d : Nat) : Int :=
  let k : Int := (Nat.log2 n : Int) - (Nat.log2 d : Int)
  if d * 2 ^ k.toNat ≤ n * 2 ^ (-k).toNat then k else k - 1

/-- The double nearest to the positive rational `n / d`, `none` when that is an infinity.
The result is a multiple `m * 2 ^ (e - 52)` of the spacing of the doubles around `n / d`,
`e` being the exponent of `n / d`, at least -1022 (below that the doubles are evenly
spaced). -/
def roundPos (n d : Nat) : Option ℚ :=
  let s : Int := 52 - max (ilog2 n d) (-1022)
  let m : Nat := roundHalfEven (n * 2 ^ s.toNat) (d * 2 ^ (-s).toNat)
  if m * 2 ^ (-s).toNat < 2 ^ 1024 * 2 ^ s.toNat then
    some (((m * 2 ^ (-s).toNat : Nat) : ℚ) / ((2 ^ s.toNat : Nat) : ℚ))
  else none

/-- The double that an operation with the exact result `q` returns. -/
def roundDouble (q : ℚ) : Double :=
  if q = 0 then Double.num 0
  else
    match roundPos q.num.natAbs q.den with
    | some v => Double.num (if 0 < q then v else -v)
    | none => if 0 < q then Double.posInf else Double.negInf

/-- The sum `a + b` of two doubles. -/
def Double.add : Double → Double → Double
  | Double.num a, Double.num b => roundDouble (a + b)
  | Double.nan, _ => Double.nan
  | _, Double.nan => Double.nan
  | Double.posInf, Double.negInf => Double.nan
  | Double.negInf, Double.posInf => Double.nan
  | Double.posInf, _ => Double.posInf
  | _, Double.posInf => Double.posInf
  | Double.negInf, _ => Double.negInf
  | _, Double.negInf => Double.negInf

/-- The difference `a - b` of two doubles. -/
def Double.sub : Double → Double → Double
  | Double.num a, Double.num b => roundDouble (a - b)
  | Double.nan, _ => Double.nan
  | _, Double.nan => Double.nan
  | Double.posInf, Double.posInf => Double.nan
  | Double.negInf, Double.negInf => Double.nan
  | Double.posInf, _ => Double.posInf
  | _, Double.negInf => Double.posInf
  | Double.negInf, _ => Double.negInf
  | _, Double.posInf => Double.negInf

/-- The comparison `a <= b` of two doubles: false as soon as one of them is NaN. -/
def Double.le : Double → Double → Bool
  | Double.num a, Double.num b => decide (a ≤ b)
  | Double.num _, Double.posInf => true
  | Double.negInf, Double.num _ => true
  | Double.negInf, Double.posInf => true
  | Double.posInf, Double.posInf => true
  | Double.negInf, Double.negInf => true
  | _, _ => false

end Standalone

namespace VSTGUI

open Standalone (Double roundDouble)

/-! ## The embedding of `lib/controls/csearchtextedit.cpp`

The coordinates (`CCoord`) are doubles, and the sums and differences that the rectangles are
computed with are those of doubles, rounded. -/

/-- Modelled from the spec: `CPoint` (`vstgui/lib/cpoint.h`, not among the sources), a pair
of coordinates. -/
structure CPoint where
  x : Double
  y : Double
deriving DecidableEq

/-- Modelled from the spec: `CRect` (`vstgui/lib/crect.h`, not among the sources), given by
its four edges. -/
structure CRect where
  left : Double
  top : Double
  right : Double
  bottom : Double
deriving DecidableEq

/-- Modelled from the spec: `CRect::getWidth`, `right - left`. -/
def CRect.getWidth (r : CRect) : Double := r.right.sub r.left

/-- Modelled from the spec: `CRect::getHeight`, `bottom - top`. -/
def CRect.getHeight (r : CRect) : Double := r.bottom.sub r.top

/-- Modelled from the spec: `CRect::inset`, which moves every edge inwards, the vertical
edges by `p.x` and the horizontal ones by `p.y` (`left += x; top += y; right -= x;
bottom -= y`). -/
def CRect.inset (r : CRect) (p : CPoint) : CRect :=
  { left := r.left.add p.x, top := r.top.add p.y, right := r.right.sub p.x,
    bottom := r.bottom.sub p.y }

/-- Modelled from the spec: `CRect::pointInside`,
`where.x >= left && where.x < right && where.y >= top && where.y < bottom`: the left and
top edges count to the rectangle, the right and bottom edges do not. -/
def CRect.pointInside (r : CRect) (p : CPoint) : Bool :=
  r.left.le p.x && p.x.lt r.right && r.top.le p.y && p.y.lt r.bottom

/-- Modelled from the spec: `CHoriTxtAlign` (`vstgui/lib/cdrawdefs.h`, not among the
sources), the horizontal alignments of a text. -/
inductive CHoriTxtAlign
  | kLeftText
  | kCenterText
  | kRightText
deriving DecidableEq

/-- The state of a `CSearchTextEdit` that its rectangles depend on: the view size and the
alignment inherited from the text edit, and the inset of the clear mark. -/
structure CSearchTextEdit where
  viewSize : CRect
  horiAlign : CHoriTxtAlign
  clearMarkInset : CPoint
deriving DecidableEq

/-- `CView::getViewSize`. -/
def CSearchTextEdit.getViewSize (e : CSearchTextEdit) : CRect := e.viewSize

/-- `CView::getHeight`, the height of the view size. -/
def CSearchTextEdit.getHeight (e : CSearchTextEdit) : Double := e.getViewSize.getHeight

/-- `CParamDisplay::getHoriAlign`. -/
def CSearchTextEdit.getHoriAlign (e : CSearchTextEdit) : CHoriTxtAlign := e.horiAlign

/-- `CSearchTextEdit::getClearMarkInset`. -/
def CSearchTextEdit.getClearMarkInset (e : CSearchTextEdit) : CPoint := e.clearMarkInset

/-- `CSearchTextEdit::getClearMarkRect`. -/
def CSearchTextEdit.getClearMarkRect (e : CSearchTextEdit) : CRect :=
  let r : CRect := e.getViewSize
  let r : CRect :=
    if e.getHoriAlign = CHoriTxtAlign.kRightText then { r with right := r.left.add e.getHeight }
    else { r with left := r.right.sub e.getHeight }
  r.inset e.getClearMarkInset

/-- `CSearchTextEdit::getTextRect`. -/
def CSearchTextEdit.getTextRect (e : CSearchTextEdit) : CRect :=
  let rect : CRect := e.getViewSize
  let cmr : CRect := e.getClearMarkRect
  if e.getHoriAlign = CHoriTxtAlign.kRightText then { rect with left := cmr.right }
  else { rect with right := cmr.left }

end VSTGUI

/-! ## Lemmas and the claims -/

namespace Mandelbrot

theorem wrap32_of_lt {n : Nat} (h : n < 2 ^ 32) : wrap32 n = n := Nat.mod_eq_of_lt h

theorem wrap32_succ (n : Nat) : wrap32 (wrap32 n + 1) = wrap32 (n + 1) := by
  unfold wrap32
  omega

theorem toInt_cursor (y H : Nat) :
    toInt ((((y : Nat) : Int) : CCoord) + (H : CCoord) / 64) = ((y + H / 64 : Nat) : Int) := by
  have h0 : (0 : CCoord) ≤ (((y : Nat) : Int) : CCoord) + (H : CCoord) / 64 := by positivity
  have h64 : ((64 : Nat) : ℚ) = 64 := by norm_num
  unfold toInt
  rw [if_pos h0, Int.floor_int_add, ← h64, Rat.floor_natCast_div_natCast]
  push_cast
  rfl

theorem dispatchIter_of_not_lt (size_y : CCoord) (id n : Nat) (s : Dispatch)
    (h : ¬ (s.y : CCoord) < size_y) : dispatchIter size_y id n s = s := by
  cases n with
  | zero => rfl
  | succ n => simp [dispatchIter, h]

theorem dispatchIter_succ (size_y : CCoord) (id n : Nat) (s : Dispatch) :
    dispatchIter size_y id (n + 1) s = dispatchIter size_y id 1 (dispatchIter size_y id n s) := by
  induction n generalizing s with
  | zero => rfl
  | succ n ih =>
    by_cases h : (s.y : CCoord) < size_y
    · have e : ∀ m, dispatchIter size_y id (m + 1) s =
          dispatchIter size_y id m (dispatchBody size_y id s) := by
        intro m
        simp [dispatchIter, h]
      rw [e (n + 1), ih, e n]
    · rw [dispatchIter_of_not_lt _ _ _ _ h, dispatchIter_of_not_lt _ _ _ _ h,
        dispatchIter_of_not_lt _ _ _ _ h]

/-- The dispatch loop returns exactly when the state reached after `fuel - 1` iterations
fails the loop condition, and then returns that state. -/
theorem dispatchLoop_eq (size_y : CCoord) (id fuel : Nat) (s : Dispatch) :
    dispatchLoop size_y id (fuel + 1) s =
      if ((dispatchIter size_y id fuel s).y : CCoord) < size_y then none
      else some (dispatchIter size_y id fuel s) := by
  induction fuel generalizing s with
  | zero =>
    by_cases h : (s.y : CCoord) < size_y <;> simp [dispatchLoop, dispatchIter, h]
  | succ n ih =>
    by_cases h : (s.y : CCoord) < size_y
    · rw [dispatchLoop, if_pos h, ih]
      simp [dispatchIter, h]
    · rw [dispatchLoop, if_neg h, dispatchIter_of_not_lt _ _ _ _ h, if_neg h]

/-- Closed form of the first `n` iterations for an integral height, as long as the loop
condition holds at each of them. -/
theorem dispatchIter_closed (H id : Nat) :
    ∀ n : Nat, (∀ k, k < n → k * (H / 64) < H) →
      dispatchIter (H : CCoord) id n ⟨0, 0, []⟩ =
        ⟨((n * (H / 64) : Nat) : Int), wrap32 n, strips H id n⟩ := by
  intro n
  induction n with
  | zero => intro _; simp [dispatchIter, strips, wrap32]
  | succ n ih =>
    intro hk
    have hn : n * (H / 64) < H := hk n (Nat.lt_succ_self n)
    have hq : ((((n * (H / 64) : Nat) : Int)) : CCoord) < (H : CCoord) := by
      exact_mod_cast hn
    rw [dispatchIter_succ, ih (fun k hkn => hk k (Nat.lt_succ_of_lt hkn))]
    rw [dispatchIter, if_pos hq]
    simp only [dispatchIter, dispatchBody, toInt_cursor, wrap32_succ, strips,
      List.range_succ, List.map_append, List.map_cons, List.map_nil]
    congr 2
    rw [Nat.succ_mul]

theorem dispatchIter_add (size_y : CCoord) (id m n : Nat) (s : Dispatch) :
    dispatchIter size_y id (n + m) s = dispatchIter size_y id m (dispatchIter size_y id n s) := by
  induction m with
  | zero => rfl
  | succ m ih =>
    rw [← Nat.add_assoc, dispatchIter_succ, ih, ← dispatchIter_succ]

theorem lt_stripCount_iff {H : Nat} (hH : 64 ≤ H) (k : Nat) :
    k < stripCount H ↔ k * (H / 64) < H := by
  have hf : 0 < H / 64 := Nat.div_pos hH (by norm_num)
  unfold stripCount
  rw [Nat.lt_iff_add_one_le, Nat.le_div_iff_mul_le hf, Nat.add_mul]
  omega

theorem stripCount_mul_ge {H : Nat} (hH : 64 ≤ H) : H ≤ stripCount H * (H / 64) := by
  have h := (lt_stripCount_iff hH (stripCount H)).not
  simpa using h

theorem stripCount_pos {H : Nat} (hH : 64 ≤ H) : 0 < stripCount H := by
  rw [lt_stripCount_iff hH]
  omega

theorem stripCount_le {H : Nat} (hH : 64 ≤ H) : stripCount H ≤ 127 := by
  by_contra hc
  have h : 127 < stripCount H := by omega
  rw [lt_stripCount_iff hH] at h
  omega

theorem dispatchIter_final {H : Nat} (hH : 64 ≤ H) (id : Nat) :
    dispatchIter (H : CCoord) id (stripCount H) ⟨0, 0, []⟩ = dispatched H id := by
  rw [dispatchIter_closed H id (stripCount H) (fun k hk => (lt_stripCount_iff hH k).mp hk)]
  have h := stripCount_le hH
  rw [wrap32_of_lt (by omega)]
  rfl

theorem dispatched_not_lt {H : Nat} (hH : 64 ≤ H) (id : Nat) :
    ¬ (((dispatched H id).y : Int) : CCoord) < (H : CCoord) := by
  have h := stripCount_mul_ge hH
  simp only [dispatched, not_lt]
  exact_mod_cast h

/-- For an integral height of at least 64 rows the dispatch loop ends, with any fuel above
the number of strips, in the state `dispatched`. -/
theorem calculateMandelbrotBitmap_of_ge {H : Nat} (hH : 64 ≤ H) (id fuel : Nat)
    (hfuel : stripCount H < fuel) :
    calculateMandelbrotBitmap fuel true (H : CCoord) id = some (dispatched H id) := by
  obtain ⟨m, rfl⟩ : ∃ m, fuel = stripCount H + m + 1 := ⟨fuel - stripCount H - 1, by omega⟩
  have hstay : dispatchIter (H : CCoord) id (stripCount H + m) ⟨0, 0, []⟩ = dispatched H id := by
    rw [dispatchIter_add, dispatchIter_final hH,
      dispatchIter_of_not_lt _ _ _ _ (dispatched_not_lt hH id)]
  simp only [calculateMandelbrotBitmap, if_true]
  rw [dispatchLoop_eq, hstay, if_neg (dispatched_not_lt hH id)]

/-- For an integral height between 1 and 63 rows the cursor never leaves row 0: after any
number of iterations the loop condition still holds. -/
theorem dispatchIter_small {H : Nat} (h0 : 0 < H) (h64 : H < 64) (id n : Nat) :
    dispatchIter (H : CCoord) id n ⟨0, 0, []⟩ = ⟨0, wrap32 n, strips H id n⟩ := by
  have hf : H / 64 = 0 := Nat.div_eq_of_lt h64
  rw [dispatchIter_closed H id n (fun k _ => by rw [hf]; simpa using h0), hf]
  simp

/-- A returned dispatch state, for a positive integral height, is `dispatched`, and the
height is at least 64. -/
theorem calculateMandelbrotBitmap_some {H : Nat} (h0 : 0 < H) {id fuel : Nat} {s : Dispatch}
    (hs : calculateMandelbrotBitmap fuel true (H : CCoord) id = some s) :
    64 ≤ H ∧ s = dispatched H id := by
  cases fuel with
  | zero => simp [calculateMandelbrotBitmap, dispatchLoop] at hs
  | succ n =>
    simp only [calculateMandelbrotBitmap, if_true] at hs
    rw [dispatchLoop_eq] at hs
    by_cases h64 : H < 64
    · rw [dispatchIter_small h0 h64] at hs
      have hlt : (((⟨0, wrap32 n, strips H id n⟩ : Dispatch).y : Int) : CCoord) < (H : CCoord) := by
        show ((0 : Int) : CCoord) < (H : CCoord)
        exact_mod_cast h0
      rw [if_pos hlt] at hs
      cases hs
    · have hH : 64 ≤ H := by omega
      refine ⟨hH, ?_⟩
      by_cases hn : n < stripCount H
      · rw [dispatchIter_closed H id n
          (fun k hk => (lt_stripCount_iff hH k).mp (lt_trans hk hn))] at hs
        have hlt : (((⟨((n * (H / 64) : Nat) : Int), wrap32 n, strips H id n⟩ : Dispatch).y : Int)
            : CCoord) < (H : CCoord) := by
          show (((n * (H / 64) : Nat) : Int) : CCoord) < (H : CCoord)
          exact_mod_cast (lt_stripCount_iff hH n).mp hn
        rw [if_pos hlt] at hs
        cases hs
      · obtain ⟨m, rfl⟩ : ∃ m, n = stripCount H + m := ⟨n - stripCount H, by omega⟩
        rw [dispatchIter_add, dispatchIter_final hH,
          dispatchIter_of_not_lt _ _ _ _ (dispatched_not_lt hH id),
          if_neg (dispatched_not_lt hH id)] at hs
        exact (Option.some.inj hs).symm

/-- The row loop ends: fuel above `numLinesPerTask - i` is enough. -/
theorem rowLoop_isSome (t : StripTask) (taskID : Nat → Nat) :
    ∀ fuel i : Nat, t.numLinesPerTask < (i : CCoord) + (fuel : CCoord) →
      (rowLoop t taskID (fuel + 1) i).isSome = true := by
  intro fuel
  induction fuel with
  | zero =>
    intro i h
    have hi : ¬ (i : CCoord) < t.numLinesPerTask := by
      simp only [Nat.cast_zero, add_zero] at h
      exact not_lt.mpr h.le
    simp [rowLoop, hi]
  | succ n ih =>
    intro i h
    have h' : t.numLinesPerTask < ((i + 1 : Nat) : CCoord) + (n : CCoord) := by
      push_cast at h ⊢
      linarith
    have hrec := ih (i + 1) h'
    obtain ⟨r, hr⟩ := Option.isSome_iff_exists.mp hrec
    rw [rowLoop]
    split_ifs <;> simp [hr]

/-- Every row the loop computes lies at or after `y + i` and inside the bitmap, is fewer
than `numLinesPerTask` rows from `y`, and was preceded by a load of the token equal to `id`. -/
theorem rowLoop_rows (t : StripTask) (taskID : Nat → Nat) :
    ∀ (fuel i : Nat) (r : List Int × Exit), rowLoop t taskID fuel i = some r →
      ∀ row ∈ r.1, t.y + (i : Int) ≤ row ∧ t.covers row ∧ 0 ≤ row - t.y ∧
        taskID (row - t.y).toNat = t.id := by
  intro fuel
  induction fuel with
  | zero => intro i r h; simp [rowLoop] at h
  | succ n ih =>
    intro i r h row hrow
    rw [rowLoop] at h
    split_ifs at h with h1 h2 h3
    · cases h; simp at hrow
    · cases h; simp at hrow
    · obtain ⟨r', hr', rfl⟩ := Option.map_eq_some'.mp h
      simp only [List.mem_cons] at hrow
      rcases hrow with rfl | hmem
      · refine ⟨le_refl _, ⟨by omega, ?_, ?_⟩, by omega, ?_⟩
        · simpa using h1
        · exact not_le.mp h2
        · simpa using not_not.mp h3
      · obtain ⟨hle, hc, h0, hid⟩ := ih (i + 1) r' hr' row hmem
        exact ⟨by push_cast at hle; omega, hc, h0, hid⟩
    · cases h; simp at hrow

/-- When every load of the token returns the task's `id`, the loop computes every row of
the task's range from `y + i` on. -/
theorem rowLoop_complete (t : StripTask) (taskID : Nat → Nat) (hid : ∀ k, taskID k = t.id) :
    ∀ (fuel i : Nat) (r : List Int × Exit), rowLoop t taskID fuel i = some r →
      ∀ row : Int, t.y + (i : Int) ≤ row → t.covers row → row ∈ r.1 := by
  intro fuel
  induction fuel with
  | zero => intro i r h; simp [rowLoop] at h
  | succ n ih =>
    intro i r h row hle hc
    obtain ⟨_, hnl, hsz⟩ := hc
    have h1 : (i : CCoord) < t.numLinesPerTask := by
      refine lt_of_le_of_lt ?_ hnl
      have : (i : Int) ≤ row - t.y := by omega
      exact_mod_cast this
    have h2 : ¬ ((t.y + (i : Int) : Int) : CCoord) ≥ t.size_y := by
      refine not_le.mpr (lt_of_le_of_lt ?_ hsz)
      exact_mod_cast hle
    rw [rowLoop, if_pos h1, if_neg h2, if_neg (not_not.mpr (hid i))] at h
    obtain ⟨r', hr', rfl⟩ := Option.map_eq_some'.mp h
    by_cases heq : t.y + (i : Int) = row
    · simp [heq]
    · refine List.mem_cons_of_mem _ (ih (i + 1) r' hr' row ?_ ⟨by omega, hnl, hsz⟩)
      push_cast
      omega

/-- The effects of a strip task are the rows of its row loop followed by one post to the
main context. -/
theorem stripTask_eq_some {t : StripTask} {taskID : Nat → Nat} {fuel : Nat}
    {r : List Effect × Exit} (h : stripTask t taskID fuel = some r) :
    ∃ rows, rowLoop t taskID fuel 0 = some (rows, r.2) ∧
      r.1 = rows.map Effect.calculateLine ++ [Effect.performMain t.id] := by
  obtain ⟨r', hr', rfl⟩ := Option.map_eq_some'.mp h
  exact ⟨r'.1, by simp [hr'], rfl⟩

theorem foldl_perform (rows : List Int) (id : Nat) :
    ∀ w : World, (rows.map Effect.calculateLine ++ [Effect.performMain id]).foldl World.perform w =
      { w with bitmap := ⟨w.bitmap.request, w.bitmap.lines ++ rows⟩, main := w.main + 1 } := by
  induction rows with
  | nil => intro w; simp [World.perform]
  | cons r rs ih =>
    intro w
    simp only [List.map_cons, List.cons_append, List.foldl_cons, ih, World.perform,
      List.append_assoc, List.singleton_append, List.nil_append]

/-- What a worker event does: the task leaves the background queue, the rows of its row loop
land in the bitmap, and one completion closure joins the main queue. -/
theorem World.step_worker {w w' : World} {k fuel : Nat} {taskID : Nat → Nat}
    (h : w.step (Event.worker k taskID fuel) = some w') :
    ∃ t rows e, w.background[k]? = some t ∧ rowLoop t taskID fuel 0 = some (rows, e) ∧
      w' = { w with background := w.background.eraseIdx k,
                    bitmap := ⟨w.bitmap.request, w.bitmap.lines ++ rows⟩,
                    main := w.main + 1 } := by
  unfold World.step at h
  cases ht : w.background[k]? with
  | none => simp [ht] at h
  | some t =>
    cases hr : stripTask t taskID fuel with
    | none => simp [ht, hr] at h
    | some r =>
      obtain ⟨rows, hrows, heff⟩ := stripTask_eq_some hr
      simp only [ht, hr, Option.some.injEq] at h
      refine ⟨t, rows, r.2, rfl, hrows, ?_⟩
      rw [← h, heff, foldl_perform]

theorem completion_of_pos {c : Nat} (h1 : 1 ≤ c) (h2 : c < 2 ^ 32) :
    completion c = (c - 1, decide (c - 1 = 0)) := by
  have h : wrap32 (c + (2 ^ 32 - 1)) = c - 1 := by
    unfold wrap32
    omega
  simp only [completion, h]

/-- What a signal event does while the counter is between 1 and `2^32 - 1`: one closure
leaves the main queue, the counter drops by one, and `readyCallback` is invoked exactly when
the counter has become zero. -/
theorem World.step_signal {w w' : World} (h : w.step Event.signal = some w')
    (h1 : 1 ≤ w.counter) (h2 : w.counter < 2 ^ 32) :
    w.main ≠ 0 ∧
      ((w.counter = 1 ∧ w' = { w with main := w.main - 1, counter := 0,
                                        ready := w.ready ++ [(w.id, w.bitmap)],
                                        vc := readyCallback w.vc w.id w.bitmap }) ∨
       (w.counter ≠ 1 ∧ w' = { w with main := w.main - 1, counter := w.counter - 1 })) := by
  unfold World.step at h
  rw [completion_of_pos h1 h2] at h
  by_cases hm : w.main = 0
  · simp [hm] at h
  · refine ⟨hm, ?_⟩
    by_cases hc : w.counter = 1
    · left
      refine ⟨hc, ?_⟩
      simp [hm, hc] at h
      rw [← h]
    · right
      refine ⟨hc, ?_⟩
      have hc' : ¬ w.counter - 1 = 0 := by omega
      simp [hm, hc'] at h
      rw [← h]

theorem World.counted_step {N : Nat} (hN : N < 2 ^ 32) {w w' : World} {e : Event}
    (hw : w.Counted N) (h : w.step e = some w') :
    w'.Counted N ∧ w'.counter + (if e.isSignal then 1 else 0) = w.counter ∧ w'.id = w.id := by
  obtain ⟨hcount, hle, hready⟩ := hw
  cases e with
  | worker k taskID fuel =>
    obtain ⟨t, rows, ex, ht, _, rfl⟩ := World.step_worker h
    have hk : k < w.background.length := by
      by_contra hk
      rw [List.getElem?_eq_none (by omega)] at ht
      cases ht
    refine ⟨⟨?_, hle, hready⟩, by simp [Event.isSignal], rfl⟩
    simp only [List.length_eraseIdx_of_lt hk]
    omega
  | signal =>
    by_cases h0 : w.counter = 0
    · have hm : w.main = 0 := by omega
      simp [World.step, hm] at h
    · obtain ⟨hm, hcase⟩ := World.step_signal h (by omega) (by omega)
      rcases hcase with ⟨hc, rfl⟩ | ⟨hc, rfl⟩
      · refine ⟨⟨?_, by simp, ?_⟩, by simp [Event.isSignal, hc], rfl⟩
        · simp only
          omega
        · simp only [List.length_append, List.length_singleton, hready, h0, if_false, if_true]
      · refine ⟨⟨?_, ?_, ?_⟩, ?_, rfl⟩
        · simp only
          omega
        · simp only
          omega
        · have : ¬ w.counter - 1 = 0 := by omega
          simp only [hready, h0, this, if_false]
        · simp only [Event.isSignal, if_true]
          omega
  | supersede fuel pa size_y =>
    simp only [World.step] at h
    obtain ⟨r, _, rfl⟩ := Option.map_eq_some'.mp h
    exact ⟨⟨hcount, hle, hready⟩, by simp [Event.isSignal], rfl⟩
  | delete =>
    simp only [World.step, Option.some.injEq] at h
    subst h
    exact ⟨⟨hcount, hle, hready⟩, by simp [Event.isSignal], rfl⟩

theorem World.counted_run {N : Nat} (hN : N < 2 ^ 32) :
    ∀ (sched : List Event) (w w' : World), w.Counted N → World.run sched w = some w' →
      w'.Counted N ∧ w'.counter + signals sched = w.counter ∧ w'.id = w.id := by
  intro sched
  induction sched with
  | nil =>
    intro w w' hw h
    simp only [World.run, Option.some.injEq] at h
    subst h
    exact ⟨hw, by simp [signals], rfl⟩
  | cons e es ih =>
    intro w w' hw h
    rw [World.run] at h
    cases hs : w.step e with
    | none => simp [hs] at h
    | some w1 =>
      simp only [hs] at h
      obtain ⟨hw1, hc1, hid1⟩ := World.counted_step hN hw hs
      obtain ⟨hw', hc', hid'⟩ := ih w1 w' hw1 h
      refine ⟨hw', ?_, hid'.trans hid1⟩
      simp only [signals, List.countP_cons] at hc' ⊢
      omega

theorem mem_eraseIdx_or {α : Type} {l : List α} {k : Nat} {a x : α} (hk : l[k]? = some a)
    (hx : x ∈ l) : x = a ∨ x ∈ l.eraseIdx k := by
  obtain ⟨n, hn⟩ := List.mem_iff_getElem?.mp hx
  by_cases h : n = k
  · left
    rw [h, hk] at hn
    exact (Option.some.inj hn).symm
  · right
    exact List.mem_eraseIdx_iff_getElem?.mpr ⟨n, h, hn⟩

theorem mem_of_mem_eraseIdx {α : Type} {l : List α} {k : Nat} {x : α}
    (hx : x ∈ l.eraseIdx k) : x ∈ l := by
  obtain ⟨n, _, hn⟩ := List.mem_eraseIdx_iff_getElem?.mp hx
  exact List.mem_iff_getElem?.mpr ⟨n, hn⟩

theorem World.covered_step {N H : Nat} (hN : N < 2 ^ 32) {w w' : World} {e : Event}
    (hc : w.Counted N) (hw : w.Covered H) (he : e.unsuperseded w.id)
    (h : w.step e = some w') : w'.Covered H := by
  obtain ⟨hids, hrows, hready⟩ := hw
  cases e with
  | worker k taskID fuel =>
    obtain ⟨t, rows, ex, ht, hloop, rfl⟩ := World.step_worker h
    have htmem : t ∈ w.background := List.mem_iff_getElem?.mpr ⟨k, ht⟩
    have hfresh : ∀ j, taskID j = t.id := fun j => (he j).trans (hids t htmem).symm
    refine ⟨fun t' ht' => hids t' (mem_of_mem_eraseIdx ht'), ?_, hready⟩
    intro r h0 hH
    rcases hrows r h0 hH with hin | ⟨t', ht', hcov⟩
    · exact Or.inl (List.mem_append_left _ hin)
    · rcases mem_eraseIdx_or ht ht' with rfl | hrest
      · left
        refine List.mem_append_right _ ?_
        exact rowLoop_complete t' taskID hfresh fuel 0 _ hloop r (by simpa using hcov.1) hcov
      · exact Or.inr ⟨t', hrest, hcov⟩
  | signal =>
    by_cases h0 : w.counter = 0
    · have hm : w.main = 0 := by have := hc.count; omega
      simp [World.step, hm] at h
    · obtain ⟨hm, hcase⟩ := World.step_signal h (by omega) (by have := hc.le; omega)
      rcases hcase with ⟨hone, rfl⟩ | ⟨_, rfl⟩
      · refine ⟨hids, hrows, ?_⟩
        intro b hb r hr0 hrH
        rcases List.mem_append.mp hb with hold | hnew
        · exact hready b hold r hr0 hrH
        · have hbg : w.background = [] := by
            have := hc.count
            exact List.length_eq_zero.mp (by omega)
          simp only [List.mem_singleton] at hnew
          subst hnew
          rcases hrows r hr0 hrH with hin | ⟨t, ht, _⟩
          · exact hin
          · simp [hbg] at ht
      · exact ⟨hids, hrows, hready⟩
  | supersede fuel pa size_y => exact absurd he (by simp [Event.unsuperseded])
  | delete => exact absurd he (by simp [Event.unsuperseded])

theorem World.covered_run {N H : Nat} (hN : N < 2 ^ 32) :
    ∀ (sched : List Event) (w w' : World), w.Counted N → w.Covered H →
      (∀ e ∈ sched, e.unsuperseded w.id) → World.run sched w = some w' → w'.Covered H := by
  intro sched
  induction sched with
  | nil =>
    intro w w' _ hw _ h
    simp only [World.run, Option.some.injEq] at h
    subst h
    exact hw
  | cons e es ih =>
    intro w w' hc hw he h
    rw [World.run] at h
    cases hs : w.step e with
    | none => simp [hs] at h
    | some w1 =>
      simp only [hs] at h
      obtain ⟨hc1, _, hid1⟩ := World.counted_step hN hc hs
      have hw1 := World.covered_step hN hc hw (he e (List.mem_cons_self _ _)) hs
      refine ih w1 w' hc1 hw1 (fun e' he' => ?_) h
      rw [hid1]
      exact he e' (List.mem_cons_of_mem _ he')

theorem length_strips (H id n : Nat) : (strips H id n).length = n := by
  simp [strips]

theorem mem_strips {H id n : Nat} {t : StripTask} :
    t ∈ strips H id n ↔
      ∃ k, k < n ∧ t = ⟨((k * (H / 64) : Nat) : Int), (H : CCoord) / 64, (H : CCoord), id⟩ := by
  simp only [strips, List.mem_map, List.mem_range]
  constructor
  · rintro ⟨k, hk, rfl⟩
    exact ⟨k, hk, rfl⟩
  · rintro ⟨k, hk, rfl⟩
    exact ⟨k, hk, rfl⟩

/-- The world right after the dispatch of a request of integral height `H ≥ 64` satisfies
the counting invariant for `stripCount H` strips. -/
theorem World.start_counted {H : Nat} (hH : 64 ≤ H) (vc : ViewController) (id : Nat) :
    (World.start vc id (dispatched H id)).Counted (stripCount H) := by
  have hpos := stripCount_pos hH
  refine ⟨?_, le_refl _, ?_⟩
  · simp [World.start, dispatched, length_strips]
  · have hne : ¬ stripCount H = 0 := by omega
    simp [World.start, dispatched, hne]

/-- Right after the dispatch of a request of integral height `H ≥ 64` every row of the
bitmap lies in the range of some waiting task. -/
theorem World.start_covered {H : Nat} (hH : 64 ≤ H) (vc : ViewController) (id : Nat) :
    (World.start vc id (dispatched H id)).Covered H := by
  have hf : 0 < H / 64 := Nat.div_pos hH (by norm_num)
  refine ⟨?_, ?_, ?_⟩
  · intro t ht
    obtain ⟨k, _, rfl⟩ := mem_strips.mp ht
    rfl
  · intro r h0 hr
    right
    obtain ⟨m, rfl⟩ := Int.eq_ofNat_of_zero_le h0
    have hm : m < H := by exact_mod_cast hr
    have hk1 : m / (H / 64) * (H / 64) ≤ m := Nat.div_mul_le_self m (H / 64)
    have hk2 : m < m / (H / 64) * (H / 64) + H / 64 := by
      have h1 := Nat.div_add_mod m (H / 64)
      have h2 := Nat.mod_lt m hf
      rw [Nat.mul_comm] at h1
      omega
    refine ⟨⟨((m / (H / 64) * (H / 64) : Nat) : Int), (H : CCoord) / 64, (H : CCoord), id⟩,
      mem_strips.mpr ⟨m / (H / 64), (lt_stripCount_iff hH _).mpr (by omega), rfl⟩, ?_, ?_, ?_⟩
    · show ((m / (H / 64) * (H / 64) : Nat) : Int) ≤ (m : Int)
      exact_mod_cast hk1
    · show ((((m : Nat) : Int) - ((m / (H / 64) * (H / 64) : Nat) : Int) : Int) : CCoord)
        < (H : CCoord) / 64
      have hdiff : (((m : Nat) : Int) - ((m / (H / 64) * (H / 64) : Nat) : Int) : Int)
          < ((H / 64 : Nat) : Int) := by omega
      have hcast : (((H / 64 : Nat) : Int) : CCoord) ≤ (H : CCoord) / 64 := by
        have := @Nat.cast_div_le ℚ _ H 64
        exact_mod_cast this
      refine lt_of_lt_of_le ?_ hcast
      exact_mod_cast hdiff
    · show (((m : Nat) : Int) : CCoord) < (H : CCoord)
      exact_mod_cast hm
  · intro b hb
    simp [World.start] at hb

theorem World.run_append (a b : List Event) :
    ∀ w : World, World.run (a ++ b) w = (World.run a w).bind (World.run b) := by
  induction a with
  | nil => intro w; rfl
  | cons e es ih =>
    intro w
    simp only [List.cons_append, World.run]
    cases w.step e with
    | none => rfl
    | some w1 => exact ih w1

/-- With fuel above `numLinesPerTask` of every waiting task, the workers can run the first
`n` waiting tasks one after the other; each posts its completion closure. -/
theorem World.run_workers (taskID : Nat → Nat) (F : Nat) :
    ∀ (n : Nat) (w : World), n ≤ w.background.length →
      (∀ t ∈ w.background, t.numLinesPerTask < (F : CCoord)) →
      ∃ w', World.run (List.replicate n (Event.worker 0 taskID (F + 1))) w = some w' ∧
        w'.main = w.main + n := by
  intro n
  induction n with
  | zero => intro w _ _; exact ⟨w, rfl, rfl⟩
  | succ n ih =>
    intro w hn hF
    cases hbg : w.background with
    | nil => simp [hbg] at hn
    | cons t ts =>
      have htF : t.numLinesPerTask < ((0 : Nat) : CCoord) + (F : CCoord) := by
        simpa using hF t (by simp [hbg])
      obtain ⟨r, hr⟩ := Option.isSome_iff_exists.mp (rowLoop_isSome t taskID F 0 htF)
      have hstep : ∃ w1, w.step (Event.worker 0 taskID (F + 1)) = some w1 ∧
          w1.background = ts ∧ w1.main = w.main + 1 := by
        cases hs : w.step (Event.worker 0 taskID (F + 1)) with
        | none => simp [World.step, hbg, stripTask, hr] at hs
        | some w1 =>
          obtain ⟨t', rows, ex, _, _, rfl⟩ := World.step_worker hs
          exact ⟨_, rfl, by simp [hbg], rfl⟩
      obtain ⟨w1, hw1, hb1, hm1⟩ := hstep
      obtain ⟨w', hw', hm'⟩ := ih w1 (by rw [hb1]; simp [hbg] at hn; omega)
        (fun t' ht' => hF t' (by rw [hbg]; exact List.mem_cons_of_mem _ (hb1 ▸ ht')))
      refine ⟨w', ?_, by omega⟩
      simp only [List.replicate_succ, World.run, hw1, hw']

/-- The main context can run `n` completion closures when that many are queued. -/
theorem World.run_signals :
    ∀ (n : Nat) (w : World), n ≤ w.main →
      ∃ w', World.run (List.replicate n Event.signal) w = some w' := by
  intro n
  induction n with
  | zero => intro w _; exact ⟨w, rfl⟩
  | succ n ih =>
    intro w hn
    have hm : w.main ≠ 0 := by omega
    have hstep : ∃ w1, w.step Event.signal = some w1 ∧ w1.main = w.main - 1 := by
      simp only [World.step, hm, if_false]
      split_ifs <;> exact ⟨_, rfl, rfl⟩
    obtain ⟨w1, hw1, hm1⟩ := hstep
    obtain ⟨w', hw'⟩ := ih w1 (by omega)
    exact ⟨w', by simp only [List.replicate_succ, World.run, hw1, hw']⟩

theorem stripCount_100 : stripCount 100 = 100 := by decide

/-- C1 (the code at the failing inputs `H = 100` and `H = 32`).  For a height of 100 rows
`numLinesPerTask` is `100 / 64 = 1.5625`: the dispatch loop ends with 100 strip tasks, the
first starting at row 0 and the second at row 1, and each of them computes two rows, so row 1
is computed by both (the strips overlap).  For a height of 32 rows the loop never ends, and
every task it has dispatched computes row 0 only. -/
theorem C1_strips_overlap :
    (∃ s t0 t1, calculateMandelbrotBitmap 101 true 100 1 = some s ∧ s.background.length = 100 ∧
      s.background[0]? = some t0 ∧ s.background[1]? = some t1 ∧
      rowLoop t0 (fun _ => 1) 3 0 = some ([0, 1], Exit.completed) ∧
      rowLoop t1 (fun _ => 1) 3 0 = some ([1, 2], Exit.completed)) ∧
    (∀ fuel, calculateMandelbrotBitmap fuel true 32 1 = none) ∧
    (∀ n, ∀ t ∈ (dispatchIter 32 1 n ⟨0, 0, []⟩).background,
      rowLoop t (fun _ => 1) 2 0 = some ([0], Exit.completed)) := by
  have h100 : (100 : CCoord) = ((100 : Nat) : CCoord) := by norm_num
  have h32 : (32 : CCoord) = ((32 : Nat) : CCoord) := by norm_num
  refine ⟨⟨dispatched 100 1, ⟨0, 100 / 64, 100, 1⟩, ⟨1, 100 / 64, 100, 1⟩, ?_, ?_, ?_, ?_, ?_, ?_⟩,
    ?_, ?_⟩
  · rw [h100]
    exact calculateMandelbrotBitmap_of_ge (by norm_num) 1 101 (by rw [stripCount_100]; norm_num)
  · simp [dispatched, length_strips, stripCount_100]
  · simp [dispatched, strips, stripCount_100, List.getElem?_range]
  · simp [dispatched, strips, stripCount_100, List.getElem?_range]
  · norm_num [rowLoop]
  · norm_num [rowLoop]
  · intro fuel
    cases fuel with
    | zero => rfl
    | succ n =>
      simp only [calculateMandelbrotBitmap, if_true]
      rw [h32, dispatchLoop_eq, dispatchIter_small (by norm_num) (by norm_num)]
      norm_num
  · intro n t ht
    rw [h32, dispatchIter_small (by norm_num) (by norm_num)] at ht
    obtain ⟨k, _, rfl⟩ := mem_strips.mp ht
    norm_num [rowLoop]

/-- C2 (the code at the failing inputs `H = 32` and `H = 100`).  For a height of 32 rows,
after any number `n` of iterations the dispatch loop has submitted `n` tasks, all of them
starting at row 0, and its condition still holds; so it never returns, the number of tasks
exceeds every bound and the start rows do not ascend.  For a height of 100 rows the loop
submits 100 tasks, while `ceil (H / S)` for `S = H / 64` is 64. -/
theorem C2_strip_count_and_order :
    (∀ n, ((dispatchIter 32 1 n ⟨0, 0, []⟩).background.map StripTask.y = List.replicate n 0) ∧
      (((dispatchIter 32 1 n ⟨0, 0, []⟩).y : Int) : CCoord) < 32) ∧
    (∀ fuel, calculateMandelbrotBitmap fuel true 32 1 = none) ∧
    (∃ s, calculateMandelbrotBitmap 101 true 100 1 = some s ∧ s.background.length = 100 ∧
      ⌈(100 : CCoord) / ((100 : CCoord) / 64)⌉ = 64) := by
  have h100 : (100 : CCoord) = ((100 : Nat) : CCoord) := by norm_num
  have h32 : (32 : CCoord) = ((32 : Nat) : CCoord) := by norm_num
  refine ⟨?_, ?_, ⟨dispatched 100 1, ?_, ?_, ?_⟩⟩
  · intro n
    rw [h32, dispatchIter_small (by norm_num) (by norm_num)]
    refine ⟨?_, by norm_num⟩
    simp only [strips, List.map_map]
    apply List.ext_getElem
    · simp
    · intro i h1 h2
      simp
  · intro fuel
    cases fuel with
    | zero => rfl
    | succ n =>
      simp only [calculateMandelbrotBitmap, if_true]
      rw [h32, dispatchLoop_eq, dispatchIter_small (by norm_num) (by norm_num)]
      norm_num
  · rw [h100]
    exact calculateMandelbrotBitmap_of_ge (by norm_num) 1 101 (by rw [stripCount_100]; norm_num)
  · simp [dispatched, length_strips, stripCount_100]
  · norm_num

/-- A returned dispatch state with at least one task comes from an integral height of at
least 64 rows and is `dispatched`. -/
theorem dispatch_of_tasks {H id fuel : Nat} {pa : Bool} {d : Dispatch}
    (hd : calculateMandelbrotBitmap fuel pa (H : CCoord) id = some d)
    (hN : 1 ≤ d.background.length) : 64 ≤ H ∧ d = dispatched H id := by
  cases pa with
  | false =>
    simp only [calculateMandelbrotBitmap, Bool.false_eq_true, if_false, Option.some.injEq] at hd
    subst hd
    simp at hN
  | true =>
    by_cases h0 : H = 0
    · subst h0
      cases fuel with
      | zero => simp [calculateMandelbrotBitmap, dispatchLoop] at hd
      | succ n =>
        simp [calculateMandelbrotBitmap, dispatchLoop] at hd
        subst hd
        simp at hN
    · exact calculateMandelbrotBitmap_some (by omega) hd

/-- C3.  Take the request that `calculateMandelbrotBitmap` dispatches for an integral height,
with `N ≥ 1` strip tasks, and any schedule of events after the dispatch (workers completing
the strips in any order, completion closures run by the main context).  The counter is `N`
after the dispatch, it is `N` minus the number of closures run so far at every moment, and
`readyCallback` has been invoked once if all `N` closures have run and not at all before. -/
theorem C3_ready_exactly_once (H id fuel : Nat) (pa : Bool) (d : Dispatch)
    (hd : calculateMandelbrotBitmap fuel pa (H : CCoord) id = some d)
    (hN : 1 ≤ d.background.length) (vc : ViewController) (sched : List Event) (w : World)
    (hrun : World.run sched (World.start vc id d) = some w) :
    d.counter = d.background.length ∧
      w.counter + signals sched = d.background.length ∧
      w.ready.length = (if signals sched = d.background.length then 1 else 0) := by
  obtain ⟨hH, rfl⟩ := dispatch_of_tasks hd hN
  have hle := stripCount_le hH
  have hbound : stripCount H < 2 ^ 32 := by omega
  obtain ⟨hc, hsig, _⟩ := World.counted_run hbound sched _ w (World.start_counted hH vc id) hrun
  have hlen : (dispatched H id).background.length = stripCount H := by
    simp [dispatched, length_strips]
  have hcnt : (World.start vc id (dispatched H id)).counter = stripCount H := rfl
  rw [hcnt] at hsig
  refine ⟨by rw [hlen]; rfl, by rw [hlen]; exact hsig, ?_⟩
  rw [hc.ready, hlen]
  by_cases h0 : w.counter = 0
  · have : signals sched = stripCount H := by omega
    simp [h0, this]
  · have : ¬ signals sched = stripCount H := by omega
    simp [h0, this]

theorem signals_drain (n id F : Nat) : signals (drain n id F) = n := by
  simp [signals, drain, List.countP_append, List.countP_replicate, Event.isSignal]

theorem drain_unsuperseded (n id F : Nat) : ∀ e ∈ drain n id F, e.unsuperseded id := by
  intro e he
  simp only [drain, List.mem_append, List.mem_replicate] at he
  rcases he with ⟨_, rfl⟩ | ⟨_, rfl⟩
  · intro k
    rfl
  · trivial

/-- After the dispatch for an integral height `H ≥ 64` the schedule `drain` can be run. -/
theorem World.run_drain {H : Nat} (hH : 64 ≤ H) (vc : ViewController) (id : Nat) :
    ∃ w, World.run (drain (stripCount H) id H) (World.start vc id (dispatched H id)) = some w := by
  have hF : ∀ t ∈ (World.start vc id (dispatched H id)).background,
      t.numLinesPerTask < (H : CCoord) := by
    intro t ht
    obtain ⟨k, _, rfl⟩ := mem_strips.mp ht
    show (H : CCoord) / 64 < (H : CCoord)
    have hpos : (0 : CCoord) < (H : CCoord) := by
      have : 0 < H := by omega
      exact_mod_cast this
    linarith
  obtain ⟨w1, hw1, hm1⟩ := World.run_workers (fun _ => id) H (stripCount H)
    (World.start vc id (dispatched H id)) (by simp [World.start, dispatched, length_strips]) hF
  obtain ⟨w2, hw2⟩ := World.run_signals (stripCount H) w1 (by omega)
  exact ⟨w2, by rw [drain, World.run_append, hw1]; exact hw2⟩

theorem stripCount_64 : stripCount 64 = 64 := by decide

/-- Witness of C3 at a height of 64 rows: 64 strips; after the workers have run them all
and the main context has run the 64 completion closures, the counter is zero and the
callback has been invoked exactly once. -/
theorem C3_ready_exactly_once_witness :
    ∃ d w, calculateMandelbrotBitmap 65 true ((64 : Nat) : CCoord) 1 = some d ∧
      d.background.length = 64 ∧
      World.run (drain 64 1 64) (World.start ⟨1, true, []⟩ 1 d) = some w ∧
      w.counter = 0 ∧ w.ready.length = 1 := by
  have hd : calculateMandelbrotBitmap 65 true ((64 : Nat) : CCoord) 1 = some (dispatched 64 1) :=
    calculateMandelbrotBitmap_of_ge (by norm_num) 1 65 (by rw [stripCount_64]; norm_num)
  have hlen : (dispatched 64 1).background.length = 64 := by
    simp [dispatched, length_strips, stripCount_64]
  obtain ⟨w, hw⟩ := World.run_drain (H := 64) (by norm_num) ⟨1, true, []⟩ 1
  rw [stripCount_64] at hw
  have h := C3_ready_exactly_once 64 1 65 true (dispatched 64 1) hd (by rw [hlen]; norm_num)
    ⟨1, true, []⟩ (drain 64 1 64) w hw
  rw [signals_drain, hlen] at h
  exact ⟨dispatched 64 1, w, hd, hlen, hw, by omega, by simpa using h.2.2⟩

/-- C4 (counterexample).  The token is 2, the request was captured at `id = 1`, and its last
completion closure is queued with the counter at 1: running the closure brings the counter
to zero and invokes `readyCallback (1, bitmap)` although `taskID != id`. -/
theorem C4_completion_invokes_callback_when_stale :
    ∃ w, World.step ⟨⟨2, true, []⟩, 1, ⟨1, []⟩, 1, [], 1, []⟩ Event.signal = some w ∧
      w.counter = 0 ∧ w.ready = [(1, ⟨1, []⟩)] :=
  ⟨_, rfl, rfl, rfl⟩

/-- C4 (amended).  When the last completion closure of a request brings the counter from 1
to zero while `taskID` differs from the request's `id`, the closure does invoke
`readyCallback (id, bitmap)`; it is the callback that compares `id` with `taskID`, and it
leaves the controller as it was: `setBackground` is not called. -/
theorem C4_stale_callback_commits_nothing (w : World) (hc : w.counter = 1) (hm : w.main ≠ 0)
    (hstale : w.vc.taskID ≠ w.id) :
    ∃ w', w.step Event.signal = some w' ∧ w'.counter = 0 ∧
      w'.ready = w.ready ++ [(w.id, w.bitmap)] ∧ w'.vc = w.vc := by
  have hcomp : completion w.counter = (0, true) := by
    rw [hc]
    rfl
  have hcb : readyCallback w.vc w.id w.bitmap = w.vc := by
    simp [readyCallback, Ne.symm hstale]
  refine ⟨{ w with main := w.main - 1, counter := 0, ready := w.ready ++ [(w.id, w.bitmap)],
                   vc := readyCallback w.vc w.id w.bitmap }, ?_, rfl, rfl, hcb⟩
  simp [World.step, hm, hcomp]

/-- Witness of the amended C4 at the world of the counterexample. -/
theorem C4_stale_callback_commits_nothing_witness :
    ∃ w', World.step ⟨⟨2, true, []⟩, 1, ⟨1, []⟩, 1, [], 1, []⟩ Event.signal = some w' ∧
      w'.counter = 0 ∧ w'.ready = [] ++ [(1, ⟨1, []⟩)] ∧ w'.vc = ⟨2, true, []⟩ :=
  C4_stale_callback_commits_nothing ⟨⟨2, true, []⟩, 1, ⟨1, []⟩, 1, [], 1, []⟩ rfl (by decide)
    (by decide)

/-- C5.  `readyCallback` calls `setBackground` with the request's bitmap if and only if the
request's `id` equals `taskID` and `mandelbrotView` is non-null at that moment, and otherwise
leaves the controller untouched.  In the scenario of five strips of request 1: three strips
complete and their closures run, `updateMandelbrot` bumps the token from 1 to 2, the last
two strips (now stale) and their closures run; the counter reaches zero, the callback runs,
and `setBackground` has never been called. -/
theorem C5_commit_iff_current :
    (∀ (vc : ViewController) (id : Nat) (bitmap : Bitmap),
      (readyCallback vc id bitmap).setBackground = vc.setBackground ++ [bitmap] ↔
        (id = vc.taskID ∧ vc.mandelbrotView = true)) ∧
    (∀ (vc : ViewController) (id : Nat) (bitmap : Bitmap),
      ¬ (id = vc.taskID ∧ vc.mandelbrotView = true) → readyCallback vc id bitmap = vc) ∧
    (World.run
        [Event.worker 0 (fun _ => 1) 2, Event.worker 0 (fun _ => 1) 2, Event.worker 0 (fun _ => 1) 2,
         Event.signal, Event.signal, Event.signal,
         Event.supersede 65 true 64,
         Event.worker 0 (fun _ => 2) 2, Event.worker 0 (fun _ => 2) 2,
         Event.signal, Event.signal]
        ⟨⟨1, true, []⟩, 1, ⟨1, []⟩, 5,
          [⟨0, 1, 5, 1⟩, ⟨1, 1, 5, 1⟩, ⟨2, 1, 5, 1⟩, ⟨3, 1, 5, 1⟩, ⟨4, 1, 5, 1⟩], 0, []⟩ =
      some ⟨⟨2, true, []⟩, 1, ⟨1, [0, 1, 2]⟩, 0, [], 0, [(1, ⟨1, [0, 1, 2]⟩)]⟩) := by
  refine ⟨?_, ?_, ?_⟩
  · intro vc id bitmap
    unfold readyCallback
    split_ifs with h
    · simp [h]
    · simp [h]
  · intro vc id bitmap h
    simp [readyCallback, h]
  · have h64 : (64 : CCoord) = ((64 : Nat) : CCoord) := by norm_num
    have hcalc : calculateMandelbrotBitmap 65 true (64 : CCoord) 2 = some (dispatched 64 2) := by
      rw [h64]
      exact calculateMandelbrotBitmap_of_ge (by norm_num) 2 65 (by rw [stripCount_64]; norm_num)
    norm_num [World.run, World.step, stripTask, rowLoop, World.perform, completion, wrap32,
      readyCallback, updateMandelbrot, hcalc]

theorem countP_calculateLine (rows : List Int) :
    (rows.map Effect.calculateLine).countP Effect.isPerformMain = 0 := by
  induction rows with
  | nil => rfl
  | cons r rs ih => simp [List.countP_cons, Effect.isPerformMain, ih]

/-- C6.  A strip task, whatever it has captured and whatever values its loads of the token
return, finishes (fuel above `numLinesPerTask` is enough) and, however its row loop was left,
posts exactly one completion closure to the main context, as its last effect. -/
theorem C6_one_signal_on_every_exit (t : StripTask) (taskID : Nat → Nat) (fuel : Nat)
    (hfuel : t.numLinesPerTask < (fuel : CCoord)) :
    ∃ effects exit, stripTask t taskID (fuel + 1) = some (effects, exit) ∧
      effects.countP Effect.isPerformMain = 1 ∧
      effects.getLast? = some (Effect.performMain t.id) := by
  have h0 : t.numLinesPerTask < ((0 : Nat) : CCoord) + (fuel : CCoord) := by simpa using hfuel
  obtain ⟨r, hr⟩ := Option.isSome_iff_exists.mp (rowLoop_isSome t taskID fuel 0 h0)
  refine ⟨r.1.map Effect.calculateLine ++ [Effect.performMain t.id], r.2, ?_, ?_, ?_⟩
  · simp [stripTask, hr]
  · simp [List.countP_append, countP_calculateLine, Effect.isPerformMain]
  · simp

/-- Witness of C6 on the three exit paths, for tasks of a bitmap of 5 rows with 2 rows per
task: a task that runs both its rows, a task that starts at the last row and breaks at the
end of the bitmap, and a task that finds the token changed at its second row. -/
theorem C6_one_signal_on_every_exit_witness :
    (∃ effects, stripTask ⟨0, 2, 5, 1⟩ (fun _ => 1) 4 = some (effects, Exit.completed) ∧
      effects.countP Effect.isPerformMain = 1) ∧
    (∃ effects, stripTask ⟨4, 2, 5, 1⟩ (fun _ => 1) 4 = some (effects, Exit.pastEnd) ∧
      effects.countP Effect.isPerformMain = 1) ∧
    (∃ effects, stripTask ⟨0, 2, 5, 1⟩ (fun k => if k = 0 then 1 else 2) 4 =
        some (effects, Exit.stale) ∧
      effects.countP Effect.isPerformMain = 1) := by
  refine ⟨?_, ?_, ?_⟩
  · obtain ⟨effects, exit, h, hc, _⟩ :=
      C6_one_signal_on_every_exit ⟨0, 2, 5, 1⟩ (fun _ => 1) 3 (by norm_num)
    have he : exit = Exit.completed := by
      norm_num [stripTask, rowLoop] at h
      exact h.2.symm
    exact ⟨effects, he ▸ h, hc⟩
  · obtain ⟨effects, exit, h, hc, _⟩ :=
      C6_one_signal_on_every_exit ⟨4, 2, 5, 1⟩ (fun _ => 1) 3 (by norm_num)
    have he : exit = Exit.pastEnd := by
      norm_num [stripTask, rowLoop] at h
      exact h.2.symm
    exact ⟨effects, he ▸ h, hc⟩
  · obtain ⟨effects, exit, h, hc, _⟩ :=
      C6_one_signal_on_every_exit ⟨0, 2, 5, 1⟩ (fun k => if k = 0 then 1 else 2) 3 (by norm_num)
    have he : exit = Exit.stale := by
      norm_num [stripTask, rowLoop] at h
      exact h.2.symm
    exact ⟨effects, he ▸ h, hc⟩

theorem toInt_nonneg {x : CCoord} (h : 0 ≤ x) : 0 ≤ toInt x := by
  unfold toInt
  rw [if_pos h]
  exact Int.floor_nonneg.mpr h

theorem dispatchIter_wf (size_y : CCoord) (id : Nat) :
    ∀ n, (dispatchIter size_y id n ⟨0, 0, []⟩).Wf size_y id := by
  intro n
  induction n with
  | zero => exact ⟨le_refl _, fun t ht => by simp [dispatchIter] at ht⟩
  | succ n ih =>
    rw [dispatchIter_succ]
    generalize dispatchIter size_y id n ⟨0, 0, []⟩ = s at ih
    obtain ⟨hy, htasks⟩ := ih
    by_cases hlt : (s.y : CCoord) < size_y
    · have hs0 : (0 : CCoord) ≤ (s.y : CCoord) := by exact_mod_cast hy
      have hpos : (0 : CCoord) ≤ (s.y : CCoord) + size_y / 64 := by
        have : (0 : CCoord) < size_y := lt_of_le_of_lt hs0 hlt
        positivity
      simp only [dispatchIter, if_pos hlt, dispatchBody]
      refine ⟨toInt_nonneg hpos, ?_⟩
      intro t ht
      rcases List.mem_append.mp ht with hold | hnew
      · exact htasks t hold
      · simp only [List.mem_singleton] at hnew
        subst hnew
        exact ⟨hy, rfl, rfl, rfl⟩
    · rw [dispatchIter_of_not_lt _ _ _ _ hlt]
      exact ⟨hy, htasks⟩

theorem calculateMandelbrotBitmap_wf {size_y : CCoord} {id fuel : Nat} {pa : Bool} {d : Dispatch}
    (hd : calculateMandelbrotBitmap fuel pa size_y id = some d) : d.Wf size_y id := by
  cases pa with
  | false =>
    simp only [calculateMandelbrotBitmap, Bool.false_eq_true, if_false, Option.some.injEq] at hd
    subst hd
    exact dispatchIter_wf size_y id 0
  | true =>
    cases fuel with
    | zero => simp [calculateMandelbrotBitmap, dispatchLoop] at hd
    | succ n =>
      simp only [calculateMandelbrotBitmap, if_true] at hd
      rw [dispatchLoop_eq] at hd
      split_ifs at hd
      cases hd
      exact dispatchIter_wf size_y id n

theorem lt_div64_iff (i H : Nat) : (i : CCoord) < (H : CCoord) / 64 ↔ i < (H + 63) / 64 := by
  rw [lt_div_iff₀ (by norm_num : (0 : CCoord) < 64)]
  have h : (i : CCoord) * 64 < (H : CCoord) ↔ i * 64 < H := by exact_mod_cast Iff.rfl
  rw [h]
  omega

theorem row_ge_iff (y i H : Nat) :
    ((((y : Nat) : Int) + ((i : Nat) : Int) : Int) : CCoord) ≥ (H : CCoord) ↔ H ≤ y + i := by
  constructor
  · intro h
    exact_mod_cast h
  · intro h
    exact_mod_cast h

/-- Closed form of the row loop of a task of an integral height whose loads of the token
all return its `id`: it computes the rows `y + i, .., y + fullRows y H - 1`, and is left by
the loop condition when `numLinesPerTask` rows fit into the bitmap, by the end-of-bitmap
guard otherwise. -/
theorem rowLoop_fresh (y H id : Nat) (taskID : Nat → Nat) (hid : ∀ k, taskID k = id) :
    ∀ fuel i : Nat, i ≤ fullRows y H → fullRows y H - i < fuel →
      rowLoop ⟨(y : Int), (H : CCoord) / 64, (H : CCoord), id⟩ taskID fuel i =
        some ((List.range' i (fullRows y H - i)).map (fun j : Nat => (y : Int) + (j : Int)),
          if (H + 63) / 64 ≤ H - y then Exit.completed else Exit.pastEnd) := by
  intro fuel
  induction fuel with
  | zero => intro i _ h; omega
  | succ n ih =>
    intro i hi hfuel
    rw [rowLoop]
    simp only [lt_div64_iff, row_ge_iff, hid, ne_eq, not_true_eq_false, if_false]
    by_cases him : i = fullRows y H
    · have hsub : fullRows y H - i = 0 := by omega
      rw [hsub]
      unfold fullRows at him
      by_cases hc : (H + 63) / 64 ≤ H - y
      · have h1 : ¬ i < (H + 63) / 64 := by omega
        simp [h1, hc]
      · have h1 : i < (H + 63) / 64 := by omega
        have h2 : H ≤ y + i := by omega
        simp [h1, h2, hc]
    · have hlt : i < fullRows y H := by omega
      have h1 : i < (H + 63) / 64 := by
        unfold fullRows at hlt
        omega
      have h2 : ¬ H ≤ y + i := by
        unfold fullRows at hlt
        omega
      rw [if_pos h1, if_neg h2, ih (i + 1) (by omega) (by omega)]
      have hlen : fullRows y H - i = (fullRows y H - (i + 1)) + 1 := by omega
      rw [hlen, List.range'_succ]
      simp

theorem getElem?_strips {H id n k : Nat} (hk : k < n) :
    (strips H id n)[k]? =
      some ⟨((k * (H / 64) : Nat) : Int), (H : CCoord) / 64, (H : CCoord), id⟩ := by
  simp [strips, List.getElem?_range hk]

/-- The rows computed by a task of a well-formed dispatch state lie in the bitmap. -/
theorem rows_within_of_wf {size_y : CCoord} {id : Nat} {s : Dispatch} (hs : s.Wf size_y id)
    {t : StripTask} (ht : t ∈ s.background) {taskID : Nat → Nat} {fuel : Nat}
    {r : List Int × Exit} (hr : rowLoop t taskID fuel 0 = some r) {row : Int}
    (hrow : row ∈ r.1) : 0 ≤ row ∧ (row : CCoord) < size_y := by
  obtain ⟨h0, hsz, _, _⟩ := hs.tasks t ht
  obtain ⟨hle, hcov, _, _⟩ := rowLoop_rows t taskID fuel 0 r hr row hrow
  refine ⟨by push_cast at hle; omega, ?_⟩
  rw [← hsz]
  exact hcov.2.2

/-- C7.  Every row a dispatched strip task computes, whatever values its loads of the token
return, lies in the bitmap: `0 ≤ y + i < size.y`; this holds for the tasks submitted in any
number of iterations of the dispatch loop, and so for the tasks of a dispatch that has
returned.  And when the dispatch for an integral height `H` that is not a multiple of 64 has
returned, the last strip is shorter than the first: the first task is left by its loop
condition, the last by the end-of-bitmap guard, with fewer rows computed. -/
theorem C7_rows_within_bitmap :
    (∀ (size_y : CCoord) (id n : Nat), ∀ t ∈ (dispatchIter size_y id n ⟨0, 0, []⟩).background,
      ∀ (taskID : Nat → Nat) (fuel : Nat) (r : List Int × Exit),
        rowLoop t taskID fuel 0 = some r → ∀ row ∈ r.1, 0 ≤ row ∧ (row : CCoord) < size_y) ∧
    (∀ (size_y : CCoord) (id fuel : Nat) (pa : Bool) (d : Dispatch),
      calculateMandelbrotBitmap fuel pa size_y id = some d → ∀ t ∈ d.background,
      ∀ (taskID : Nat → Nat) (fuel' : Nat) (r : List Int × Exit),
        rowLoop t taskID fuel' 0 = some r → ∀ row ∈ r.1, 0 ≤ row ∧ (row : CCoord) < size_y) ∧
    (∀ (H id fuel : Nat) (d : Dispatch),
      calculateMandelbrotBitmap fuel true (H : CCoord) id = some d → 0 < H → ¬ 64 ∣ H →
      ∃ first last rowsF rowsL, d.background[0]? = some first ∧
        d.background[d.background.length - 1]? = some last ∧
        rowLoop first (fun _ => id) (H + 1) 0 = some (rowsF, Exit.completed) ∧
        rowLoop last (fun _ => id) (H + 1) 0 = some (rowsL, Exit.pastEnd) ∧
        rowsL.length < rowsF.length) := by
  refine ⟨?_, ?_, ?_⟩
  · intro size_y id n t ht taskID fuel r hr row hrow
    exact rows_within_of_wf (dispatchIter_wf size_y id n) ht hr hrow
  · intro size_y id fuel pa d hd t ht taskID fuel' r hr row hrow
    exact rows_within_of_wf (calculateMandelbrotBitmap_wf hd) ht hr hrow
  · intro H id fuel d hd h0 hdiv
    obtain ⟨hH, rfl⟩ := calculateMandelbrotBitmap_some h0 hd
    have hpos := stripCount_pos hH
    obtain ⟨m, hm⟩ : ∃ m, stripCount H = m + 1 := ⟨stripCount H - 1, by omega⟩
    have hlast : m * (H / 64) < H := (lt_stripCount_iff hH m).mp (by omega)
    have hend : H ≤ m * (H / 64) + H / 64 := by
      have h := stripCount_mul_ge hH
      rw [hm, Nat.succ_mul] at h
      exact h
    have hlen : (dispatched H id).background.length = m + 1 := by
      simp [dispatched, length_strips, hm]
    have hfirst := rowLoop_fresh (0 * (H / 64)) H id (fun _ => id) (fun _ => rfl) (H + 1) 0
      (Nat.zero_le _) (by unfold fullRows; omega)
    have hlastLoop := rowLoop_fresh (m * (H / 64)) H id (fun _ => id) (fun _ => rfl) (H + 1) 0
      (Nat.zero_le _) (by unfold fullRows; omega)
    have hc1 : (H + 63) / 64 ≤ H - 0 * (H / 64) := by omega
    have hc2 : ¬ (H + 63) / 64 ≤ H - m * (H / 64) := by omega
    rw [if_pos hc1] at hfirst
    rw [if_neg hc2] at hlastLoop
    refine ⟨_, _, _, _, ?_, ?_, hfirst, hlastLoop, ?_⟩
    · simp only [dispatched]
      exact getElem?_strips hpos
    · rw [hlen]
      simp only [dispatched, hm, Nat.add_sub_cancel]
      exact getElem?_strips (Nat.lt_succ_self m)
    · rw [List.length_map, List.length_map, List.length_range', List.length_range']
      unfold fullRows
      omega

/-- Witness of C7 for a height of 100 rows, which is not a multiple of 64: 100 strips, the
first computing rows 0 and 1, the last computing row 99 only. -/
theorem C7_rows_within_bitmap_witness :
    ∃ d, calculateMandelbrotBitmap 101 true ((100 : Nat) : CCoord) 1 = some d ∧
      ∃ first last rowsF rowsL, d.background[0]? = some first ∧
        d.background[d.background.length - 1]? = some last ∧
        rowLoop first (fun _ => 1) (100 + 1) 0 = some (rowsF, Exit.completed) ∧
        rowLoop last (fun _ => 1) (100 + 1) 0 = some (rowsL, Exit.pastEnd) ∧
        rowsL.length < rowsF.length :=
  ⟨dispatched 100 1,
    calculateMandelbrotBitmap_of_ge (by norm_num) 1 101 (by rw [stripCount_100]; norm_num),
    C7_rows_within_bitmap.2.2 100 1 101 (dispatched 100 1)
      (calculateMandelbrotBitmap_of_ge (by norm_num) 1 101 (by rw [stripCount_100]; norm_num))
      (by norm_num) (by norm_num)⟩

/-- A request without tasks and without queued closures stays so: no worker and no
completion closure can run, the callback is never invoked, `setBackground` is never called. -/
theorem World.run_idle :
    ∀ (sched : List Event) (w w' : World), w.background = [] → w.main = 0 →
      World.run sched w = some w' →
      w'.background = [] ∧ w'.main = 0 ∧ w'.ready = w.ready ∧
        w'.vc.setBackground = w.vc.setBackground := by
  intro sched
  induction sched with
  | nil =>
    intro w w' hb hm h
    simp only [World.run, Option.some.injEq] at h
    subst h
    exact ⟨hb, hm, rfl, rfl⟩
  | cons e es ih =>
    intro w w' hb hm h
    rw [World.run] at h
    cases hs : w.step e with
    | none => simp [hs] at h
    | some w1 =>
      simp only [hs] at h
      have hw1 : w1.background = [] ∧ w1.main = 0 ∧ w1.ready = w.ready ∧
          w1.vc.setBackground = w.vc.setBackground := by
        cases e with
        | worker k taskID fuel => simp [World.step, hb] at hs
        | signal => simp [World.step, hm] at hs
        | supersede fuel pa size_y =>
          simp only [World.step] at hs
          obtain ⟨r, hr, rfl⟩ := Option.map_eq_some'.mp hs
          simp only [updateMandelbrot] at hr
          obtain ⟨d, _, rfl⟩ := Option.map_eq_some'.mp hr
          exact ⟨hb, hm, rfl, rfl⟩
        | delete =>
          simp only [World.step, Option.some.injEq] at hs
          subst hs
          exact ⟨hb, hm, rfl, rfl⟩
      obtain ⟨hb1, hm1, hr1, hs1⟩ := hw1
      obtain ⟨hb', hm', hr', hs'⟩ := ih w1 w' hb1 hm1 h
      exact ⟨hb', hm', hr'.trans hr1, hs'.trans hs1⟩

/-- C8.  Take the request dispatched for an integral height `H > 0` and any schedule after
the dispatch in which the request is never superseded (every load of the token by a worker
returns the request's `id`; no `updateMandelbrot`, no `viewWillDelete`).  Whenever
`readyCallback` has been invoked, the bitmap it received had every row `0 ≤ r < H` written.
And when pixel access was obtained there is such a schedule after which the callback has
been invoked: the workers run every strip, the main context runs every completion closure. -/
theorem C8_ready_receives_all_rows (H id fuel : Nat) (pa : Bool) (hH : 0 < H) (d : Dispatch)
    (hd : calculateMandelbrotBitmap fuel pa (H : CCoord) id = some d) (vc : ViewController)
    (sched : List Event) (hfresh : ∀ e ∈ sched, e.unsuperseded id) (w : World)
    (hrun : World.run sched (World.start vc id d) = some w) :
    (∀ b ∈ w.ready, ∀ r : Int, 0 ≤ r → r < H → r ∈ b.2.lines) ∧
      (pa = true → ∃ sched' w', (∀ e ∈ sched', e.unsuperseded id) ∧
        World.run sched' (World.start vc id d) = some w' ∧ w'.ready.length = 1) := by
  cases pa with
  | false =>
    simp only [calculateMandelbrotBitmap, Bool.false_eq_true, if_false, Option.some.injEq] at hd
    subst hd
    obtain ⟨_, _, hr, _⟩ := World.run_idle sched _ w rfl rfl hrun
    refine ⟨?_, fun h => absurd h (by decide)⟩
    intro b hb
    rw [hr] at hb
    simp [World.start] at hb
  | true =>
    obtain ⟨h64, rfl⟩ := calculateMandelbrotBitmap_some hH hd
    have hle := stripCount_le h64
    have hbound : stripCount H < 2 ^ 32 := by omega
    refine ⟨(World.covered_run hbound sched _ w (World.start_counted h64 vc id)
      (World.start_covered h64 vc id) hfresh hrun).ready, fun _ => ?_⟩
    obtain ⟨w', hw'⟩ := World.run_drain h64 vc id
    obtain ⟨hc, hsig, _⟩ := World.counted_run hbound _ _ w' (World.start_counted h64 vc id) hw'
    rw [signals_drain] at hsig
    have hzero : w'.counter = 0 := by
      have : (World.start vc id (dispatched H id)).counter = stripCount H := rfl
      omega
    exact ⟨drain (stripCount H) id H, w', drain_unsuperseded _ _ _, hw',
      by rw [hc.ready, if_pos hzero]⟩

/-- Witness of C8 at a height of 64 rows: after the workers have run the 64 strips and the
main context the 64 completion closures, the callback has been invoked once, with a bitmap
in which rows 0 to 63 are written. -/
theorem C8_ready_receives_all_rows_witness :
    ∃ d w, calculateMandelbrotBitmap 65 true ((64 : Nat) : CCoord) 1 = some d ∧
      World.run (drain 64 1 64) (World.start ⟨1, true, []⟩ 1 d) = some w ∧
      w.ready.length = 1 ∧
      ∀ b ∈ w.ready, ∀ r : Int, 0 ≤ r → r < (64 : Nat) → r ∈ b.2.lines := by
  have hd : calculateMandelbrotBitmap 65 true ((64 : Nat) : CCoord) 1 = some (dispatched 64 1) :=
    calculateMandelbrotBitmap_of_ge (by norm_num) 1 65 (by rw [stripCount_64]; norm_num)
  obtain ⟨w, hw⟩ := World.run_drain (H := 64) (by norm_num) ⟨1, true, []⟩ 1
  obtain ⟨hc, hsig, _⟩ := World.counted_run (N := stripCount 64) (by rw [stripCount_64]; norm_num)
    _ _ w (World.start_counted (by norm_num) ⟨1, true, []⟩ 1) hw
  rw [signals_drain] at hsig
  have hzero : w.counter = 0 := by
    have : (World.start ⟨1, true, []⟩ 1 (dispatched 64 1)).counter = stripCount 64 := rfl
    omega
  have hready : w.ready.length = 1 := by rw [hc.ready, if_pos hzero]
  rw [stripCount_64] at hw
  exact ⟨dispatched 64 1, w, hd, hw, hready,
    (C8_ready_receives_all_rows 64 1 65 true (by norm_num) (dispatched 64 1) hd ⟨1, true, []⟩
      (drain 64 1 64) (drain_unsuperseded 64 1 64) w hw).1⟩

theorem wrap32_add (a b : Nat) : wrap32 (wrap32 a + b) = wrap32 (a + b) := by
  unfold wrap32
  omega

theorem readyCallback_taskID (vc : ViewController) (id : Nat) (bitmap : Bitmap) :
    (readyCallback vc id bitmap).taskID = vc.taskID := by
  unfold readyCallback
  split_ifs <;> rfl

theorem updateMandelbrot_taskID {fuel : Nat} {pa : Bool} {size_y : CCoord} {vc : ViewController}
    {r : ViewController × Nat × Dispatch} (h : updateMandelbrot fuel pa size_y vc = some r) :
    r.2.1 = wrap32 (vc.taskID + 1) ∧ r.1.taskID = r.2.1 := by
  simp only [updateMandelbrot] at h
  obtain ⟨d, _, rfl⟩ := Option.map_eq_some'.mp h
  exact ⟨rfl, rfl⟩

theorem World.step_taskID {w w' : World} {e : Event} (h : w.step e = some w') :
    w'.vc.taskID = if e.isBump then wrap32 (w.vc.taskID + 1) else w.vc.taskID := by
  cases e with
  | worker k taskID fuel =>
    obtain ⟨t, rows, ex, _, _, rfl⟩ := World.step_worker h
    rfl
  | signal =>
    simp only [World.step] at h
    split_ifs at h
    · cases h
      exact readyCallback_taskID _ _ _
    · cases h
      rfl
  | supersede fuel pa size_y =>
    simp only [World.step] at h
    obtain ⟨r, hr, rfl⟩ := Option.map_eq_some'.mp h
    obtain ⟨h1, h2⟩ := updateMandelbrot_taskID hr
    simp only [Event.isBump, if_true]
    rw [h2, h1]
  | delete =>
    simp only [World.step, Option.some.injEq] at h
    subst h
    rfl

/-- The token after a schedule: unchanged without an increment, otherwise the token before
the schedule plus the number of increments, modulo `2^32`. -/
theorem World.run_taskID :
    ∀ (sched : List Event) (w w' : World), World.run sched w = some w' →
      w'.vc.taskID =
        if bumps sched = 0 then w.vc.taskID else wrap32 (w.vc.taskID + bumps sched) := by
  intro sched
  induction sched with
  | nil =>
    intro w w' h
    simp only [World.run, Option.some.injEq] at h
    subst h
    simp [bumps]
  | cons e es ih =>
    intro w w' h
    rw [World.run] at h
    cases hs : w.step e with
    | none => simp [hs] at h
    | some w1 =>
      simp only [hs] at h
      have ih1 := ih w1 w' h
      have h1 := World.step_taskID hs
      by_cases hb : e.isBump = true
      · have hcount : bumps (e :: es) = bumps es + 1 := by simp [bumps, List.countP_cons, hb]
        have hne : ¬ bumps (e :: es) = 0 := by omega
        rw [if_pos hb] at h1
        rw [if_neg hne, hcount, ih1, h1]
        by_cases hz : bumps es = 0
        · rw [if_pos hz, hz]
        · rw [if_neg hz, wrap32_add]
          congr 1
          omega
      · have hcount : bumps (e :: es) = bumps es := by simp [bumps, List.countP_cons, hb]
        rw [if_neg hb] at h1
        rw [hcount, ih1, h1]

/-- C9 (counterexample).  With the token at `2^32 - 1`, the increment in `viewWillDelete`
and the one in `updateMandelbrot` both give 0: not the previous value plus one, and smaller
than the value the token held before. -/
theorem C9_token_wraps_to_zero :
    (viewWillDelete ⟨4294967295, true, []⟩).taskID = 0 ∧
    (updateMandelbrot 1 false 0 ⟨4294967295, true, []⟩).map (fun r => r.2.1) = some 0 ∧
    ¬ (4294967295 < (viewWillDelete ⟨4294967295, true, []⟩).taskID) := by
  refine ⟨by decide, ?_, by decide⟩
  simp [updateMandelbrot, calculateMandelbrotBitmap, wrap32]

/-- C9 (amended).  Every bump, in `viewWillDelete` and in `updateMandelbrot`, replaces the
token by its successor modulo `2^32`, which `updateMandelbrot` takes as the request's id.
As long as the sum stays below `2^32` the token after any schedule is the token before it
plus the number of bumps, hence strictly greater after at least one bump; and after at least
one and fewer than `2^32` bumps the token differs from the value it had. -/
theorem C9_token_increases_below_wrap :
    (∀ vc : ViewController, (viewWillDelete vc).taskID = (vc.taskID + 1) % 2 ^ 32) ∧
    (∀ (fuel : Nat) (pa : Bool) (size_y : CCoord) (vc : ViewController)
        (r : ViewController × Nat × Dispatch), updateMandelbrot fuel pa size_y vc = some r →
      r.2.1 = (vc.taskID + 1) % 2 ^ 32 ∧ r.1.taskID = r.2.1) ∧
    (∀ (sched : List Event) (w w' : World), World.run sched w = some w' →
      w.vc.taskID + bumps sched < 2 ^ 32 → w'.vc.taskID = w.vc.taskID + bumps sched) ∧
    (∀ (sched : List Event) (w w' : World), World.run sched w = some w' →
      w.vc.taskID < 2 ^ 32 → 0 < bumps sched → bumps sched < 2 ^ 32 →
      w'.vc.taskID ≠ w.vc.taskID) := by
  refine ⟨fun vc => rfl, fun fuel pa size_y vc r h => updateMandelbrot_taskID h, ?_, ?_⟩
  · intro sched w w' h hlt
    rw [World.run_taskID sched w w' h]
    by_cases hz : bumps sched = 0
    · rw [if_pos hz, hz, Nat.add_zero]
    · rw [if_neg hz]
      exact wrap32_of_lt hlt
  · intro sched w w' h hlt hpos hbound
    rw [World.run_taskID sched w w' h, if_neg (by omega)]
    unfold wrap32
    omega

/-- Witness of the amended C9: from a token of 5, `viewWillDelete` followed by an
`updateMandelbrot` (for an empty view) leaves the token at 7. -/
theorem C9_token_increases_below_wrap_witness :
    ∃ w', World.run [Event.delete, Event.supersede 1 false 0]
        ⟨⟨5, true, []⟩, 5, ⟨5, []⟩, 0, [], 0, []⟩ = some w' ∧
      w'.vc.taskID = 5 + bumps [Event.delete, Event.supersede 1 false 0] ∧
      w'.vc.taskID = 7 := by
  have hrun : World.run [Event.delete, Event.supersede 1 false 0]
      ⟨⟨5, true, []⟩, 5, ⟨5, []⟩, 0, [], 0, []⟩ =
      some ⟨⟨7, false, []⟩, 5, ⟨5, []⟩, 0, [], 0, []⟩ := by
    simp [World.run, World.step, viewWillDelete, updateMandelbrot, calculateMandelbrotBitmap,
      wrap32]
  exact ⟨_, hrun, C9_token_increases_below_wrap.2.2.1 _ _ _ hrun (by decide), rfl⟩

/-- C10.  For a height `size.y ≤ 0` (any coordinate value, integral or not)
`calculateMandelbrotBitmap` returns at once, with no task submitted and the counter at 0,
and so does `updateMandelbrot` after its bump of the token.  In the world after that
dispatch no event of the request can happen: whatever the schedule, no task waits in the
background, no completion closure is queued, `readyCallback` is never invoked and
`setBackground` is never called. -/
theorem C10_empty_size_dispatches_nothing (size_y : CCoord) (hsize : size_y ≤ 0)
    (fuel id : Nat) (pa : Bool) (vc : ViewController) :
    calculateMandelbrotBitmap (fuel + 1) pa size_y id = some ⟨0, 0, []⟩ ∧
      updateMandelbrot (fuel + 1) pa size_y vc =
        some ({ vc with taskID := wrap32 (vc.taskID + 1) }, wrap32 (vc.taskID + 1), ⟨0, 0, []⟩) ∧
      ∀ (sched : List Event) (w : World),
        World.run sched (World.start vc id ⟨0, 0, []⟩) = some w →
          w.background = [] ∧ w.main = 0 ∧ w.ready = [] ∧
            w.vc.setBackground = vc.setBackground := by
  have hcalc : ∀ id', calculateMandelbrotBitmap (fuel + 1) pa size_y id' = some ⟨0, 0, []⟩ := by
    intro id'
    have hnot : ¬ (((0 : Int) : CCoord) < size_y) := by
      simpa using hsize
    cases pa with
    | false => rfl
    | true => simp only [calculateMandelbrotBitmap, if_true, dispatchLoop, if_neg hnot]
  refine ⟨hcalc id, ?_, ?_⟩
  · simp only [updateMandelbrot, hcalc, Option.map_some']
  · intro sched w hrun
    exact World.run_idle sched _ w rfl rfl hrun

/-- Witness of C10 for an empty view (`size.y = 0`) and for a negative height. -/
theorem C10_empty_size_dispatches_nothing_witness :
    calculateMandelbrotBitmap 1 true 0 1 = some ⟨0, 0, []⟩ ∧
    calculateMandelbrotBitmap 1 true (-3) 1 = some ⟨0, 0, []⟩ ∧
    World.run [Event.delete] (World.start ⟨1, true, []⟩ 1 ⟨0, 0, []⟩) =
      some ⟨⟨2, false, []⟩, 1, ⟨1, []⟩, 0, [], 0, []⟩ :=
  ⟨(C10_empty_size_dispatches_nothing 0 (le_refl 0) 0 1 true ⟨1, true, []⟩).1,
    (C10_empty_size_dispatches_nothing (-3) (by norm_num) 0 1 true ⟨1, true, []⟩).1,
    rfl⟩

theorem lor_shiftLeft_of_lt {lo : Nat} (hi i : Nat) (h : lo < 2 ^ i) :
    lo ||| (hi <<< i) = lo + hi * 2 ^ i := by
  rw [Nat.shiftLeft_eq, Nat.lor_comm, Nat.mul_comm, ← Nat.mul_add_lt_is_or h, Nat.add_comm]

/-- Four bytes or-ed at the shifts 0, 8, 16 and 24 are their weighted sum. -/
theorem pack_eq_sum {a b c d : Nat} (ha : a < 256) (hb : b < 256) (hc : c < 256) :
    a ||| (b <<< 8) ||| (c <<< 16) ||| (d <<< 24) = a + b * 256 + c * 65536 + d * 16777216 := by
  rw [lor_shiftLeft_of_lt b 8 (by omega), lor_shiftLeft_of_lt c 16 (by omega),
    lor_shiftLeft_of_lt d 24 (by omega)]
  norm_num

/-- The bytes of a weighted sum of four bytes are the four bytes. -/
theorem byteAt_sum {a b c d : Nat} (ha : a < 256) (hb : b < 256) (hc : c < 256) (hd : d < 256) :
    (List.range 4).map (byteAt (a + b * 256 + c * 65536 + d * 16777216)) = [a, b, c, d] := by
  have e : List.range 4 = [0, 1, 2, 3] := by decide
  simp only [e, List.map_cons, List.map_nil, byteAt, Nat.shiftRight_eq_div_pow]
  norm_num
  omega

theorem getColorToInt32_eq_sum (f : PixelFormat) (c : CColor) (hc : c.valid) :
    ∃ a b c0 d, f.channels c = [a, b, c0, d] ∧ a < 256 ∧ b < 256 ∧ c0 < 256 ∧ d < 256 ∧
      getColorToInt32 f c = a + b * 256 + c0 * 65536 + d * 16777216 := by
  obtain ⟨hr, hg, hb, ha⟩ := hc
  cases f
  · refine ⟨c.alpha, c.red, c.green, c.blue, rfl, ha, hr, hg, hb, ?_⟩
    show wrap32 ((c.red <<< 8) ||| (c.green <<< 16) ||| (c.blue <<< 24) ||| c.alpha) = _
    have e : (c.red <<< 8) ||| (c.green <<< 16) ||| (c.blue <<< 24) ||| c.alpha =
        c.alpha ||| (c.red <<< 8) ||| (c.green <<< 16) ||| (c.blue <<< 24) := by
      rw [Nat.lor_comm _ c.alpha, ← Nat.lor_assoc, ← Nat.lor_assoc]
    rw [e, pack_eq_sum ha hr hg]
    exact wrap32_of_lt (by omega)
  · refine ⟨c.alpha, c.blue, c.green, c.red, rfl, ha, hb, hg, hr, ?_⟩
    show wrap32 ((c.blue <<< 8) ||| (c.green <<< 16) ||| (c.red <<< 24) ||| c.alpha) = _
    have e : (c.blue <<< 8) ||| (c.green <<< 16) ||| (c.red <<< 24) ||| c.alpha =
        c.alpha ||| (c.blue <<< 8) ||| (c.green <<< 16) ||| (c.red <<< 24) := by
      rw [Nat.lor_comm _ c.alpha, ← Nat.lor_assoc, ← Nat.lor_assoc]
    rw [e, pack_eq_sum ha hb hg]
    exact wrap32_of_lt (by omega)
  · refine ⟨c.red, c.green, c.blue, c.alpha, rfl, hr, hg, hb, ha, ?_⟩
    show wrap32 (c.red ||| (c.green <<< 8) ||| (c.blue <<< 16) ||| (c.alpha <<< 24)) = _
    rw [pack_eq_sum hr hg hb]
    exact wrap32_of_lt (by omega)
  · refine ⟨c.blue, c.green, c.red, c.alpha, rfl, hb, hg, hr, ha, ?_⟩
    show wrap32 (c.blue ||| (c.green <<< 8) ||| (c.red <<< 16) ||| (c.alpha <<< 24)) = _
    rw [pack_eq_sum hb hg hr]
    exact wrap32_of_lt (by omega)

/-- C11.  For each of the four pixel formats and every colour with 8 bit channels, the word
returned by the function that `getColorToInt32` selects is below `2^32`, its bytes at the
bit positions `[8k, 8k+8)`, `k = 0..3`, are the channels in the order of the format's name,
and reading the four bytes back gives the colour. -/
theorem C11_pack_without_loss (f : PixelFormat) (c : CColor) (hc : c.valid) :
    getColorToInt32 f c < 2 ^ 32 ∧
      (List.range 4).map (byteAt (getColorToInt32 f c)) = f.channels c ∧
      unpack f (getColorToInt32 f c) = c := by
  obtain ⟨a, b, c0, d, hch, ha, hb, hc0, hd, hsum⟩ := getColorToInt32_eq_sum f c hc
  have hbytes := byteAt_sum ha hb hc0 hd
  rw [← hsum] at hbytes
  have e : List.range 4 = [0, 1, 2, 3] := by decide
  refine ⟨by rw [hsum]; omega, by rw [hbytes, hch], ?_⟩
  simp only [e, List.map_cons, List.map_nil, List.cons.injEq, and_true] at hbytes
  obtain ⟨e0, e1, e2, e3⟩ := hbytes
  cases f <;> simp only [PixelFormat.channels, List.cons.injEq, and_true] at hch <;>
    obtain ⟨rfl, rfl, rfl, rfl⟩ := hch <;>
    simp only [unpack, e0, e1, e2, e3]

/-- Witness of C11: the colour (red 18, green 52, blue 86, alpha 255) in the format `kARGB`
packs to `0x563412FF`, and in `kBGRA` to `0xFF123456`. -/
theorem C11_pack_without_loss_witness :
    getColorToInt32 PixelFormat.kARGB ⟨18, 52, 86, 255⟩ = 0x563412FF ∧
    getColorToInt32 PixelFormat.kBGRA ⟨18, 52, 86, 255⟩ = 0xFF123456 ∧
    unpack PixelFormat.kARGB (getColorToInt32 PixelFormat.kARGB ⟨18, 52, 86, 255⟩) =
      ⟨18, 52, 86, 255⟩ :=
  ⟨by decide, by decide,
    (C11_pack_without_loss PixelFormat.kARGB ⟨18, 52, 86, 255⟩
      ⟨by decide, by decide, by decide, by decide⟩).2.2⟩

/-- Shape of every result of the row loop started at index `i`: the rows computed are the
consecutive rows `y + i, .., y + m - 1` for some `m`, each of them preceded by a load of the
token equal to `id`, and the way the loop was left tells what happened at index `m`. -/
theorem rowLoop_shape (t : StripTask) (taskID : Nat → Nat) :
    ∀ (fuel i : Nat) (rows : List Int) (e : Exit), rowLoop t taskID fuel i = some (rows, e) →
      ∃ m, i ≤ m ∧ rows = (List.range' i (m - i)).map (fun k : Nat => t.y + (k : Int)) ∧
        (∀ k, i ≤ k → k < m → taskID k = t.id) ∧
        (e = Exit.stale → taskID m ≠ t.id) ∧
        (e = Exit.pastEnd → t.size_y ≤ ((t.y + (m : Int) : Int) : CCoord)) ∧
        (e = Exit.completed → ¬ (m : CCoord) < t.numLinesPerTask) := by
  intro fuel
  induction fuel with
  | zero => intro i rows e h; simp [rowLoop] at h
  | succ n ih =>
    intro i rows e h
    rw [rowLoop] at h
    split_ifs at h with h1 h2 h3
    · cases h
      exact ⟨i, le_refl _, by simp, fun k hk hk' => (by omega), fun he => (by cases he),
        fun _ => h2, fun he => (by cases he)⟩
    · cases h
      exact ⟨i, le_refl _, by simp, fun k hk hk' => (by omega), fun _ => h3,
        fun he => (by cases he), fun he => (by cases he)⟩
    · obtain ⟨r', hr', hpair⟩ := Option.map_eq_some'.mp h
      obtain ⟨rows', e'⟩ := r'
      simp only [Prod.mk.injEq] at hpair
      obtain ⟨rfl, rfl⟩ := hpair
      obtain ⟨m, hm, hrows, hids, hs, hp, hc⟩ := ih (i + 1) rows' e' hr'
      refine ⟨m, by omega, ?_, ?_, hs, hp, hc⟩
      · have hlen : m - i = (m - (i + 1)) + 1 := by omega
        rw [hlen, List.range'_succ, List.map_cons, hrows]
      · intro k hk hk'
        by_cases hki : k = i
        · subst hki
          exact not_not.mp h3
        · exact hids k (by omega) hk'
    · cases h
      exact ⟨i, le_refl _, by simp, fun k hk hk' => (by omega), fun he => (by cases he),
        fun he => (by cases he), fun _ => h1⟩

/-- C12.  Take a strip task whose row loop has ended with the rows `rows` computed.  If the
load of the token made before row `i` returns a value different from the captured `id`, no
row `y + j` with `j ≥ i` is among them.  And if `i` is the first such load, made for a row of
the task's range (`i < numLinesPerTask`, `y + i < size.y`), then the loop was left by the
staleness break and the rows computed are exactly `y, y + 1, .., y + i - 1`. -/
theorem C12_rows_are_prefix_before_stale (t : StripTask) (taskID : Nat → Nat) (fuel : Nat)
    (rows : List Int) (e : Exit) (h : rowLoop t taskID fuel 0 = some (rows, e)) :
    (∀ i : Nat, taskID i ≠ t.id → ∀ j : Nat, i ≤ j → t.y + (j : Int) ∉ rows) ∧
      (∀ i : Nat, (i : CCoord) < t.numLinesPerTask → ((t.y + (i : Int) : Int) : CCoord) < t.size_y →
        taskID i ≠ t.id → (∀ k, k < i → taskID k = t.id) →
        rows = (List.range i).map (fun k : Nat => t.y + (k : Int)) ∧ e = Exit.stale) := by
  obtain ⟨m, _, hrows, hids, hs, hp, hc⟩ := rowLoop_shape t taskID fuel 0 rows e h
  rw [Nat.sub_zero] at hrows
  constructor
  · intro i hi j hij hmem
    rw [hrows] at hmem
    obtain ⟨k, hk, hkj⟩ := List.mem_map.mp hmem
    have hk' : k < m := by
      have := List.mem_range'_1.mp hk
      omega
    have hkeq : k = j := by omega
    subst hkeq
    have him : i < m := by omega
    exact hi (hids i (Nat.zero_le _) him)
  · intro i hnl hsz hi hbefore
    have hle : m ≤ i := by
      by_contra hcon
      exact hi (hids i (Nat.zero_le _) (by omega))
    have hmi : m = i := by
      by_contra hne
      have hlt : m < i := by omega
      cases e with
      | stale => exact hs rfl (hbefore m hlt)
      | pastEnd =>
        have h1 := hp rfl
        have h2 : ((t.y + (m : Int) : Int) : CCoord) ≤ ((t.y + (i : Int) : Int) : CCoord) := by
          have : t.y + (m : Int) ≤ t.y + (i : Int) := by omega
          exact_mod_cast this
        exact absurd (lt_of_le_of_lt (le_trans h1 h2) hsz) (lt_irrefl _)
      | completed =>
        have h1 := hc rfl
        have h2 : (m : CCoord) ≤ (i : CCoord) := by exact_mod_cast hle
        exact h1 (lt_of_le_of_lt h2 hnl)
    subst hmi
    refine ⟨by rw [hrows, List.range_eq_range'], ?_⟩
    cases e with
    | stale => rfl
    | pastEnd => exact absurd (lt_of_le_of_lt (hp rfl) hsz) (lt_irrefl _)
    | completed => exact absurd hnl (hc rfl)

/-- Witness of C12: a task for rows 10 to 13 of a bitmap of 100 rows, captured at `id = 1`,
finds the token changed at its third load: rows 10 and 11 are computed, rows 12 and 13 are
not. -/
theorem C12_rows_are_prefix_before_stale_witness :
    rowLoop ⟨10, 4, 100, 1⟩ (fun k => if k < 2 then 1 else 2) 5 0 =
        some ([10, 11], Exit.stale) ∧
      (10 : Int) + ((2 : Nat) : Int) ∉ ([10, 11] : List Int) ∧
      ([10, 11] : List Int) = (List.range 2).map (fun k : Nat => (10 : Int) + (k : Int)) := by
  have h : rowLoop ⟨10, 4, 100, 1⟩ (fun k => if k < 2 then 1 else 2) 5 0 =
      some ([10, 11], Exit.stale) := by
    norm_num [rowLoop]
  have hc := C12_rows_are_prefix_before_stale ⟨10, 4, 100, 1⟩ (fun k => if k < 2 then 1 else 2)
    5 [10, 11] Exit.stale h
  exact ⟨h, hc.1 2 (by decide) 2 (le_refl _),
    (hc.2 2 (by norm_num) (by norm_num) (by decide) (by decide)).1⟩

/-- C13 (the code for heights below 64 rows, and for comparison from 64 rows on).  For an
integral height `H` the body of the dispatch loop moves the cursor from row `y` to row
`y + H / 64` (natural number division), which is `y` itself when `H < 64`.  So for
`0 < H < 64` the cursor stays at 0 however often the loop runs, every iteration submits
another task, and `calculateMandelbrotBitmap` returns for no amount of fuel.  For `H ≥ 64`
the loop ends, with at most 127 tasks submitted. -/
theorem C13_dispatch_loop_below_64 :
    (∀ (H id y c : Nat) (l : List StripTask),
      (dispatchBody (H : CCoord) id ⟨(y : Int), c, l⟩).y = ((y + H / 64 : Nat) : Int)) ∧
    (∀ (H id : Nat), 0 < H → H < 64 →
      (∀ n, (dispatchIter (H : CCoord) id n ⟨0, 0, []⟩).y = 0 ∧
        (dispatchIter (H : CCoord) id n ⟨0, 0, []⟩).background.length = n) ∧
      (∀ fuel, calculateMandelbrotBitmap fuel true (H : CCoord) id = none)) ∧
    (∀ (H id : Nat), 64 ≤ H → ∃ d, d.background.length ≤ 127 ∧
      ∀ fuel, 127 < fuel → calculateMandelbrotBitmap fuel true (H : CCoord) id = some d) := by
  refine ⟨?_, ?_, ?_⟩
  · intro H id y c l
    simp only [dispatchBody, toInt_cursor]
  · intro H id h0 h64
    constructor
    · intro n
      rw [dispatchIter_small h0 h64]
      exact ⟨rfl, length_strips H id n⟩
    · intro fuel
      cases fuel with
      | zero => rfl
      | succ n =>
        simp only [calculateMandelbrotBitmap, if_true]
        rw [dispatchLoop_eq, dispatchIter_small h0 h64]
        have hlt : (((⟨0, wrap32 n, strips H id n⟩ : Dispatch).y : Int) : CCoord) < (H : CCoord) := by
          show ((0 : Int) : CCoord) < (H : CCoord)
          exact_mod_cast h0
        rw [if_pos hlt]
  · intro H id hH
    have hle := stripCount_le hH
    refine ⟨dispatched H id, by simp only [dispatched, length_strips]; exact hle, ?_⟩
    intro fuel hfuel
    exact calculateMandelbrotBitmap_of_ge hH id fuel (by omega)

/-- Witness of C13 at a height of one row: the cursor stays at row 0 and the call never
returns. -/
theorem C13_dispatch_loop_below_64_witness :
    (dispatchBody ((1 : Nat) : CCoord) 1 ⟨((0 : Nat) : Int), 0, []⟩).y = ((0 + 1 / 64 : Nat) : Int) ∧
      (∀ fuel, calculateMandelbrotBitmap fuel true ((1 : Nat) : CCoord) 1 = none) :=
  ⟨C13_dispatch_loop_below_64.1 1 1 0 0 [],
    (C13_dispatch_loop_below_64.2.1 1 1 (by decide) (by decide)).2⟩

theorem readyCallback_of_null (vc : ViewController) (id : Nat) (bitmap : Bitmap)
    (h : vc.mandelbrotView = false) : readyCallback vc id bitmap = vc := by
  simp [readyCallback, h]

theorem readyCallback_of_stale (vc : ViewController) (id : Nat) (bitmap : Bitmap)
    (h : id ≠ vc.taskID) : readyCallback vc id bitmap = vc := by
  simp [readyCallback, h]

/-- What one call on the main context does to the token, the view pointer and the trace of
`setBackground` calls. -/
theorem ViewController.call_spec {vc vc' : ViewController} {c : MainCall}
    (h : vc.call c = some vc') :
    vc'.taskID = (if c.isBump then wrap32 (vc.taskID + 1) else vc.taskID) ∧
      (vc.mandelbrotView = false →
        vc'.mandelbrotView = false ∧ vc'.setBackground = vc.setBackground) := by
  cases c with
  | ready id bitmap =>
    simp only [ViewController.call, Option.some.injEq] at h
    subst h
    refine ⟨readyCallback_taskID _ _ _, fun hnull => ?_⟩
    rw [readyCallback_of_null vc id bitmap hnull]
    exact ⟨hnull, rfl⟩
  | update fuel pa size_y =>
    simp only [ViewController.call] at h
    obtain ⟨r, hr, rfl⟩ := Option.map_eq_some'.mp h
    obtain ⟨h1, h2⟩ := updateMandelbrot_taskID hr
    simp only [updateMandelbrot] at hr
    obtain ⟨d, _, rfl⟩ := Option.map_eq_some'.mp hr
    exact ⟨rfl, fun hnull => ⟨hnull, rfl⟩⟩
  | delete =>
    simp only [ViewController.call, Option.some.injEq] at h
    subst h
    exact ⟨rfl, fun _ => ⟨rfl, rfl⟩⟩

theorem ViewController.calls_of_null :
    ∀ (cs : List MainCall) (vc vc' : ViewController), vc.mandelbrotView = false →
      ViewController.calls cs vc = some vc' →
      vc'.mandelbrotView = false ∧ vc'.setBackground = vc.setBackground := by
  intro cs
  induction cs with
  | nil =>
    intro vc vc' hnull h
    simp only [ViewController.calls, Option.some.injEq] at h
    subst h
    exact ⟨hnull, rfl⟩
  | cons c cs ih =>
    intro vc vc' hnull h
    rw [ViewController.calls] at h
    cases hc : vc.call c with
    | none => simp [hc] at h
    | some vc1 =>
      simp only [hc] at h
      obtain ⟨h1, h2⟩ := (ViewController.call_spec hc).2 hnull
      obtain ⟨h3, h4⟩ := ih vc1 vc' h1 h
      exact ⟨h3, h4.trans h2⟩

theorem ViewController.calls_taskID :
    ∀ (cs : List MainCall) (vc vc' : ViewController), ViewController.calls cs vc = some vc' →
      vc'.taskID = if cs.countP MainCall.isBump = 0 then vc.taskID
        else wrap32 (vc.taskID + cs.countP MainCall.isBump) := by
  intro cs
  induction cs with
  | nil =>
    intro vc vc' h
    simp only [ViewController.calls, Option.some.injEq] at h
    subst h
    simp
  | cons c cs ih =>
    intro vc vc' h
    rw [ViewController.calls] at h
    cases hc : vc.call c with
    | none => simp [hc] at h
    | some vc1 =>
      simp only [hc] at h
      have ih1 := ih vc1 vc' h
      have h1 := (ViewController.call_spec hc).1
      by_cases hb : c.isBump = true
      · have hcount : (c :: cs).countP MainCall.isBump = cs.countP MainCall.isBump + 1 := by
          simp [List.countP_cons, hb]
        have hne : ¬ (c :: cs).countP MainCall.isBump = 0 := by omega
        rw [if_pos hb] at h1
        rw [if_neg hne, hcount, ih1, h1]
        by_cases hz : cs.countP MainCall.isBump = 0
        · rw [if_pos hz, hz]
        · rw [if_neg hz, wrap32_add]
          congr 1
          omega
      · have hcount : (c :: cs).countP MainCall.isBump = cs.countP MainCall.isBump := by
          simp [List.countP_cons, hb]
        rw [if_neg hb] at h1
        rw [hcount, ih1, h1]

/-- C14.  Whatever is called on the main context after `viewWillDelete` (ready callbacks of
any request with any id and bitmap, `updateMandelbrot`, `viewWillDelete` again),
`mandelbrotView` stays null and `setBackground` is never called, the only place where a
ready callback dereferences the view.  Both reasons hold on their own: a ready callback
leaves the controller untouched when the view is null, and when its `id` differs from the
token.  The token differs from the id of a request issued before `viewWillDelete` as long as
fewer than `2^32` bumps have followed the request. -/
theorem C14_viewWillDelete_cancels :
    (∀ (vc vc' : ViewController) (cs : List MainCall),
      ViewController.calls (MainCall.delete :: cs) vc = some vc' →
        vc'.mandelbrotView = false ∧ vc'.setBackground = vc.setBackground) ∧
    (∀ (vc : ViewController) (id : Nat) (bitmap : Bitmap),
      vc.mandelbrotView = false ∨ id ≠ vc.taskID → readyCallback vc id bitmap = vc) ∧
    (∀ (vc vc' : ViewController) (before after : List MainCall),
      ViewController.calls (before ++ MainCall.delete :: after) vc = some vc' →
      vc.taskID < 2 ^ 32 →
      (before ++ MainCall.delete :: after).countP MainCall.isBump < 2 ^ 32 →
      vc'.taskID ≠ vc.taskID) := by
  refine ⟨?_, ?_, ?_⟩
  · intro vc vc' cs h
    simp only [ViewController.calls, ViewController.call] at h
    exact ViewController.calls_of_null cs (viewWillDelete vc) vc' rfl h
  · intro vc id bitmap h
    rcases h with h | h
    · exact readyCallback_of_null vc id bitmap h
    · exact readyCallback_of_stale vc id bitmap h
  · intro vc vc' before after h hlt hbound
    have hpos : 0 < (before ++ MainCall.delete :: after).countP MainCall.isBump := by
      simp [List.countP_append, List.countP_cons, MainCall.isBump]
    rw [ViewController.calls_taskID _ vc vc' h, if_neg (by omega)]
    unfold wrap32
    omega

/-- Witness of C14: request 7 is issued, `viewWillDelete` runs, then the ready callback of
request 7 and, after another `viewWillDelete`, a ready callback with the then current
token: no background is set and the view stays null. -/
theorem C14_viewWillDelete_cancels_witness :
    ViewController.calls
        [MainCall.delete, MainCall.ready 7 ⟨7, []⟩, MainCall.delete, MainCall.ready 9 ⟨9, []⟩]
        ⟨7, true, []⟩ = some ⟨9, false, []⟩ ∧
      (⟨9, false, []⟩ : ViewController).mandelbrotView = false ∧
      (⟨9, false, []⟩ : ViewController).setBackground = ([] : List Bitmap) := by
  have h : ViewController.calls
      [MainCall.delete, MainCall.ready 7 ⟨7, []⟩, MainCall.delete, MainCall.ready 9 ⟨9, []⟩]
      ⟨7, true, []⟩ = some ⟨9, false, []⟩ := by
    simp [ViewController.calls, ViewController.call, viewWillDelete, readyCallback, wrap32]
  exact ⟨h, C14_viewWillDelete_cancels.1 _ _ _ h⟩

theorem redExpr_bounds {t : ℚ} (h0 : 0 ≤ t) (h1 : t ≤ 1) : 0 ≤ redExpr t ∧ redExpr t < 256 := by
  unfold redExpr
  have hs : 0 ≤ (t - 3 / 4) ^ 2 * (t ^ 2 + t / 2 + 3 / 16) :=
    mul_nonneg (sq_nonneg _) (by positivity)
  have hp : 0 ≤ (1 - t) * (t * t * t) := mul_nonneg (by linarith) (by positivity)
  constructor
  · nlinarith
  · nlinarith

theorem greenExpr_bounds {t : ℚ} (h0 : 0 ≤ t) (h1 : t ≤ 1) :
    0 ≤ greenExpr t ∧ greenExpr t < 256 := by
  unfold greenExpr
  have hp : 0 ≤ (1 - t) * t := mul_nonneg (by linarith) h0
  have hq : (1 - t) * t ≤ 1 / 4 := by nlinarith [sq_nonneg (t - 1 / 2)]
  have hsq : ((1 - t) * t) * ((1 - t) * t) ≤ 1 / 16 := by nlinarith
  have hsq0 : 0 ≤ ((1 - t) * t) * ((1 - t) * t) := mul_nonneg hp hp
  constructor
  · nlinarith
  · nlinarith

theorem blueExpr_bounds {t : ℚ} (h0 : 0 ≤ t) (h1 : t ≤ 1) : 0 ≤ blueExpr t ∧ blueExpr t < 256 := by
  unfold blueExpr
  have hs : 0 ≤ (t - 1 / 4) ^ 2 * ((1 - t) ^ 2 + (1 - t) / 2 + 3 / 16) :=
    mul_nonneg (sq_nonneg _) (by nlinarith [sq_nonneg (1 - t)])
  have hp : 0 ≤ ((1 - t) * (1 - t) * (1 - t)) * t :=
    mul_nonneg (mul_nonneg (mul_nonneg (by linarith) (by linarith)) (by linarith)) h0
  constructor
  · nlinarith
  · nlinarith

/-- The conversion to 8 bits of a value in `[0, 256)` is its integral part. -/
theorem toUInt8_of_bounds {x : ℚ} (h0 : 0 ≤ x) (h1 : x < 256) : toUInt8 x = ⌊x⌋.toNat := by
  unfold toUInt8 toInt
  rw [if_pos h0]
  have hf0 : 0 ≤ ⌊x⌋ := Int.floor_nonneg.mpr h0
  have hf1 : ⌊x⌋ < 256 := by
    have : (⌊x⌋ : ℚ) < 256 := lt_of_le_of_lt (Int.floor_le x) h1
    exact_mod_cast this
  rw [Int.emod_eq_of_lt hf0 hf1]

/-- The argument `t = i * (1 / n)` of the channel expressions lies in `[0, 1]` for `i ≤ n`. -/
theorem t_bounds {n i : Nat} (hn : 1 ≤ n) (hi : i ≤ n) :
    0 ≤ (i : ℚ) * (1 / (n : ℚ)) ∧ (i : ℚ) * (1 / (n : ℚ)) ≤ 1 := by
  have hn0 : (0 : ℚ) < (n : ℚ) := by exact_mod_cast hn
  have hin : (i : ℚ) ≤ (n : ℚ) := by exact_mod_cast hi
  constructor
  · exact mul_nonneg (Nat.cast_nonneg _) (div_nonneg zero_le_one (Nat.cast_nonneg _))
  · rw [mul_one_div, div_le_one hn0]
    exact hin

/-- The 8-bit conversion of 0 is 0. -/
theorem toUInt8_zero : toUInt8 0 = 0 := by
  rw [toUInt8_of_bounds le_rfl (by norm_num)]
  simp

/-- C21: for every maximum iteration count `n ≥ 1` and every iteration `i ≤ n`, with
`t = i * (1 / n)` taken in exact arithmetic, each of the three channel expressions of
`calculateColor` lies in `[0, 256)`, so the conversion to an 8-bit channel does not wrap (the
channel is the integral part of the expression, below 256); and for `i = 0` and for `i = n`
the three channels are 0. -/
theorem C21_channels_within_byte (n i : Nat) (hn : 1 ≤ n) (hi : i ≤ n) :
    (0 ≤ redExpr ((i : ℚ) * (1 / (n : ℚ))) ∧ redExpr ((i : ℚ) * (1 / (n : ℚ))) < 256) ∧
    (0 ≤ greenExpr ((i : ℚ) * (1 / (n : ℚ))) ∧ greenExpr ((i : ℚ) * (1 / (n : ℚ))) < 256) ∧
    (0 ≤ blueExpr ((i : ℚ) * (1 / (n : ℚ))) ∧ blueExpr ((i : ℚ) * (1 / (n : ℚ))) < 256) ∧
    (calculateColor i (1 / (n : ℚ))).red = ⌊redExpr ((i : ℚ) * (1 / (n : ℚ)))⌋.toNat ∧
    (calculateColor i (1 / (n : ℚ))).green = ⌊greenExpr ((i : ℚ) * (1 / (n : ℚ)))⌋.toNat ∧
    (calculateColor i (1 / (n : ℚ))).blue = ⌊blueExpr ((i : ℚ) * (1 / (n : ℚ)))⌋.toNat ∧
    (calculateColor i (1 / (n : ℚ))).red < 256 ∧
    (calculateColor i (1 / (n : ℚ))).green < 256 ∧
    (calculateColor i (1 / (n : ℚ))).blue < 256 ∧
    (i = 0 ∨ i = n →
      (calculateColor i (1 / (n : ℚ))).red = 0 ∧ (calculateColor i (1 / (n : ℚ))).green = 0 ∧
      (calculateColor i (1 / (n : ℚ))).blue = 0) := by
  obtain ⟨ht0, ht1⟩ := t_bounds hn hi
  have hr := redExpr_bounds ht0 ht1
  have hg := greenExpr_bounds ht0 ht1
  have hb := blueExpr_bounds ht0 ht1
  have hfl : ∀ x : ℚ, 0 ≤ x → x < 256 → ⌊x⌋.toNat < 256 := by
    intro x h0 h1
    have hf0 : 0 ≤ ⌊x⌋ := Int.floor_nonneg.mpr h0
    have hf1 : ⌊x⌋ < 256 := by
      have : (⌊x⌋ : ℚ) < 256 := lt_of_le_of_lt (Int.floor_le x) h1
      exact_mod_cast this
    omega
  have er : (calculateColor i (1 / (n : ℚ))).red = ⌊redExpr ((i : ℚ) * (1 / (n : ℚ)))⌋.toNat :=
    toUInt8_of_bounds hr.1 hr.2
  have eg : (calculateColor i (1 / (n : ℚ))).green
      = ⌊greenExpr ((i : ℚ) * (1 / (n : ℚ)))⌋.toNat := toUInt8_of_bounds hg.1 hg.2
  have eb : (calculateColor i (1 / (n : ℚ))).blue
      = ⌊blueExpr ((i : ℚ) * (1 / (n : ℚ)))⌋.toNat := toUInt8_of_bounds hb.1 hb.2
  refine ⟨hr, hg, hb, er, eg, eb, ?_, ?_, ?_, ?_⟩
  · rw [er]; exact hfl _ hr.1 hr.2
  · rw [eg]; exact hfl _ hg.1 hg.2
  · rw [eb]; exact hfl _ hb.1 hb.2
  · intro h
    have hn0 : (n : ℚ) ≠ 0 := by
      have : (0 : ℚ) < (n : ℚ) := by exact_mod_cast hn
      exact ne_of_gt this
    have ht : (i : ℚ) * (1 / (n : ℚ)) = 0 ∨ (i : ℚ) * (1 / (n : ℚ)) = 1 := by
      rcases h with h | h
      · left; rw [h]; simp
      · right; rw [h, mul_one_div, div_self hn0]
    have hz : redExpr ((i : ℚ) * (1 / (n : ℚ))) = 0 ∧ greenExpr ((i : ℚ) * (1 / (n : ℚ))) = 0 ∧
        blueExpr ((i : ℚ) * (1 / (n : ℚ))) = 0 := by
      rcases ht with ht | ht
      · rw [ht]; refine ⟨?_, ?_, ?_⟩ <;> norm_num [redExpr, greenExpr, blueExpr]
      · rw [ht]; refine ⟨?_, ?_, ?_⟩ <;> norm_num [redExpr, greenExpr, blueExpr]
    rw [er, eg, eb, hz.1, hz.2.1, hz.2.2]
    simp

/-- Witness for C21: 1024 iterations at most, iteration 768 (`t = 3/4`, where the red
expression is largest). -/
theorem C21_channels_within_byte_witness :
    1 ≤ 1024 ∧ 768 ≤ 1024 ∧ (calculateColor 768 (1 / ((1024 : Nat) : ℚ))).red < 256 :=
  ⟨by decide, by decide,
    (C21_channels_within_byte 1024 768 (by decide) (by decide)).2.2.2.2.2.2.1⟩

end Mandelbrot

namespace Standalone

open Mandelbrot (wrap32)

theorem Value.beginEdit_eq (v : Value) (h : v.editCount + 1 < 2 ^ 32) :
    v.beginEdit =
      if v.editCount = 0 then ({ v with editCount := 1 }).forEach Notification.onBeginEdit
      else { v with editCount := v.editCount + 1 } := by
  have hw : wrap32 (v.editCount + 1) = v.editCount + 1 := Mandelbrot.wrap32_of_lt h
  simp only [Value.beginEdit, hw]
  by_cases h0 : v.editCount = 0
  · simp [h0]
  · simp [h0]

theorem Value.endEdit_eq (v : Value) (h0 : 0 < v.editCount) (h : v.editCount < 2 ^ 32) :
    v.endEdit =
      if v.editCount = 1 then ({ v with editCount := 0 }).forEach Notification.onEndEdit
      else { v with editCount := v.editCount - 1 } := by
  have hw : wrap32 (v.editCount + (2 ^ 32 - 1)) = v.editCount - 1 := by
    unfold wrap32
    omega
  simp only [Value.endEdit, hw]
  by_cases h1 : v.editCount = 1
  · simp [h1]
  · have h2 : ¬ v.editCount - 1 = 0 := by omega
    simp [h1, h2]

theorem Value.edits_cons (v : Value) (c : EditCall) (cs : List EditCall) :
    v.edits (c :: cs) = (v.edit c).edits cs := rfl

theorem begins_cons_beginEdit (cs : List EditCall) :
    begins (EditCall.beginEdit :: cs) = begins cs + 1 := by
  simp [begins]

theorem begins_cons_endEdit (cs : List EditCall) :
    begins (EditCall.endEdit :: cs) = begins cs := by
  simp [begins]

theorem ends_cons_beginEdit (cs : List EditCall) :
    ends (EditCall.beginEdit :: cs) = ends cs := by
  simp [ends]

theorem ends_cons_endEdit (cs : List EditCall) :
    ends (EditCall.endEdit :: cs) = ends cs + 1 := by
  simp [ends]

/-- What a well nested sequence of edit calls does to a value whose edit count is `d`: the
edit count follows the calls, the listeners stay, and the broadcasts added are alternating
`onBeginEdit` / `onEndEdit` notifications, ending in an open edit exactly when the edit count
is not zero. -/
theorem Value.edits_nested :
    ∀ (cs : List EditCall) (d : Nat) (v : Value), v.editCount = d → d < 2 ^ 32 →
      nested d cs = true →
      (v.edits cs).editCount + ends cs = d + begins cs ∧
        (v.edits cs).listeners = v.listeners ∧
        ∃ ns, (v.edits cs).sent = v.sent ++ ns.map (fun n => (v.listeners, n)) ∧
          alternation (decide (d ≠ 0)) ns = some (decide ((v.edits cs).editCount ≠ 0)) := by
  intro cs
  induction cs with
  | nil =>
    intro d v hd _ _
    refine ⟨by simp [Value.edits, begins, ends, hd], rfl, [], by simp [Value.edits], ?_⟩
    simp [alternation, Value.edits, hd]
  | cons c cs ih =>
    intro d v hd hlt hn
    cases c with
    | beginEdit =>
      simp only [nested, Bool.and_eq_true, decide_eq_true_eq] at hn
      obtain ⟨hd1, hn1⟩ := hn
      rw [Value.edits_cons, begins_cons_beginEdit, ends_cons_beginEdit]
      have hstep : v.edit EditCall.beginEdit =
          if v.editCount = 0 then ({ v with editCount := 1 }).forEach Notification.onBeginEdit
          else { v with editCount := v.editCount + 1 } :=
        Value.beginEdit_eq v (by omega)
      by_cases hz : d = 0
      · have hv0 : v.editCount = 0 := by omega
        rw [if_pos hv0] at hstep
        rw [hstep]
        obtain ⟨hc, hl, ns, hs, ha⟩ := ih (d + 1)
          (({ v with editCount := 1 }).forEach Notification.onBeginEdit)
          (by simp [Value.forEach, hz]) hd1 hn1
        refine ⟨by omega, hl, Notification.onBeginEdit :: ns, ?_, ?_⟩
        · rw [hs]
          simp [Value.forEach]
        · have hdd : decide (d + 1 ≠ 0) = true := by simp
          rw [hdd] at ha
          simp only [hz, ne_eq, not_true_eq_false, decide_False, alternation]
          exact ha
      · have hv0 : ¬ v.editCount = 0 := by omega
        rw [if_neg hv0] at hstep
        rw [hstep]
        obtain ⟨hc, hl, ns, hs, ha⟩ := ih (d + 1) { v with editCount := v.editCount + 1 }
          (by simp [hd]) hd1 hn1
        refine ⟨by omega, hl, ns, hs, ?_⟩
        have hdd : decide (d + 1 ≠ 0) = true := by simp
        have hdz : decide (d ≠ 0) = true := by simp [hz]
        rw [hdd] at ha
        rw [hdz]
        exact ha
    | endEdit =>
      simp only [nested, Bool.and_eq_true, decide_eq_true_eq] at hn
      obtain ⟨hd1, hn1⟩ := hn
      rw [Value.edits_cons, begins_cons_endEdit, ends_cons_endEdit]
      have hstep : v.edit EditCall.endEdit =
          if v.editCount = 1 then ({ v with editCount := 0 }).forEach Notification.onEndEdit
          else { v with editCount := v.editCount - 1 } :=
        Value.endEdit_eq v (by omega) (by omega)
      have hdz : decide (d ≠ 0) = true := by
        have : d ≠ 0 := by omega
        simp [this]
      by_cases hone : d = 1
      · have hv1 : v.editCount = 1 := by omega
        rw [if_pos hv1] at hstep
        rw [hstep]
        obtain ⟨hc, hl, ns, hs, ha⟩ := ih (d - 1)
          (({ v with editCount := 0 }).forEach Notification.onEndEdit)
          (by simp [Value.forEach, hone]) (by omega) hn1
        refine ⟨by omega, hl, Notification.onEndEdit :: ns, ?_, ?_⟩
        · rw [hs]
          simp [Value.forEach]
        · have hdd : decide (d - 1 ≠ 0) = false := by simp [hone]
          rw [hdd] at ha
          rw [hdz]
          simp only [alternation]
          exact ha
      · have hv1 : ¬ v.editCount = 1 := by omega
        rw [if_neg hv1] at hstep
        rw [hstep]
        obtain ⟨hc, hl, ns, hs, ha⟩ := ih (d - 1) { v with editCount := v.editCount - 1 }
          (by simp [hd]) (by omega) hn1
        refine ⟨by omega, hl, ns, hs, ?_⟩
        have hdd : decide (d - 1 ≠ 0) = true := by
          have : d - 1 ≠ 0 := by omega
          simp [this]
        rw [hdd] at ha
        rw [hdz]
        exact ha

/-- A sequence in which no prefix has more `endEdit` than `beginEdit` calls (counting `d`
edits open at the start) and whose nesting depth stays below `2^32` is well nested. -/
theorem nested_of_prefixes :
    ∀ (cs : List EditCall) (d : Nat),
      (∀ k, ends (cs.take k) ≤ d + begins (cs.take k) ∧
        d + begins (cs.take k) - ends (cs.take k) < 2 ^ 32) →
      nested d cs = true := by
  intro cs
  induction cs with
  | nil => intro d _; rfl
  | cons c cs ih =>
    intro d h
    cases c with
    | beginEdit =>
      have h1 := h 1
      simp only [List.take_succ_cons, List.take_zero, begins_cons_beginEdit,
        ends_cons_beginEdit] at h1
      have hb : begins ([] : List EditCall) = 0 := rfl
      have he : ends ([] : List EditCall) = 0 := rfl
      rw [hb, he] at h1
      simp only [nested, Bool.and_eq_true, decide_eq_true_eq]
      refine ⟨by omega, ih (d + 1) (fun k => ?_)⟩
      have hk := h (k + 1)
      simp only [List.take_succ_cons, begins_cons_beginEdit, ends_cons_beginEdit] at hk
      omega
    | endEdit =>
      have h1 := h 1
      simp only [List.take_succ_cons, List.take_zero, begins_cons_endEdit,
        ends_cons_endEdit] at h1
      have hb : begins ([] : List EditCall) = 0 := rfl
      have he : ends ([] : List EditCall) = 0 := rfl
      rw [hb, he] at h1
      simp only [nested, Bool.and_eq_true, decide_eq_true_eq]
      refine ⟨by omega, ih (d - 1) (fun k => ?_)⟩
      have hk := h (k + 1)
      simp only [List.take_succ_cons, begins_cons_endEdit, ends_cons_endEdit] at hk
      omega

theorem Value.beginEdit_editCount (v : Value) :
    v.beginEdit.editCount = wrap32 (v.editCount + 1) := by
  unfold Value.beginEdit
  simp only
  split_ifs <;> rfl

/-- After `n` calls of `beginEdit` in a row the edit count is the old one plus `n`, modulo
`2^32`. -/
theorem Value.edits_replicate_beginEdit :
    ∀ (n : Nat) (v : Value), v.editCount < 2 ^ 32 →
      (v.edits (List.replicate n EditCall.beginEdit)).editCount = wrap32 (v.editCount + n) := by
  intro n
  induction n with
  | zero =>
    intro v hv
    exact (Mandelbrot.wrap32_of_lt hv).symm
  | succ n ih =>
    intro v hv
    rw [List.replicate_succ, Value.edits_cons]
    have hlt : (v.edit EditCall.beginEdit).editCount < 2 ^ 32 := by
      show v.beginEdit.editCount < 2 ^ 32
      rw [Value.beginEdit_editCount]
      unfold wrap32
      omega
    rw [ih _ hlt]
    show wrap32 (v.beginEdit.editCount + n) = _
    rw [Value.beginEdit_editCount, Mandelbrot.wrap32_add]
    congr 1
    omega

theorem ends_take_replicate_beginEdit (n k : Nat) :
    ends ((List.replicate n EditCall.beginEdit).take k) = 0 := by
  rw [List.take_replicate, ends, List.count_replicate]
  simp

theorem begins_replicate_beginEdit (n : Nat) :
    begins (List.replicate n EditCall.beginEdit) = n := by
  rw [begins, List.count_replicate_self]

/-- C16 (counterexample).  `2^32` calls of `beginEdit` in a row, on a new value: no prefix
has more `endEdit` than `beginEdit` calls and the `beginEdit` calls outnumber the `endEdit`
calls, yet `isEditing ()` is false, the 32 bit edit count having wrapped to zero. -/
theorem C16_edit_count_wraps :
    (∀ k, ends ((List.replicate 4294967296 EditCall.beginEdit).take k) ≤
      begins ((List.replicate 4294967296 EditCall.beginEdit).take k)) ∧
    ends (List.replicate 4294967296 EditCall.beginEdit) <
      begins (List.replicate 4294967296 EditCall.beginEdit) ∧
    ((Value.make (Double.num 0)).edits
      (List.replicate 4294967296 EditCall.beginEdit)).isEditing = false := by
  refine ⟨fun k => ?_, ?_, ?_⟩
  · rw [ends_take_replicate_beginEdit]
    exact Nat.zero_le _
  · have h := ends_take_replicate_beginEdit 4294967296 4294967296
    rw [List.take_replicate, Nat.min_self] at h
    rw [h, begins_replicate_beginEdit]
    decide
  · have h := Value.edits_replicate_beginEdit 4294967296 (Value.make (Double.num 0))
      (by decide)
    unfold Value.isEditing
    rw [h]
    decide

/-- C16 (amended).  Take a value with no edit open and a sequence of `beginEdit` / `endEdit`
calls in which no prefix has more `endEdit` than `beginEdit` calls and in which fewer than
`2^32` edits are ever open at once.  Then `isEditing ()` is true exactly when the
`beginEdit` calls outnumber the `endEdit` calls, and the broadcasts made during the calls go
to the registered listeners and alternate strictly, `onBeginEdit` first, the last one being
`onBeginEdit` exactly when `isEditing ()` is true.  For a single call: `beginEdit`
broadcasts `onBeginEdit` exactly when the edit count was 0, and `endEdit` broadcasts
`onEndEdit` exactly when it was 1. -/
theorem C16_edit_notifications_alternate (v : Value) (cs : List EditCall)
    (h0 : v.editCount = 0)
    (hbal : ∀ k, ends (cs.take k) ≤ begins (cs.take k))
    (hdepth : ∀ k, begins (cs.take k) - ends (cs.take k) < 2 ^ 32) :
    ((v.edits cs).isEditing = true ↔ ends cs < begins cs) ∧
      (∃ ns, (v.edits cs).sent = v.sent ++ ns.map (fun n => (v.listeners, n)) ∧
        alternation false ns = some (v.edits cs).isEditing) ∧
      (∀ u : Value, u.editCount < 2 ^ 32 →
        u.beginEdit.sent =
          (if u.editCount = 0 then u.sent ++ [(u.listeners, Notification.onBeginEdit)]
           else u.sent) ∧
        u.endEdit.sent =
          (if u.editCount = 1 then u.sent ++ [(u.listeners, Notification.onEndEdit)]
           else u.sent)) := by
  have hn : nested 0 cs = true :=
    nested_of_prefixes cs 0 (fun k => by
      have h1 := hbal k
      have h2 := hdepth k
      omega)
  obtain ⟨hc, _, ns, hs, ha⟩ := Value.edits_nested cs 0 v h0 (by norm_num) hn
  have hall := hbal cs.length
  rw [List.take_length] at hall
  refine ⟨?_, ⟨ns, hs, ?_⟩, ?_⟩
  · unfold Value.isEditing
    simp only [bne_iff_ne, ne_eq]
    omega
  · have hd : decide ((0 : Nat) ≠ 0) = false := by decide
    rw [hd] at ha
    rw [ha]
    unfold Value.isEditing
    congr 1
    by_cases hz : (v.edits cs).editCount = 0 <;> simp [hz]
  · intro u hu
    constructor
    · by_cases hz : u.editCount = 0
      · have hw : wrap32 (u.editCount + 1) = 1 := by
          unfold wrap32
          omega
        simp only [Value.beginEdit, hw, if_true, if_pos hz, Value.forEach]
      · have hw : ¬ wrap32 (u.editCount + 1) = 1 := by
          unfold wrap32
          omega
        simp only [Value.beginEdit, hw, if_false, if_neg hz]
    · by_cases h1 : u.editCount = 1
      · have hw : wrap32 (u.editCount + (2 ^ 32 - 1)) = 0 := by
          unfold wrap32
          omega
        simp only [Value.endEdit, hw, if_true, if_pos h1, Value.forEach]
      · have hw : ¬ wrap32 (u.editCount + (2 ^ 32 - 1)) = 0 := by
          unfold wrap32
          omega
        simp only [Value.endEdit, hw, if_false, if_neg h1]

/-- Witness of the amended C16: begin, begin, end, begin, end, end on a new value with the
listener 1 registered sends `onBeginEdit` once and `onEndEdit` once. -/
theorem C16_edit_notifications_alternate_witness :
    ((Value.make (Double.num 0)).registerListener 1).edits
        [EditCall.beginEdit, EditCall.beginEdit, EditCall.endEdit, EditCall.beginEdit,
          EditCall.endEdit, EditCall.endEdit] =
      ⟨Double.num 0, true, 0, [1],
        [([1], Notification.onBeginEdit), ([1], Notification.onEndEdit)]⟩ ∧
    ((((Value.make (Double.num 0)).registerListener 1).edits
        [EditCall.beginEdit, EditCall.beginEdit, EditCall.endEdit, EditCall.beginEdit,
          EditCall.endEdit, EditCall.endEdit]).isEditing = true ↔
      ends [EditCall.beginEdit, EditCall.beginEdit, EditCall.endEdit, EditCall.beginEdit,
          EditCall.endEdit, EditCall.endEdit] <
        begins [EditCall.beginEdit, EditCall.beginEdit, EditCall.endEdit, EditCall.beginEdit,
          EditCall.endEdit, EditCall.endEdit]) := by
  refine ⟨by simp [Value.edits, Value.edit, Value.beginEdit, Value.endEdit, Value.forEach,
      Value.make, Value.registerListener, wrap32], ?_⟩
  refine (C16_edit_notifications_alternate _ _ rfl (fun k => ?_) (fun k => ?_)).1
  · rcases k with _ | _ | _ | _ | _ | _ | k <;> simp [begins, ends]
  · rcases k with _ | _ | _ | _ | _ | _ | k <;> simp [begins, ends]

/-- What `Value::performEdit` does with a double that is not NaN: it is rejected exactly
when it lies outside `[0, 1]`, and then nothing changes; otherwise it is stored, with
`onPerformEdit` broadcast exactly when it differs from the stored value. -/
theorem Value.performEdit_of_ne_nan (v : Value) (x : Double) (hx : x ≠ Double.nan) :
    ((v.performEdit x).2 = false ↔ x.inUnit = false) ∧
      (x.inUnit = false → (v.performEdit x).1 = v) ∧
      (x.inUnit = true → (v.performEdit x).2 = true ∧ (v.performEdit x).1.getValue = x ∧
        (v.performEdit x).1.sent =
          (if x.eq v.value then v.sent else v.sent ++ [(v.listeners, Notification.onPerformEdit x)])) := by
  cases x with
  | nan => exact absurd rfl hx
  | posInf => simp [Value.performEdit, Double.lt, Double.inUnit]
  | negInf => simp [Value.performEdit, Double.lt, Double.inUnit]
  | num q =>
    by_cases hq : 0 ≤ q ∧ q ≤ 1
    · have h1 : ¬ q < 0 := not_lt.mpr hq.1
      have h2 : ¬ 1 < q := not_lt.mpr hq.2
      have hin : (Double.num q).inUnit = true := by simp [Double.inUnit, hq]
      have hc : ((Double.num q).lt (Double.num 0) || (Double.num 1).lt (Double.num q)) = false := by
        simp [Double.lt, h1, h2]
      have hno : ¬ (Double.num q).inUnit = false := by rw [hin]; decide
      unfold Value.performEdit
      rw [hc, if_neg Bool.false_ne_true]
      by_cases he : (Double.num q).eq v.value = true
      · have hval : v.value = Double.num q := by
          cases hv : v.value with
          | num r =>
            rw [hv] at he
            simp only [Double.eq, decide_eq_true_eq] at he
            rw [he]
          | posInf => rw [hv] at he; simp [Double.eq] at he
          | negInf => rw [hv] at he; simp [Double.eq] at he
          | nan => rw [hv] at he; simp [Double.eq] at he
        rw [if_pos he, if_pos he]
        exact ⟨⟨fun h => Bool.noConfusion h, fun h => absurd h hno⟩, fun h => absurd h hno,
          fun _ => ⟨rfl, hval, rfl⟩⟩
      · rw [if_neg he, if_neg he]
        exact ⟨⟨fun h => Bool.noConfusion h, fun h => absurd h hno⟩, fun h => absurd h hno,
          fun _ => ⟨rfl, rfl, rfl⟩⟩
    · have hout : (Double.num q).inUnit = false := by simp [Double.inUnit, hq]
      have hor : q < 0 ∨ 1 < q := by
        by_contra hcon
        push_neg at hcon
        exact hq ⟨hcon.1, hcon.2⟩
      have hc : ((Double.num q).lt (Double.num 0) || (Double.num 1).lt (Double.num q)) = true := by
        simpa [Double.lt] using hor
      have hno : ¬ (Double.num q).inUnit = true := by rw [hout]; decide
      unfold Value.performEdit
      rw [hc, if_pos rfl]
      exact ⟨⟨fun _ => hout, fun _ => rfl⟩, fun _ => rfl, fun h => absurd h hno⟩

theorem Value.apply_value (v : Value) (op : Op) :
    (v.apply op).value = v.value ∨
      ∃ x, op = Op.performEdit x ∧ (v.apply op).value = (v.performEdit x).1.value := by
  cases op with
  | beginEdit =>
    left
    simp only [Value.apply, Value.beginEdit]
    generalize wrap32 (v.editCount + 1) = c
    by_cases hc : c = 1
    · simp only [hc, if_true, Value.forEach]
    · simp only [hc, if_false]
  | performEdit x => exact Or.inr ⟨x, rfl, rfl⟩
  | endEdit =>
    left
    simp only [Value.apply, Value.endEdit]
    generalize wrap32 (v.editCount + (2 ^ 32 - 1)) = c
    by_cases hc : c = 0
    · simp only [hc, if_true, Value.forEach]
    · simp only [hc, if_false]
  | setActive state =>
    left
    simp only [Value.apply, Value.setActive]
    by_cases hs : state = v.active
    · simp only [hs, if_true]
    · simp only [hs, if_false, Value.forEach]
  | registerListener l => exact Or.inl rfl
  | unregisterListener l => exact Or.inl rfl

theorem Value.foldl_apply_inUnit :
    ∀ (ops : List Op) (v : Value), v.value.inUnit = true →
      (∀ x, Op.performEdit x ∈ ops → x ≠ Double.nan) →
      (ops.foldl Value.apply v).value.inUnit = true := by
  intro ops
  induction ops with
  | nil => intro v hv _; exact hv
  | cons op ops ih =>
    intro v hv hops
    rw [List.foldl_cons]
    refine ih (v.apply op) ?_ (fun x hx => hops x (List.mem_cons_of_mem _ hx))
    rcases Value.apply_value v op with h | ⟨x, rfl, h⟩
    · rw [h]
      exact hv
    · rw [h]
      have hx := hops x (List.mem_cons_self _ _)
      obtain ⟨_, hrej, hacc⟩ := Value.performEdit_of_ne_nan v x hx
      by_cases hin : x.inUnit = true
      · have := (hacc hin).2.1
        unfold Value.getValue at this
        rw [this]
        exact hin
      · have hin' : x.inUnit = false := by simpa using hin
        rw [hrej hin']
        exact hv

/-- C17 (the code at the failing input NaN, and for every other double).  `performEdit (NaN)`
on a value holding 0.5 returns true, stores NaN and broadcasts it, although NaN lies outside
`[0, 1]`; a `StepValue` created with one step passes NaN to `Value::performEdit` by itself,
its `stepToValue (0)` being `0 / 0`.  For every double other than NaN the claim holds:
`performEdit` returns false exactly when the double lies outside `[0, 1]` and then changes
nothing; otherwise it returns true, the value is the double, and `onPerformEdit` is
broadcast exactly when the double differs from the stored value.  A value in `[0, 1]` stays
in `[0, 1]` under every sequence of operations whose `performEdit` arguments are not NaN. -/
theorem C17_performEdit_accepts_nan :
    (((Value.make (Double.num (1 / 2))).registerListener 1).performEdit Double.nan =
        (⟨Double.nan, true, 0, [1], [([1], Notification.onPerformEdit Double.nan)]⟩, true) ∧
      Double.nan.inUnit = false) ∧
    ((StepValue.make 1 (Double.num 0)).performEdit (Double.num (1 / 2)) =
      some (⟨⟨Double.nan, true, 0, [], [([], Notification.onPerformEdit Double.nan)]⟩, 0⟩, true)) ∧
    (∀ (v : Value) (x : Double), x ≠ Double.nan →
      ((v.performEdit x).2 = false ↔ x.inUnit = false) ∧
      (x.inUnit = false → (v.performEdit x).1 = v) ∧
      (x.inUnit = true → (v.performEdit x).2 = true ∧ (v.performEdit x).1.getValue = x ∧
        (v.performEdit x).1.sent =
          (if x.eq v.value then v.sent
           else v.sent ++ [(v.listeners, Notification.onPerformEdit x)]))) ∧
    (∀ (ops : List Op) (v : Value), v.value.inUnit = true →
      (∀ x, Op.performEdit x ∈ ops → x ≠ Double.nan) →
      (ops.foldl Value.apply v).getValue.inUnit = true) := by
  refine ⟨⟨?_, rfl⟩, ?_, Value.performEdit_of_ne_nan, Value.foldl_apply_inUnit⟩
  · simp [Value.performEdit, Value.make, Value.registerListener, Value.forEach, Double.lt,
      Double.eq]
  · norm_num [StepValue.performEdit, StepValue.make, StepValue.valueToStep,
      StepValue.stepToValue, Double.toUInt32, Double.mulNat, Double.divNat, Value.performEdit,
      Value.make, Value.forEach, Double.lt, Double.eq, wrap32, Mandelbrot.toInt]

/-- Witness of C17 at a double other than NaN: for `performEdit (0.5)` on a new value holding
0 the result is false exactly when 0.5 lies outside `[0, 1]`. -/
theorem C17_performEdit_accepts_nan_witness :
    Double.num (1 / 2) ≠ Double.nan ∧
      ((((Value.make (Double.num 0)).performEdit (Double.num (1 / 2))).2 = false) ↔
        (Double.num (1 / 2)).inUnit = false) :=
  ⟨(by intro h; cases h),
    (C17_performEdit_accepts_nan.2.2.1 (Value.make (Double.num 0)) (Double.num (1 / 2))
      (by intro h; cases h)).1⟩

theorem floor_step_mul (k n : Nat) (hn : 0 < n) :
    ⌊(k : ℚ) / (n : ℚ) * ((n + 1 : Nat) : ℚ)⌋ = ((k + k / n : Nat) : Int) := by
  have hn' : (n : ℚ) ≠ 0 := by exact_mod_cast (Nat.pos_iff_ne_zero.mp hn)
  have e : (k : ℚ) / (n : ℚ) * ((n + 1 : Nat) : ℚ) = ((k * (n + 1) : Nat) : ℚ) / (n : ℚ) := by
    push_cast
    field_simp
  rw [e, Rat.floor_natCast_div_natCast]
  have hdiv : k * (n + 1) / n = k + k / n := by
    have : k * (n + 1) = k + n * k := by ring
    rw [this, Nat.add_mul_div_left _ _ hn]
    omega
  exact_mod_cast hdiv

/-- C18.  For a `StepValue` created with `initialSteps` steps, `2 ≤ initialSteps < 2^32`,
and every step index `step ≤ getSteps () - 1`: in exact arithmetic
`valueToStep (stepToValue (step)) = step`, `stepToValue (step)` lies in `[0, 1]`,
`stepToValue (0) = 0` and `stepToValue (getSteps () - 1) = 1`; `getSteps ()` is
`initialSteps`. -/
theorem C18_step_round_trip (initialSteps : Nat) (initialValue : Double)
    (h2 : 2 ≤ initialSteps) (h32 : initialSteps < 2 ^ 32) (step : Nat)
    (hstep : step ≤ (StepValue.make initialSteps initialValue).getSteps - 1) :
    (StepValue.make initialSteps initialValue).getSteps = initialSteps ∧
      (StepValue.make initialSteps initialValue).valueToStep
        ((StepValue.make initialSteps initialValue).stepToValue step) = some step ∧
      ((StepValue.make initialSteps initialValue).stepToValue step).inUnit = true ∧
      (StepValue.make initialSteps initialValue).stepToValue 0 = Double.num 0 ∧
      (StepValue.make initialSteps initialValue).stepToValue
        ((StepValue.make initialSteps initialValue).getSteps - 1) = Double.num 1 := by
  obtain ⟨n, rfl⟩ : ∃ n, initialSteps = n + 1 := ⟨initialSteps - 1, by omega⟩
  have hsteps : (StepValue.make (n + 1) initialValue).steps = n := by
    show wrap32 (n + 1 + (2 ^ 32 - 1)) = n
    unfold wrap32
    omega
  have hget : (StepValue.make (n + 1) initialValue).getSteps = n + 1 := by
    unfold StepValue.getSteps
    rw [hsteps]
    exact Mandelbrot.wrap32_of_lt h32
  rw [hget] at hstep ⊢
  have hn : 0 < n := by omega
  have hk : step ≤ n := by omega
  have hnq : (0 : ℚ) < (n : ℚ) := by exact_mod_cast hn
  have hto : ∀ k, (StepValue.make (n + 1) initialValue).stepToValue k =
      Double.num ((k : ℚ) / (n : ℚ)) := by
    intro k
    unfold StepValue.stepToValue Double.divNat
    rw [hsteps, if_neg (by omega)]
  refine ⟨rfl, ?_, ?_, ?_, ?_⟩
  · rw [hto]
    unfold StepValue.valueToStep
    rw [hsteps, Mandelbrot.wrap32_of_lt h32]
    have hq0 : (0 : ℚ) ≤ (step : ℚ) / (n : ℚ) * ((n + 1 : Nat) : ℚ) :=
      mul_nonneg (div_nonneg (Nat.cast_nonneg _) (Nat.cast_nonneg _)) (Nat.cast_nonneg _)
    have hfl := floor_step_mul step n hn
    have hlt : (step : ℚ) / (n : ℚ) * ((n + 1 : Nat) : ℚ) < 2 ^ 32 := by
      have h1 : (⌊(step : ℚ) / (n : ℚ) * ((n + 1 : Nat) : ℚ)⌋ : ℚ) + 1 ≤ 2 ^ 32 := by
        rw [hfl]
        have hdle : step / n ≤ 1 := Nat.div_le_of_le_mul (by omega)
        have : step + step / n + 1 ≤ 2 ^ 32 := by omega
        exact_mod_cast this
      exact lt_of_lt_of_le (Int.lt_floor_add_one _) h1
    have hgt : (-1 : ℚ) < (step : ℚ) / (n : ℚ) * ((n + 1 : Nat) : ℚ) := by linarith
    simp only [Double.mulNat, Double.toUInt32, hgt, hlt, and_self, if_true, Option.map_some',
      Mandelbrot.toInt, if_pos hq0, hfl, Int.toNat_ofNat, Option.some.injEq]
    by_cases hkn : step = n
    · subst hkn
      rw [Nat.div_self hn]
      omega
    · have : step / n = 0 := Nat.div_eq_of_lt (by omega)
      rw [this]
      omega
  · rw [hto]
    have h0 : (0 : ℚ) ≤ (step : ℚ) / (n : ℚ) :=
      div_nonneg (Nat.cast_nonneg _) (Nat.cast_nonneg _)
    have h1 : (step : ℚ) / (n : ℚ) ≤ 1 := by
      rw [div_le_one hnq]
      exact_mod_cast hk
    simp [Double.inUnit, h0, h1]
  · rw [hto]
    simp
  · rw [hto, Nat.add_sub_cancel]
    rw [div_self (ne_of_gt hnq)]

/-- Witness of C18 for a step value with 5 steps: step 3 maps to the value 3/4 and back. -/
theorem C18_step_round_trip_witness :
    (StepValue.make 5 (Double.num 0)).stepToValue 3 = Double.num (3 / 4) ∧
      (StepValue.make 5 (Double.num 0)).valueToStep
        ((StepValue.make 5 (Double.num 0)).stepToValue 3) = some 3 := by
  have h := C18_step_round_trip 5 (Double.num 0) (by norm_num) (by norm_num) 3 (by decide)
  refine ⟨?_, h.2.1⟩
  norm_num [StepValue.stepToValue, StepValue.make, Double.divNat, wrap32]

/-- The inner loop of `registerCommand` finds the command exactly when the entry holds a
command of that group and name. -/
theorem any_eqCommand_iff (cmds : List CommandWithKey) (command : Command) :
    cmds.any (fun cmd => cmd.eqCommand command) = true ↔
      ∃ cmd ∈ cmds, cmd.group = command.group ∧ cmd.name = command.name := by
  simp [List.any_eq_true, CommandWithKey.eqCommand]

/-- What the loop of `registerCommand` found when it returns early. -/
theorem scan_registered {command : Command} {c : CommandWithKey} :
    ∀ {l : CommandList}, scan command c l = Scan.registered → CommandList.registered l command
  | [], h => by simp [scan] at h
  | entry :: rest, h => by
    unfold scan at h
    by_cases hg : entry.1 = command.group
    · rw [if_pos hg] at h
      by_cases ha : entry.2.any (fun cmd => cmd.eqCommand command) = true
      · exact ⟨entry, List.mem_cons_self _ _, hg, (any_eqCommand_iff _ _).mp ha⟩
      · rw [if_neg ha] at h
        cases h
    · rw [if_neg hg] at h
      cases hs : scan command c rest with
      | registered =>
        obtain ⟨e, he, h1, h2⟩ := scan_registered hs
        exact ⟨e, List.mem_cons_of_mem _ he, h1, h2⟩
      | added l => rw [hs] at h; cases h
      | notFound => rw [hs] at h; cases h

/-- What the loop of `registerCommand` did when it pushed the command onto an entry: that
entry is the first of the group, it did not hold the command, and the command is now its last
one. -/
theorem scan_added {command : Command} {c : CommandWithKey} :
    ∀ {l l2 : CommandList}, scan command c l = Scan.added l2 →
      ∃ pre entry post, l = pre ++ entry :: post ∧ (∀ e ∈ pre, e.1 ≠ command.group) ∧
        entry.1 = command.group ∧
        (∀ cmd ∈ entry.2, ¬ (cmd.group = command.group ∧ cmd.name = command.name)) ∧
        l2 = pre ++ (entry.1, entry.2 ++ [c]) :: post
  | [], l2, h => by simp [scan] at h
  | entry :: rest, l2, h => by
    unfold scan at h
    by_cases hg : entry.1 = command.group
    · rw [if_pos hg] at h
      by_cases ha : entry.2.any (fun cmd => cmd.eqCommand command) = true
      · rw [if_pos ha] at h
        cases h
      · rw [if_neg ha] at h
        injection h with h
        refine ⟨[], entry, rest, rfl, ?_, hg, ?_, h.symm⟩
        · intro e he
          cases he
        · intro cmd hc hh
          exact ha ((any_eqCommand_iff _ _).mpr ⟨cmd, hc, hh⟩)
    · rw [if_neg hg] at h
      cases hs : scan command c rest with
      | registered => rw [hs] at h; cases h
      | added l =>
        rw [hs] at h
        injection h with h
        obtain ⟨pre, e, post, h1, h2, h3, h4, h5⟩ := scan_added hs
        refine ⟨entry :: pre, e, post, ?_, ?_, h3, h4, ?_⟩
        · rw [h1]; rfl
        · intro x hx
          rcases List.mem_cons.mp hx with hx | hx
          · rw [hx]; exact hg
          · exact h2 x hx
        · rw [← h, h5]; rfl
      | notFound => rw [hs] at h; cases h

/-- When the loop of `registerCommand` ends without adding, no entry has the group. -/
theorem scan_notFound {command : Command} {c : CommandWithKey} :
    ∀ {l : CommandList}, scan command c l = Scan.notFound → ∀ e ∈ l, e.1 ≠ command.group
  | [], _ => by
    intro e he
    cases he
  | entry :: rest, h => by
    unfold scan at h
    by_cases hg : entry.1 = command.group
    · rw [if_pos hg] at h
      by_cases ha : entry.2.any (fun cmd => cmd.eqCommand command) = true
      · rw [if_pos ha] at h
        cases h
      · rw [if_neg ha] at h
        cases h
    · rw [if_neg hg] at h
      cases hs : scan command c rest with
      | registered => rw [hs] at h; cases h
      | added l => rw [hs] at h; cases h
      | notFound =>
        intro e he
        rcases List.mem_cons.mp he with he | he
        · rw [he]; exact hg
        · exact scan_notFound hs e he

/-- With one entry for each group name, a command that is in the entry of its group is found
by the loop of `registerCommand`. -/
theorem scan_of_registered {command : Command} {c : CommandWithKey} :
    ∀ {l : CommandList}, (l.map Prod.fst).Nodup → CommandList.registered l command →
      scan command c l = Scan.registered
  | [], _, h => by
    obtain ⟨e, he, _⟩ := h
    cases he
  | entry :: rest, hnd, h => by
    obtain ⟨e, he, h1, h2⟩ := h
    rw [List.map_cons, List.nodup_cons] at hnd
    unfold scan
    by_cases hg : entry.1 = command.group
    · rw [if_pos hg]
      have hee : e = entry := by
        rcases List.mem_cons.mp he with he | he
        · exact he
        · exact absurd (List.mem_map.mpr ⟨e, he, h1.trans hg.symm⟩) hnd.1
      rw [hee] at h2
      rw [if_pos ((any_eqCommand_iff _ _).mpr h2)]
    · rw [if_neg hg]
      have her : e ∈ rest := by
        rcases List.mem_cons.mp he with he | he
        · rw [he] at h1; exact absurd h1 hg
        · exact he
      rw [scan_of_registered hnd.2 ⟨e, her, h1, h2⟩]

/-- Pushing a command that an entry does not hold onto that entry keeps the command list
well formed. -/
theorem wf_push_command {pre post : CommandList} {entry : String × List CommandWithKey}
    {c : CommandWithKey}
    (hc : ∀ cmd ∈ entry.2, ¬ (cmd.group = c.group ∧ cmd.name = c.name))
    (h : CommandList.Wf (pre ++ entry :: post)) :
    CommandList.Wf (pre ++ (entry.1, entry.2 ++ [c]) :: post) := by
  obtain ⟨h1, h2⟩ := h
  refine ⟨?_, ?_⟩
  · simpa using h1
  · intro e he
    rcases List.mem_append.mp he with he | he
    · exact h2 e (List.mem_append_left _ he)
    · rcases List.mem_cons.mp he with he | he
      · rw [he]
        have hn := h2 entry (List.mem_append_right _ (List.mem_cons_self _ _))
        show (List.map (fun cmd : CommandWithKey => (cmd.group, cmd.name))
          (entry.2 ++ [c])).Nodup
        rw [List.map_append, List.map_singleton]
        refine List.Nodup.append hn (List.nodup_singleton _) ?_
        intro x hx hy
        rw [List.mem_singleton] at hy
        obtain ⟨cmd, hcmd, hxe⟩ := List.mem_map.mp hx
        rw [hy] at hxe
        exact hc cmd hcmd ⟨congrArg Prod.fst hxe, congrArg Prod.snd hxe⟩
      · exact h2 e (List.mem_append_right _ (List.mem_cons_of_mem _ he))

/-- Pushing an entry for a group that has none keeps the command list well formed. -/
theorem wf_push_group {l : CommandList} {g : String} {c : CommandWithKey}
    (hg : ∀ e ∈ l, e.1 ≠ g) (h : CommandList.Wf l) : CommandList.Wf (l ++ [(g, [c])]) := by
  obtain ⟨h1, h2⟩ := h
  refine ⟨?_, ?_⟩
  · rw [List.map_append, List.map_singleton]
    refine List.Nodup.append h1 (List.nodup_singleton _) ?_
    intro x hx hy
    rw [List.mem_singleton] at hy
    obtain ⟨e, he, hxe⟩ := List.mem_map.mp hx
    exact hg e he (hxe.trans hy)
  · intro e he
    rcases List.mem_append.mp he with he | he
    · exact h2 e he
    · rw [List.mem_singleton] at he
      rw [he]
      exact List.nodup_singleton _

/-- The command list is not touched by the call of `onCommandUpdate`. -/
theorem Application.commandUpdate_commandList (app : Application) :
    app.commandUpdate.commandList = app.commandList := by
  unfold Application.commandUpdate
  split_ifs <;> rfl

/-- The call of `onCommandUpdate` is counted when the function is set. -/
theorem Application.commandUpdate_updates (app : Application) :
    app.commandUpdate.updates = app.updates + (if app.onCommandUpdate then 1 else 0) := by
  unfold Application.commandUpdate
  split_ifs <;> rfl

/-- `registerCommand` when its loop finds the command. -/
theorem Application.registerCommand_of_registered {app : Application} {command : Command}
    {key : Nat}
    (hs : scan command ⟨command.group, command.name, key⟩ app.commandList = Scan.registered) :
    app.registerCommand command key = app := by
  simp only [Application.registerCommand, hs]

/-- `registerCommand` when its loop pushes the command onto the entry of its group. -/
theorem Application.registerCommand_of_added {app : Application} {command : Command}
    {key : Nat} {l : CommandList}
    (hs : scan command ⟨command.group, command.name, key⟩ app.commandList = Scan.added l) :
    app.registerCommand command key
      = Application.commandUpdate ⟨l, app.onCommandUpdate, app.updates⟩ := by
  simp only [Application.registerCommand, hs]

/-- `registerCommand` when its loop finds no entry of the group. -/
theorem Application.registerCommand_of_notFound {app : Application} {command : Command}
    {key : Nat}
    (hs : scan command ⟨command.group, command.name, key⟩ app.commandList = Scan.notFound) :
    app.registerCommand command key
      = Application.commandUpdate
          ⟨app.commandList ++ [(command.group, [⟨command.group, command.name, key⟩])],
            app.onCommandUpdate, app.updates⟩ := by
  simp only [Application.registerCommand, hs]

/-- `registerCommand` keeps the command list well formed. -/
theorem Application.registerCommand_wf (app : Application) (command : Command) (key : Nat)
    (h : CommandList.Wf app.commandList) :
    CommandList.Wf (app.registerCommand command key).commandList := by
  cases hs : scan command ⟨command.group, command.name, key⟩ app.commandList with
  | registered =>
    rw [Application.registerCommand_of_registered hs]
    exact h
  | added l =>
    obtain ⟨pre, entry, post, h1, _, _, h4, h5⟩ := scan_added hs
    rw [Application.registerCommand_of_added hs, Application.commandUpdate_commandList]
    show CommandList.Wf l
    rw [h5]
    rw [h1] at h
    exact wf_push_command h4 h
  | notFound =>
    rw [Application.registerCommand_of_notFound hs, Application.commandUpdate_commandList]
    exact wf_push_group (scan_notFound hs) h

/-- The empty command list is well formed. -/
theorem wf_nil : CommandList.Wf [] :=
  ⟨List.nodup_nil, fun _ he => by cases he⟩

/-- `Application::init` keeps the command list well formed. -/
theorem Application.init_wf (app : Application) (k : Commands)
    (h : CommandList.Wf app.commandList) : CommandList.Wf (app.init k).commandList := by
  unfold Application.init
  exact Application.registerCommand_wf _ _ _ (Application.registerCommand_wf _ _ _
    (Application.registerCommand_wf _ _ _ (Application.registerCommand_wf _ _ _
    (Application.registerCommand_wf _ _ _ (Application.registerCommand_wf _ _ _
    (Application.registerCommand_wf _ _ _ (Application.registerCommand_wf _ _ _
    (Application.registerCommand_wf _ _ _ h))))))))

/-- C19: `Application::registerCommand` preserves the invariant that no group name occurs in
more than one entry of the command list and no command (group, name) occurs twice within a
group, and so does `Application::init`, which establishes it from the empty list; registering
an already registered command leaves the application (the command list and the number of calls
of `onCommandUpdate`) unchanged; a command that is not registered is appended at the end of the
entry of its group, or as a new group at the end of the list when no entry has its group, and
`onCommandUpdate` is called once if it is set. -/
theorem C19_registerCommand_keeps_commands_unique (app : Application) (command : Command)
    (key : Nat) (k : Commands) (h : CommandList.Wf app.commandList) :
    CommandList.Wf (app.registerCommand command key).commandList ∧
    CommandList.Wf (app.init k).commandList ∧
    CommandList.Wf (Application.init ⟨[], app.onCommandUpdate, app.updates⟩ k).commandList ∧
    (CommandList.registered app.commandList command → app.registerCommand command key = app) ∧
    (¬ CommandList.registered app.commandList command →
      ((∃ pre entry post, app.commandList = pre ++ entry :: post ∧
          entry.1 = command.group ∧
          (app.registerCommand command key).commandList
            = pre ++ (command.group, entry.2 ++ [⟨command.group, command.name, key⟩]) :: post) ∨
        ((∀ e ∈ app.commandList, e.1 ≠ command.group) ∧
          (app.registerCommand command key).commandList
            = app.commandList ++ [(command.group, [⟨command.group, command.name, key⟩])])) ∧
      (app.registerCommand command key).updates
        = app.updates + (if app.onCommandUpdate then 1 else 0) ∧
      CommandList.registered (app.registerCommand command key).commandList command) := by
  refine ⟨Application.registerCommand_wf _ _ _ h, Application.init_wf _ _ h,
    Application.init_wf _ _ wf_nil, ?_, ?_⟩
  · intro hr
    exact Application.registerCommand_of_registered (scan_of_registered h.1 hr)
  · intro hr
    cases hs : scan command ⟨command.group, command.name, key⟩ app.commandList with
    | registered => exact absurd (scan_registered hs) hr
    | added l =>
      obtain ⟨pre, entry, post, h1, _, h3, _, h5⟩ := scan_added hs
      rw [Application.registerCommand_of_added hs, Application.commandUpdate_commandList,
        Application.commandUpdate_updates]
      have hl : l = pre ++ (command.group, entry.2 ++ [⟨command.group, command.name, key⟩])
          :: post := by
        rw [h5, h3]
      refine ⟨Or.inl ⟨pre, entry, post, h1, h3, hl⟩, rfl, ?_⟩
      show CommandList.registered l command
      rw [hl]
      exact ⟨_, List.mem_append_right _ (List.mem_cons_self _ _), rfl,
        ⟨command.group, command.name, key⟩,
        List.mem_append_right _ (List.mem_singleton_self _), rfl, rfl⟩
    | notFound =>
      rw [Application.registerCommand_of_notFound hs, Application.commandUpdate_commandList,
        Application.commandUpdate_updates]
      refine ⟨Or.inr ⟨scan_notFound hs, rfl⟩, rfl, ?_⟩
      exact ⟨_, List.mem_append_right _ (List.mem_singleton_self _), rfl,
        ⟨command.group, command.name, key⟩, List.mem_singleton_self _, rfl, rfl⟩

/-- Witness for C19: a command list with the group `File` holding `Quit`, to which
`Close Window` is registered. -/
theorem C19_registerCommand_keeps_commands_unique_witness :
    CommandList.Wf
        (Application.mk [("File", [⟨"File", "Quit", 113⟩])] true 0).commandList ∧
      (Application.registerCommand (Application.mk [("File", [⟨"File", "Quit", 113⟩])] true 0)
          ⟨"File", "Close Window"⟩ 119).commandList
        = [("File", [⟨"File", "Quit", 113⟩, ⟨"File", "Close Window", 119⟩])] ∧
      CommandList.Wf
        (Application.registerCommand (Application.mk [("File", [⟨"File", "Quit", 113⟩])] true 0)
          ⟨"File", "Close Window"⟩ 119).commandList :=
  ⟨⟨by simp, by simp⟩, by decide,
    (C19_registerCommand_keeps_commands_unique
      (Application.mk [("File", [⟨"File", "Quit", 113⟩])] true 0) ⟨"File", "Close Window"⟩ 119
      ⟨⟨"", ""⟩, ⟨"", ""⟩, ⟨"", ""⟩, ⟨"", ""⟩, ⟨"", ""⟩, "", "", ⟨"", ""⟩, ⟨"", ""⟩, ⟨"", ""⟩⟩
      ⟨by simp, by simp⟩).1⟩

/-- Powers of two grow with the exponent. -/
theorem two_pow_le_of_le {a b : Nat} (h : a ≤ b) : 2 ^ a ≤ 2 ^ b :=
  Nat.pow_le_pow_right (by decide) h

/-- The bit length of a natural number between two successive powers of two. -/
theorem log2_eq_of_bounds {n k : Nat} (h1 : 2 ^ k ≤ n) (h2 : n < 2 ^ (k + 1)) :
    n.log2 = k := by
  have hn : n ≠ 0 := by
    have : 0 < 2 ^ k := Nat.two_pow_pos _
    omega
  have ha : n.log2 < k + 1 := (Nat.log2_lt hn).mpr h2
  have hb : k ≤ n.log2 := (Nat.le_log2 hn).mpr h1
  omega

/-- The exponent of a positive natural number. -/
theorem ilog2_one {n : Nat} (hn : n ≠ 0) : ilog2 n 1 = (n.log2 : Int) := by
  have h1 : Nat.log2 1 = 0 := log2_eq_of_bounds (k := 0) (by decide) (by decide)
  have h2 : 2 ^ n.log2 ≤ n := Nat.log2_self_le hn
  unfold ilog2
  rw [h1]
  simp only [Int.ofNat_zero, sub_zero, Int.toNat_ofNat, one_mul]
  have h3 : (-(n.log2 : Int)).toNat = 0 := by omega
  rw [h3, pow_zero, mul_one, if_pos h2]

/-- The rounding of a positive natural number, by its bit length. -/
theorem roundPos_natural {n : Nat} (hn : n ≠ 0) :
    roundPos n 1 =
      if roundHalfEven (n * 2 ^ (52 - n.log2)) (2 ^ (n.log2 - 52)) * 2 ^ (n.log2 - 52)
          < 2 ^ 1024 * 2 ^ (52 - n.log2) then
        some (((roundHalfEven (n * 2 ^ (52 - n.log2)) (2 ^ (n.log2 - 52)) * 2 ^ (n.log2 - 52)
          : Nat) : ℚ) / ((2 ^ (52 - n.log2) : Nat) : ℚ))
      else none := by
  unfold roundPos
  rw [ilog2_one hn]
  have h1 : max (n.log2 : Int) (-1022) = (n.log2 : Int) := max_eq_left (by omega)
  have h2 : (52 - (n.log2 : Int)).toNat = 52 - n.log2 := by omega
  have h3 : (-(52 - (n.log2 : Int))).toNat = n.log2 - 52 := by omega
  simp only [h1, h2, h3, one_mul]

/-- The rounding of a natural number. -/
theorem roundDouble_natCast (n : Nat) :
    roundDouble (n : ℚ) =
      if n = 0 then Double.num 0
      else
        match roundPos n 1 with
        | some v => Double.num v
        | none => Double.posInf := by
  unfold roundDouble
  by_cases h : n = 0
  · rw [if_pos h, if_pos (by exact_mod_cast h)]
  · have hq : ¬ ((n : ℚ) = 0) := by exact_mod_cast h
    have hp : (0 : ℚ) < (n : ℚ) := by exact_mod_cast Nat.pos_of_ne_zero h
    rw [if_neg h, if_neg hq]
    simp only [Rat.num_natCast, Int.natAbs_ofNat, Rat.den_natCast, if_pos hp]

/-- An exact quotient is not changed by the rounding. -/
theorem roundHalfEven_of_dvd {x d : Nat} (hd : 0 < d) (h : d ∣ x) :
    roundHalfEven x d = x / d := by
  unfold roundHalfEven
  rw [Nat.mod_eq_zero_of_dvd h, if_pos (by omega)]

/-- The rounded quotient is the quotient or the number after it. -/
theorem roundHalfEven_le (x d : Nat) : roundHalfEven x d ≤ x / d + 1 := by
  unfold roundHalfEven
  split_ifs <;> omega

/-- A natural number below `2 ^ 1024` that is a multiple of the spacing of the doubles around
it is a double: the rounding returns it. -/
theorem roundDouble_exact (n : Nat) (h : n < 2 ^ 1024) (hdiv : 2 ^ (n.log2 - 52) ∣ n) :
    roundDouble (n : ℚ) = Double.num (n : ℚ) := by
  rw [roundDouble_natCast]
  by_cases hn : n = 0
  · rw [if_pos hn, hn]
    simp
  · rw [if_neg hn, roundPos_natural hn]
    have hU : 0 < 2 ^ (52 - n.log2) := Nat.two_pow_pos _
    have hD : 0 < 2 ^ (n.log2 - 52) := Nat.two_pow_pos _
    have hm : roundHalfEven (n * 2 ^ (52 - n.log2)) (2 ^ (n.log2 - 52)) * 2 ^ (n.log2 - 52)
        = n * 2 ^ (52 - n.log2) := by
      rw [roundHalfEven_of_dvd hD (Dvd.dvd.mul_right hdiv _)]
      exact Nat.div_mul_cancel (Dvd.dvd.mul_right hdiv _)
    rw [hm, if_pos (Nat.mul_lt_mul_of_pos_right h hU)]
    have hq : ((2 ^ (52 - n.log2) : Nat) : ℚ) ≠ 0 := by exact_mod_cast (ne_of_gt hU)
    have hv : ((n * 2 ^ (52 - n.log2) : Nat) : ℚ) / ((2 ^ (52 - n.log2) : Nat) : ℚ)
        = (n : ℚ) := by
      rw [Nat.cast_mul, mul_div_assoc, div_self hq, mul_one]
    simp only [hv]

/-- A natural number below `2 ^ 53` is a double. -/
theorem roundDouble_small (n : Nat) (h : n < 2 ^ 53) :
    roundDouble (n : ℚ) = Double.num (n : ℚ) := by
  refine roundDouble_exact n (lt_of_lt_of_le h (two_pow_le_of_le (by decide))) ?_
  by_cases hn : n = 0
  · rw [hn]; exact dvd_zero _
  · have hl : n.log2 < 53 := (Nat.log2_lt hn).mpr h
    have h0 : n.log2 - 52 = 0 := by omega
    rw [h0, pow_zero]
    exact one_dvd _

/-- The rounding of a natural number of more than 53 bits, far below the largest double. -/
theorem roundDouble_of_log2 (n L : Nat) (h1 : 2 ^ L ≤ n) (h2 : n < 2 ^ (L + 1))
    (h52 : 52 ≤ L) (hL : L ≤ 1000) :
    roundDouble (n : ℚ)
      = Double.num ((roundHalfEven n (2 ^ (L - 52)) * 2 ^ (L - 52) : Nat) : ℚ) := by
  have hlog : n.log2 = L := log2_eq_of_bounds h1 h2
  have hn : n ≠ 0 := by
    have : 0 < 2 ^ L := Nat.two_pow_pos _
    omega
  have hU : 52 - L = 0 := by omega
  rw [roundDouble_natCast, if_neg hn, roundPos_natural hn, hlog, hU, pow_zero, mul_one, mul_one]
  have hD : 0 < 2 ^ (L - 52) := Nat.two_pow_pos _
  have hle := roundHalfEven_le n (2 ^ (L - 52))
  have hdm : n / 2 ^ (L - 52) * 2 ^ (L - 52) ≤ n := Nat.div_mul_le_self _ _
  have hb : roundHalfEven n (2 ^ (L - 52)) * 2 ^ (L - 52) ≤ n + 2 ^ (L - 52) := by
    calc roundHalfEven n (2 ^ (L - 52)) * 2 ^ (L - 52)
        ≤ (n / 2 ^ (L - 52) + 1) * 2 ^ (L - 52) := Nat.mul_le_mul_right _ hle
      _ = n / 2 ^ (L - 52) * 2 ^ (L - 52) + 2 ^ (L - 52) := by rw [Nat.add_mul, one_mul]
      _ ≤ n + 2 ^ (L - 52) := Nat.add_le_add_right hdm _
  have hp1 : 2 ^ (L - 52) ≤ 2 ^ (L + 1) := two_pow_le_of_le (by omega)
  have hp2 : 2 ^ (L + 1) + 2 ^ (L + 1) = 2 ^ (L + 2) := by
    rw [pow_succ 2 (L + 1)]; omega
  have hp3 : 2 ^ (L + 2) ≤ 2 ^ 1024 := two_pow_le_of_le (by omega)
  have hlt : roundHalfEven n (2 ^ (L - 52)) * 2 ^ (L - 52) < 2 ^ 1024 := by omega
  rw [if_pos hlt]
  simp

/-- A natural number of `L + 1` bits that is a multiple of `2 ^ (L - 52)` is a double. -/
theorem roundDouble_of_bits (n L : Nat) (h1 : 2 ^ L ≤ n) (h2 : n < 2 ^ (L + 1))
    (hL : L ≤ 1000) (hdiv : 2 ^ (L - 52) ∣ n) : roundDouble (n : ℚ) = Double.num (n : ℚ) := by
  have hlog : n.log2 = L := log2_eq_of_bounds h1 h2
  have hp : 2 ^ (L + 1) ≤ 2 ^ 1024 := two_pow_le_of_le (by omega)
  refine roundDouble_exact n (lt_of_lt_of_le h2 hp) ?_
  rw [hlog]
  exact hdiv

/-- The difference of two finite doubles is the exact difference, rounded. -/
theorem Double.sub_num (a b : ℚ) :
    (Double.num a).sub (Double.num b) = roundDouble (a - b) := rfl

/-- The sum of two finite doubles is the exact sum, rounded. -/
theorem Double.add_num (a b : ℚ) :
    (Double.num a).add (Double.num b) = roundDouble (a + b) := rfl

/-- No double is below another one that is at most it. -/
theorem Double.not_lt_and_le (p x : Double) : ¬ (p.lt x = true ∧ x.le p = true) := by
  cases p <;> cases x <;>
    simp only [Double.lt, Double.le, decide_eq_true_eq, not_and, not_le, imp_self,
      Bool.false_eq_true, false_implies, true_implies, not_false_eq_true, not_true_eq_false]

end Standalone

namespace VSTGUI

open Standalone (Double roundDouble)

/-! ## Claims of VSTGUI -/

/-- No point is inside two rectangles when the right edge of the first is the left edge of
the second. -/
theorem CRect.pointInside_disjoint (a b : CRect) (h : a.right = b.left) (p : CPoint) :
    ¬ (a.pointInside p = true ∧ b.pointInside p = true) := by
  intro hp
  simp only [CRect.pointInside, Bool.and_eq_true] at hp
  obtain ⟨⟨⟨⟨_, h1⟩, _⟩, _⟩, ⟨⟨⟨h2, _⟩, _⟩, _⟩⟩ := hp
  rw [h] at h1
  exact Standalone.Double.not_lt_and_le p.x b.left ⟨h1, h2⟩

/-- A double other than NaN compares equal to itself. -/
theorem double_eq_self (x : Double) (h : x ≠ Double.nan) : x.eq x = true := by
  cases x with
  | num q => simp [Standalone.Double.eq]
  | posInf => rfl
  | negInf => rfl
  | nan => exact absurd rfl h

/-- The rectangle that `getClearMarkRect` insets, for an alignment other than `kRightText`. -/
theorem CSearchTextEdit.getClearMarkRect_of_ne (e : CSearchTextEdit)
    (h : e.getHoriAlign ≠ CHoriTxtAlign.kRightText) :
    e.getClearMarkRect
      = CRect.inset ⟨e.getViewSize.right.sub e.getHeight, e.getViewSize.top,
          e.getViewSize.right, e.getViewSize.bottom⟩ e.getClearMarkInset := by
  simp only [CSearchTextEdit.getClearMarkRect, if_neg h]

/-- The rectangle that `getClearMarkRect` insets, for the alignment `kRightText`. -/
theorem CSearchTextEdit.getClearMarkRect_of_eq (e : CSearchTextEdit)
    (h : e.getHoriAlign = CHoriTxtAlign.kRightText) :
    e.getClearMarkRect
      = CRect.inset ⟨e.getViewSize.left, e.getViewSize.top,
          e.getViewSize.left.add e.getHeight, e.getViewSize.bottom⟩ e.getClearMarkInset := by
  simp only [CSearchTextEdit.getClearMarkRect, if_pos h]

/-- C20 (counterexample).  A view of 10^16 by 3 at the origin, left aligned text, no inset.
The height is 3, and the left edge of the clear mark is the double `10^16 - 3` rounds to,
`10^16 - 4` (around `10^16` the doubles are the even numbers).  So `getClearMarkRect ()` is
4 wide and 3 high, and its left edge is not the one of the 3 by 3 square at the right end of
the view. -/
theorem C20_clear_mark_not_square :
    (CSearchTextEdit.mk ⟨Double.num 0, Double.num 0, Double.num 10000000000000000, Double.num 3⟩
        CHoriTxtAlign.kLeftText ⟨Double.num 0, Double.num 0⟩).getHeight = Double.num 3 ∧
    (CSearchTextEdit.mk ⟨Double.num 0, Double.num 0, Double.num 10000000000000000, Double.num 3⟩
        CHoriTxtAlign.kLeftText ⟨Double.num 0, Double.num 0⟩).getClearMarkRect
      = ⟨Double.num 9999999999999996, Double.num 0, Double.num 10000000000000000,
          Double.num 3⟩ ∧
    (CSearchTextEdit.mk ⟨Double.num 0, Double.num 0, Double.num 10000000000000000, Double.num 3⟩
        CHoriTxtAlign.kLeftText ⟨Double.num 0, Double.num 0⟩).getClearMarkRect.getWidth
      = Double.num 4 ∧
    (CSearchTextEdit.mk ⟨Double.num 0, Double.num 0, Double.num 10000000000000000, Double.num 3⟩
        CHoriTxtAlign.kLeftText ⟨Double.num 0, Double.num 0⟩).getClearMarkRect.getHeight
      = Double.num 3 ∧
    (CSearchTextEdit.mk ⟨Double.num 0, Double.num 0, Double.num 10000000000000000, Double.num 3⟩
        CHoriTxtAlign.kLeftText ⟨Double.num 0, Double.num 0⟩).getClearMarkRect.left
      ≠ Double.num (10000000000000000 - 3) := by
  have r0 : roundDouble 0 = Double.num 0 := by
    unfold Standalone.roundDouble
    rw [if_pos rfl]
  have r3 : roundDouble 3 = Double.num 3 := by
    have h := Standalone.roundDouble_small 3 (by decide)
    norm_num at h
    exact h
  have r4 : roundDouble 4 = Double.num 4 := by
    have h := Standalone.roundDouble_small 4 (by decide)
    norm_num at h
    exact h
  have rr : roundDouble 10000000000000000 = Double.num 10000000000000000 := by
    have h := Standalone.roundDouble_of_bits 10000000000000000 53 (by decide) (by decide)
      (by decide) ⟨5000000000000000, by decide⟩
    norm_num at h
    exact h
  have r96 : roundDouble 9999999999999996 = Double.num 9999999999999996 := by
    have h := Standalone.roundDouble_of_bits 9999999999999996 53 (by decide) (by decide)
      (by decide) ⟨4999999999999998, by decide⟩
    norm_num at h
    exact h
  have r97 : roundDouble 9999999999999997 = Double.num 9999999999999996 := by
    have h := Standalone.roundDouble_of_log2 9999999999999997 53 (by decide) (by decide)
      (by decide) (by decide)
    have hm : Standalone.roundHalfEven 9999999999999997 (2 ^ (53 - 52)) * 2 ^ (53 - 52)
        = 9999999999999996 := by decide
    rw [hm] at h
    norm_num at h
    exact h
  have hh : (CSearchTextEdit.mk
      ⟨Double.num 0, Double.num 0, Double.num 10000000000000000, Double.num 3⟩
      CHoriTxtAlign.kLeftText ⟨Double.num 0, Double.num 0⟩).getHeight = Double.num 3 := by
    simp only [CSearchTextEdit.getHeight, CSearchTextEdit.getViewSize, CRect.getHeight,
      Standalone.Double.sub_num, sub_zero, r3]
  have hc : (CSearchTextEdit.mk
      ⟨Double.num 0, Double.num 0, Double.num 10000000000000000, Double.num 3⟩
      CHoriTxtAlign.kLeftText ⟨Double.num 0, Double.num 0⟩).getClearMarkRect
      = ⟨Double.num 9999999999999996, Double.num 0, Double.num 10000000000000000,
          Double.num 3⟩ := by
    have e1 : (10000000000000000 : ℚ) - 3 = 9999999999999997 := by norm_num
    rw [CSearchTextEdit.getClearMarkRect_of_ne _ (by decide), hh]
    simp only [CSearchTextEdit.getViewSize, CSearchTextEdit.getClearMarkInset, CRect.inset,
      Standalone.Double.sub_num, Standalone.Double.add_num, sub_zero, add_zero, e1, r0, r3,
      rr, r96, r97]
  refine ⟨hh, hc, ?_, ?_, ?_⟩
  · have e2 : (10000000000000000 : ℚ) - 9999999999999996 = 4 := by norm_num
    rw [hc]
    simp only [CRect.getWidth, Standalone.Double.sub_num, e2, r4]
  · rw [hc]
    simp only [CRect.getHeight, Standalone.Double.sub_num, sub_zero, r3]
  · rw [hc]
    intro h
    injection h with h
    norm_num at h

/-- C20 (amended).  For every view size, horizontal alignment and clear-mark inset of a
`CSearchTextEdit`, in double arithmetic: the text rectangle and the clear-mark rectangle
share one vertical edge and no point is inside both.  `getTextRect ().right` is
`getClearMarkRect ().left` when the alignment is not `kRightText`, `getTextRect ().left` is
`getClearMarkRect ().right` when it is (the same double, which compares equal unless it is
NaN), and the other three edges of `getTextRect ()` are those of the view size.
`getClearMarkRect ()` is the inset of the rectangle over the full height of the view between
the edge of the view at that end and the double `right - getHeight ()` (for `kRightText`:
`left + getHeight ()`).  Where the height `h = bottom - top` and that edge are computed
without rounding, this rectangle is the `h` by `h` square at that end of the view. -/
theorem C20_text_and_clear_mark_share_an_edge (e : CSearchTextEdit) :
    (e.getHoriAlign ≠ CHoriTxtAlign.kRightText →
      e.getTextRect.right = e.getClearMarkRect.left ∧
      (e.getClearMarkRect.left ≠ Double.nan →
        e.getTextRect.right.eq e.getClearMarkRect.left = true) ∧
      e.getTextRect.left = e.getViewSize.left ∧ e.getTextRect.top = e.getViewSize.top ∧
      e.getTextRect.bottom = e.getViewSize.bottom ∧
      e.getClearMarkRect
        = CRect.inset ⟨e.getViewSize.right.sub e.getHeight, e.getViewSize.top,
            e.getViewSize.right, e.getViewSize.bottom⟩ e.getClearMarkInset ∧
      (∀ t r h : ℚ, e.getViewSize.top = Double.num t → e.getViewSize.right = Double.num r →
        e.getViewSize.bottom = Double.num (t + h) →
        roundDouble (t + h - t) = Double.num h → roundDouble (r - h) = Double.num (r - h) →
        e.getClearMarkRect
          = CRect.inset ⟨Double.num (r - h), Double.num t, Double.num r, Double.num (t + h)⟩
              e.getClearMarkInset)) ∧
    (e.getHoriAlign = CHoriTxtAlign.kRightText →
      e.getTextRect.left = e.getClearMarkRect.right ∧
      (e.getClearMarkRect.right ≠ Double.nan →
        e.getTextRect.left.eq e.getClearMarkRect.right = true) ∧
      e.getTextRect.right = e.getViewSize.right ∧ e.getTextRect.top = e.getViewSize.top ∧
      e.getTextRect.bottom = e.getViewSize.bottom ∧
      e.getClearMarkRect
        = CRect.inset ⟨e.getViewSize.left, e.getViewSize.top,
            e.getViewSize.left.add e.getHeight, e.getViewSize.bottom⟩ e.getClearMarkInset ∧
      (∀ t l h : ℚ, e.getViewSize.top = Double.num t → e.getViewSize.left = Double.num l →
        e.getViewSize.bottom = Double.num (t + h) →
        roundDouble (t + h - t) = Double.num h → roundDouble (l + h) = Double.num (l + h) →
        e.getClearMarkRect
          = CRect.inset ⟨Double.num l, Double.num t, Double.num (l + h), Double.num (t + h)⟩
              e.getClearMarkInset)) ∧
    (∀ p : CPoint,
      ¬ (e.getTextRect.pointInside p = true ∧ e.getClearMarkRect.pointInside p = true)) := by
  refine ⟨?_, ?_, ?_⟩
  · intro h
    have hr : e.getTextRect.right = e.getClearMarkRect.left := by
      simp only [CSearchTextEdit.getTextRect, if_neg h]
    refine ⟨hr, ?_, ?_, ?_, ?_, CSearchTextEdit.getClearMarkRect_of_ne e h, ?_⟩
    · intro hn
      rw [hr]
      exact double_eq_self _ hn
    · simp only [CSearchTextEdit.getTextRect, if_neg h]
    · simp only [CSearchTextEdit.getTextRect, if_neg h]
    · simp only [CSearchTextEdit.getTextRect, if_neg h]
    · intro t r hq ht hrr hb h1 h2
      rw [CSearchTextEdit.getClearMarkRect_of_ne e h]
      have hh : e.getHeight = Double.num hq := by
        show e.getViewSize.bottom.sub e.getViewSize.top = Double.num hq
        rw [hb, ht, Standalone.Double.sub_num, h1]
      rw [hh, ht, hrr, hb, Standalone.Double.sub_num, h2]
  · intro h
    have hl : e.getTextRect.left = e.getClearMarkRect.right := by
      simp only [CSearchTextEdit.getTextRect, if_pos h]
    refine ⟨hl, ?_, ?_, ?_, ?_, CSearchTextEdit.getClearMarkRect_of_eq e h, ?_⟩
    · intro hn
      rw [hl]
      exact double_eq_self _ hn
    · simp only [CSearchTextEdit.getTextRect, if_pos h]
    · simp only [CSearchTextEdit.getTextRect, if_pos h]
    · simp only [CSearchTextEdit.getTextRect, if_pos h]
    · intro t l hq ht hll hb h1 h2
      rw [CSearchTextEdit.getClearMarkRect_of_eq e h]
      have hh : e.getHeight = Double.num hq := by
        show e.getViewSize.bottom.sub e.getViewSize.top = Double.num hq
        rw [hb, ht, Standalone.Double.sub_num, h1]
      rw [hh, ht, hll, hb, Standalone.Double.add_num, h2]
  · intro p
    by_cases h : e.getHoriAlign = CHoriTxtAlign.kRightText
    · intro hp
      refine CRect.pointInside_disjoint e.getClearMarkRect e.getTextRect ?_ p ⟨hp.2, hp.1⟩
      simp only [CSearchTextEdit.getTextRect, if_pos h]
    · refine CRect.pointInside_disjoint e.getTextRect e.getClearMarkRect ?_ p
      simp only [CSearchTextEdit.getTextRect, if_neg h]

/-- Witness of C20: a view of 100 by 20 at the origin with left aligned text and a clear-mark
inset of 2.  The height 20 and the edge `100 - 20` are computed without rounding, and the
clear mark is the inset of the 20 by 20 square at the right end of the view. -/
theorem C20_text_and_clear_mark_share_an_edge_witness :
    roundDouble ((0 : ℚ) + 20 - 0) = Double.num 20 ∧
      roundDouble ((100 : ℚ) - 20) = Double.num (100 - 20) ∧
      (CSearchTextEdit.mk ⟨Double.num 0, Double.num 0, Double.num 100, Double.num (0 + 20)⟩
          CHoriTxtAlign.kLeftText ⟨Double.num 2, Double.num 2⟩).getClearMarkRect
        = CRect.inset
            ⟨Double.num (100 - 20), Double.num 0, Double.num 100, Double.num (0 + 20)⟩
            ⟨Double.num 2, Double.num 2⟩ :=
  have h1 : roundDouble ((0 : ℚ) + 20 - 0) = Double.num 20 := by
    have h := Standalone.roundDouble_small 20 (by decide)
    norm_num at h ⊢
    exact h
  have h2 : roundDouble ((100 : ℚ) - 20) = Double.num (100 - 20) := by
    have h := Standalone.roundDouble_small 80 (by decide)
    norm_num at h ⊢
    exact h
  ⟨h1, h2,
    ((C20_text_and_clear_mark_share_an_edge
      (CSearchTextEdit.mk ⟨Double.num 0, Double.num 0, Double.num 100, Double.num (0 + 20)⟩
        CHoriTxtAlign.kLeftText ⟨Double.num 2, Double.num 2⟩)).1 (by decide)).2.2.2.2.2.2
      0 100 20 rfl rfl rfl h1 h2⟩

end VSTGUI
